import Mathlib

/-!
Shallow embedding of the `cryptolab` cipher core (src/cryptolab/ciphers/).

Strings are modelled as lists of Unicode code points (`Str := List Nat`).
The embedding covers the ASCII fragment of Python's string semantics:
`isalpha`, `upper` and the per-character arithmetic are modelled for ASCII
code points, and the theorems that quantify over arbitrary inputs carry an
ASCII side condition where the source uses `str.isalpha`/`str.upper`.
Python `%` on `int` with a positive modulus is Euclidean; it is modelled
with `Int.emod`.  A Python function that can raise an exception is
modelled as returning an `Option`, `none` standing for the raise.
Keys that the source parses from strings with `int()`/`split()` are
modelled post-parsing (as `Int` values) except where a claim is about the
parsing itself.
-/

/-- A Python string, as its list of code points. -/
abbrev Str := List Nat

/-- Code points of a Lean string literal, for writing concrete inputs. -/
def S (s : String) : Str := s.data.map Char.toNat

/-- ASCII uppercase letter (`A`-`Z`). -/
def isUpperA (c : Nat) : Bool := 65 ≤ c && c ≤ 90

/-- ASCII lowercase letter (`a`-`z`). -/
def isLowerA (c : Nat) : Bool := 97 ≤ c && c ≤ 122

/-- Python `str.isalpha`, restricted to the ASCII fragment. -/
def isAlphaA (c : Nat) : Bool := isUpperA c || isLowerA c

/-- Python `str.upper` on one ASCII code point. -/
def toUpperA (c : Nat) : Nat := if isLowerA c then c - 32 else c

/-- A code point is ASCII. -/
def isAscii (c : Nat) : Bool := c < 128

/-- Every code point of the string is ASCII. -/
def asciiStr (t : Str) : Prop := ∀ c ∈ t, isAscii c = true

instance asciiStrDecidable (t : Str) : Decidable (asciiStr t) := by
  unfold asciiStr; infer_instance

namespace caesar

/-- Loop body of `CaesarCipher.encrypt`: shift one (already upcased)
character, pass non-letters through. -/
def encChar (shift : Nat) (c : Nat) : Nat :=
  if isAlphaA c then 65 + ((c - 65 + shift) % 26) else c

/-- `CaesarCipher.encrypt` (caesar.py): upcases the plaintext, shifts each
alphabetic character by `int(key) % 26`, passes other characters through. -/
def encrypt (plaintext : Str) (key : Int) : Str :=
  (plaintext.map toUpperA).map (encChar (key % 26).toNat)

/-- `CaesarCipher.decrypt` (caesar.py): encrypt with shift `26 - int(key) % 26`. -/
def decrypt (ciphertext : Str) (key : Int) : Str :=
  encrypt ciphertext (26 - key % 26)

/-- `CaesarCipher.validate_key` acceptance on an integer-parsable key. -/
def validAccepts (k : Int) : Bool := 1 ≤ k && k ≤ 25

end caesar

namespace additive

/-- Loop body of `AdditiveCipher.encrypt`: case-preserving shift of one
character; non-letters pass through. -/
def encChar (k : Nat) (c : Nat) : Nat :=
  if isAlphaA c then
    (if isUpperA c then 65 else 97) + ((c - (if isUpperA c then 65 else 97) + k) % 26)
  else c

/-- Loop body of `AdditiveCipher.decrypt`: case-preserving subtraction
modulo 26 (Python `%` on a possibly negative value, hence `Int.emod`). -/
def decChar (k : Nat) (c : Nat) : Nat :=
  if isAlphaA c then
    (if isUpperA c then 65 else 97) +
      ((((c : Int) - (if isUpperA c then (65 : Int) else 97) - (k : Int)) % 26).toNat)
  else c

/-- `AdditiveCipher.encrypt` (additive.py): case-preserving shift by
`int(key) % 26`; non-letters pass through. -/
def encrypt (plaintext : Str) (key : Int) : Str :=
  plaintext.map (encChar (key % 26).toNat)

/-- `AdditiveCipher.decrypt` (additive.py): case-preserving subtraction of
`int(key) % 26` modulo 26. -/
def decrypt (ciphertext : Str) (key : Int) : Str :=
  ciphertext.map (decChar (key % 26).toNat)

/-- `AdditiveCipher.validate_key` acceptance on an integer-parsable key. -/
def validAccepts (k : Int) : Bool := 0 ≤ k && k ≤ 25

end additive

-- basic facts about the character helpers

theorem isUpperA_iff (c : Nat) : isUpperA c = true ↔ 65 ≤ c ∧ c ≤ 90 := by
  unfold isUpperA
  simp [Bool.and_eq_true, decide_eq_true_eq]

theorem isLowerA_iff (c : Nat) : isLowerA c = true ↔ 97 ≤ c ∧ c ≤ 122 := by
  unfold isLowerA
  simp [Bool.and_eq_true, decide_eq_true_eq]

theorem isAlphaA_iff (c : Nat) :
    isAlphaA c = true ↔ (65 ≤ c ∧ c ≤ 90) ∨ (97 ≤ c ∧ c ≤ 122) := by
  unfold isAlphaA
  rw [Bool.or_eq_true, isUpperA_iff, isLowerA_iff]

theorem toUpperA_eq (c : Nat) :
    toUpperA c = if 97 ≤ c ∧ c ≤ 122 then c - 32 else c := by
  unfold toUpperA
  by_cases h : 97 ≤ c ∧ c ≤ 122
  · rw [if_pos ((isLowerA_iff c).mpr h), if_pos h]
  · rw [if_neg (fun hb => h ((isLowerA_iff c).mp hb)), if_neg h]

theorem toUpperA_of_upper {c : Nat} (h : isUpperA c = true) : toUpperA c = c := by
  rw [isUpperA_iff] at h
  rw [toUpperA_eq, if_neg]
  omega

theorem isAlphaA_toUpperA (c : Nat) :
    isAlphaA (toUpperA c) = isAlphaA c := by
  rw [Bool.eq_iff_iff, isAlphaA_iff, isAlphaA_iff, toUpperA_eq]
  by_cases h : 97 ≤ c ∧ c ≤ 122
  · rw [if_pos h]; omega
  · rw [if_neg h]

theorem isUpperA_toUpperA_of_alpha {c : Nat} (h : isAlphaA c = true) :
    isUpperA (toUpperA c) = true := by
  rw [isAlphaA_iff] at h
  rw [isUpperA_iff, toUpperA_eq]
  by_cases hl : 97 ≤ c ∧ c ≤ 122
  · rw [if_pos hl]; omega
  · rw [if_neg hl]; omega

-- facts about `Int % 26` reductions

theorem emod26_nonneg (k : Int) : 0 ≤ k % 26 := Int.emod_nonneg k (by norm_num)

theorem emod26_lt (k : Int) : k % 26 < 26 := Int.emod_lt_of_pos k (by norm_num)

theorem toUpperA_idem (c : Nat) : toUpperA (toUpperA c) = toUpperA c := by
  by_cases h : 97 ≤ c ∧ c ≤ 122
  · rw [toUpperA_eq c, if_pos h, toUpperA_eq, if_neg (by omega)]
  · rw [toUpperA_eq c, if_neg h]
    rw [toUpperA_eq c, if_neg h]

theorem isUpperA_alpha {c : Nat} (h : isUpperA c = true) : isAlphaA c = true := by
  unfold isAlphaA; rw [h, Bool.true_or]

theorem caesar_encChar_upper (s : Nat) {c : Nat} (h : isUpperA c = true) :
    isUpperA (caesar.encChar s c) = true := by
  unfold caesar.encChar
  rw [if_pos (isUpperA_alpha h)]
  rw [isUpperA_iff] at h ⊢
  omega

theorem caesar_encChar_nonalpha (s : Nat) {c : Nat} (h : ¬ isAlphaA c = true) :
    caesar.encChar s c = c := by
  unfold caesar.encChar
  rw [if_neg h]

/-- Two complementary shifts modulo 26 cancel. -/
theorem shift_cancel (s1 s2 x : Nat) (hx : x < 26) (h1 : s1 < 26) (h2 : s2 < 26)
    (hsum : (s1 + s2) % 26 = 0) : ((x + s1) % 26 + s2) % 26 = x := by
  omega

/-- The Caesar decrypt shift `26 - int(key) % 26` complements the encrypt shift. -/
theorem caesar_shifts_complement (k : Int) :
    ((k % 26).toNat + ((26 - k % 26) % 26).toNat) % 26 = 0 ∧
      (k % 26).toNat < 26 ∧ ((26 - k % 26) % 26).toNat < 26 := by
  have h26 : (0:Int) ≤ k % 26 := emod26_nonneg k
  have h26' : k % 26 < 26 := emod26_lt k
  by_cases hz : k % 26 = 0
  · rw [hz, sub_zero]
    have h0 : ((26:Int) % 26) = 0 := by decide
    rw [h0]
    omega
  · have hh : (26 - k % 26) % 26 = 26 - k % 26 :=
      Int.emod_eq_of_lt (by omega) (by omega)
    rw [hh]
    omega

/-- Caesar round-trip: decrypt ∘ encrypt upcases the plaintext. -/
theorem caesar_roundtrip (t : Str) (k : Int) :
    caesar.decrypt (caesar.encrypt t k) k = t.map toUpperA := by
  obtain ⟨hsum, hs1, hs2⟩ := caesar_shifts_complement k
  unfold caesar.decrypt caesar.encrypt
  rw [List.map_map, List.map_map, List.map_map]
  induction t with
  | nil => rfl
  | cons c rest ih =>
    rw [List.map_cons, List.map_cons, List.cons.injEq]
    refine ⟨?_, ih⟩
    simp only [Function.comp_apply]
    by_cases halpha : isAlphaA (toUpperA c) = true
    · have hu : isUpperA (toUpperA c) = true := by
        rw [isAlphaA_toUpperA] at halpha
        exact isUpperA_toUpperA_of_alpha halpha
      have h1 : isUpperA (caesar.encChar (k % 26).toNat (toUpperA c)) = true :=
        caesar_encChar_upper _ hu
      rw [toUpperA_of_upper h1]
      have e1 : caesar.encChar (k % 26).toNat (toUpperA c)
          = 65 + ((toUpperA c - 65 + (k % 26).toNat) % 26) := by
        unfold caesar.encChar
        rw [if_pos halpha]
      rw [e1]
      have h2 : isAlphaA (65 + ((toUpperA c - 65 + (k % 26).toNat) % 26)) = true := by
        rw [isAlphaA_iff]; omega
      unfold caesar.encChar
      rw [if_pos h2]
      rw [isUpperA_iff] at hu
      have := shift_cancel (k % 26).toNat ((26 - k % 26) % 26).toNat
        (toUpperA c - 65) (by omega) hs1 hs2 hsum
      omega
    · rw [caesar_encChar_nonalpha _ halpha, toUpperA_idem,
        caesar_encChar_nonalpha _ halpha]

/-- Reduce `Int % 26` on a value already in `[-26, 26)`. -/
theorem int_emod26_cases (X : Int) (hl : -26 ≤ X) (hu : X < 26) :
    X % 26 = if 0 ≤ X then X else X + 26 := by
  by_cases h : 0 ≤ X
  · rw [if_pos h]
    exact Int.emod_eq_of_lt h hu
  · rw [if_neg h]
    have e : (X + 26) % 26 = X % 26 := by
      have h1 := Int.add_mul_emod_self_left X 26 1
      rwa [mul_one] at h1
    rw [← e]
    exact Int.emod_eq_of_lt (by omega) (by omega)

/-- Subtracting the shift after a modular shift-add recovers the value. -/
theorem dec_shift_cancel (x s : Nat) (hx : x < 26) (hs : s < 26) :
    ((((x + s) % 26 : Nat) : Int) - (s : Int)) % 26 = (x : Int) := by
  rw [int_emod26_cases _ (by omega) (by omega)]
  split_ifs with h
  · omega
  · omega

theorem additive_decChar_encChar (k : Nat) (hk : k < 26) (c : Nat) :
    additive.decChar k (additive.encChar k c) = c := by
  unfold additive.encChar additive.decChar
  by_cases halpha : isAlphaA c = true
  · rw [if_pos halpha]
    by_cases hu : isUpperA c = true
    · rw [if_pos hu]
      rw [isUpperA_iff] at hu
      have h2 : isAlphaA (65 + ((c - 65 + k) % 26)) = true := by
        rw [isAlphaA_iff]; omega
      have h3 : isUpperA (65 + ((c - 65 + k) % 26)) = true := by
        rw [isUpperA_iff]; omega
      rw [if_pos h2, if_pos h3, if_pos h3]
      have hX : ((65 + (c - 65 + k) % 26 : Nat) : Int) - 65 - (k : Int)
          = (((c - 65 + k) % 26 : Nat) : Int) - (k : Int) := by
        push_cast
        ring
      rw [hX, dec_shift_cancel (c - 65) k (by omega) hk]
      omega
    · rw [if_neg hu]
      have hl : 97 ≤ c ∧ c ≤ 122 := by
        rw [isAlphaA_iff] at halpha
        rw [isUpperA_iff] at hu
        rcases halpha with h | h
        · exact absurd h hu
        · exact h
      have h2 : isAlphaA (97 + ((c - 97 + k) % 26)) = true := by
        rw [isAlphaA_iff]; omega
      have h3 : ¬ isUpperA (97 + ((c - 97 + k) % 26)) = true := by
        rw [isUpperA_iff]; omega
      rw [if_pos h2, if_neg h3, if_neg h3]
      have hX : ((97 + (c - 97 + k) % 26 : Nat) : Int) - 97 - (k : Int)
          = (((c - 97 + k) % 26 : Nat) : Int) - (k : Int) := by
        push_cast
        ring
      rw [hX, dec_shift_cancel (c - 97) k (by omega) hk]
      omega
  · rw [if_neg halpha, if_neg halpha]

/-- Additive round-trip: decrypt ∘ encrypt is the identity. -/
theorem additive_roundtrip (t : Str) (k : Int) :
    additive.decrypt (additive.encrypt t k) k = t := by
  unfold additive.decrypt additive.encrypt
  rw [List.map_map]
  induction t with
  | nil => rfl
  | cons c rest ih =>
    rw [List.map_cons, Function.comp_apply,
      additive_decChar_encChar _ (by
        have h1 := emod26_lt k
        have h2 := emod26_nonneg k
        omega) c, ih]

/-- `_mod_inverse` of multiplicative.py and affine.py (identical code):
first `x` in `range(1, 26)` with `(a * x) % 26 == 1`; `none` models the
`ValueError` raised when no inverse exists. -/
def modInverseSearch (a : Int) : Option Nat :=
  (List.range' 1 25).find? (fun x => decide ((a * (x : Int)) % 26 = 1))

namespace multiplicative

/-- Loop body of `MultiplicativeCipher.encrypt` (and of `decrypt`, which
runs the same loop with the inverse multiplier). -/
def encChar (k : Int) (c : Nat) : Nat :=
  if isAlphaA c then 65 + ((k * ((c : Int) - 65)) % 26).toNat else c

/-- `MultiplicativeCipher.encrypt` (multiplicative.py). -/
def encrypt (plaintext : Str) (key : Int) : Str :=
  (plaintext.map toUpperA).map (encChar key)

/-- `MultiplicativeCipher.decrypt` (multiplicative.py): look up the modular
inverse (raising if none) and multiply by it. -/
def decrypt (ciphertext : Str) (key : Int) : Option Str :=
  match modInverseSearch key with
  | none => none
  | some kinv => some ((ciphertext.map toUpperA).map (encChar (kinv : Int)))

/-- `MultiplicativeCipher.validate_key` acceptance on an integer-parsable key. -/
def validAccepts (k : Int) : Bool := decide (Int.gcd k 26 = 1)

end multiplicative

namespace affine

/-- Loop body of `AffineCipher.encrypt`. -/
def encChar (a b : Int) (c : Nat) : Nat :=
  if isAlphaA c then 65 + ((a * ((c : Int) - 65) + b) % 26).toNat else c

/-- `AffineCipher.encrypt` (affine.py), with the key already parsed into
the two integers `a b`. -/
def encrypt (plaintext : Str) (a b : Int) : Str :=
  (plaintext.map toUpperA).map (encChar a b)

/-- Loop body of `AffineCipher.decrypt`. -/
def decChar (ainv b : Int) (c : Nat) : Nat :=
  if isAlphaA c then 65 + ((ainv * (((c : Int) - 65) - b)) % 26).toNat else c

/-- `AffineCipher.decrypt` (affine.py): look up `a⁻¹ mod 26` (raising if
none) and apply `a⁻¹ * (y - b) mod 26` per letter. -/
def decrypt (ciphertext : Str) (a b : Int) : Option Str :=
  match modInverseSearch a with
  | none => none
  | some ainv => some ((ciphertext.map toUpperA).map (decChar (ainv : Int) b))

/-- `AffineCipher.validate_key` acceptance on a well-formed two-number
key string `a b`. -/
def validAccepts (a b : Int) : Bool := decide (Int.gcd a 26 = 1)

end affine

-- modular inverse search: success and correctness for coprime keys

theorem find?_ext {α : Type} (p q : α → Bool) (l : List α)
    (h : ∀ a ∈ l, p a = q a) : l.find? p = l.find? q := by
  induction l with
  | nil => rfl
  | cons a rest ih =>
    rw [List.find?_cons, List.find?_cons, h a (List.mem_cons_self a rest)]
    cases q a with
    | true => rfl
    | false => exact ih (fun b hb => h b (List.mem_cons_of_mem a hb))

theorem gcd26_emod (k : Int) (h : Int.gcd k 26 = 1) : Int.gcd (k % 26) 26 = 1 := by
  rw [Int.gcd_eq_one_iff_coprime] at h ⊢
  obtain ⟨u, v, huv⟩ := h
  refine ⟨u, v + u * (k / 26), ?_⟩
  rw [Int.emod_def]
  calc u * (k - 26 * (k / 26)) + (v + u * (k / 26)) * 26
      = u * k + v * 26 := by ring
    _ = 1 := huv

theorem modInverseSearch_emod (k : Int) :
    modInverseSearch k = modInverseSearch (k % 26) := by
  unfold modInverseSearch
  apply find?_ext
  intro x _
  have e : (k * (x : Int)) % 26 = ((k % 26) * (x : Int)) % 26 := by
    conv_lhs => rw [Int.mul_emod]
    conv_rhs => rw [Int.mul_emod, Int.emod_emod_of_dvd k dvd_rfl]
  rw [e]

theorem modInverseSearch_residue_isSome :
    ∀ r : Nat, r < 26 → Nat.gcd r 26 = 1 →
      (modInverseSearch (r : Int)).isSome = true := by
  decide

/-- For a key coprime with 26 the inverse search succeeds, and the found
value is a genuine modular inverse. -/
theorem modInverseSearch_spec (k : Int) (h : Int.gcd k 26 = 1) :
    ∃ x : Nat, modInverseSearch k = some x ∧ (k * (x : Int)) % 26 = 1 := by
  have hr : ((k % 26).toNat : Int) = k % 26 :=
    Int.toNat_of_nonneg (emod26_nonneg k)
  have hlt : (k % 26).toNat < 26 := by
    have := emod26_lt k
    omega
  have hg : Nat.gcd (k % 26).toNat 26 = 1 := by
    have h2 := gcd26_emod k h
    rw [← hr] at h2
    rw [← Int.gcd_natCast_natCast]
    exact h2
  have hsome := modInverseSearch_residue_isSome (k % 26).toNat hlt hg
  rw [hr, ← modInverseSearch_emod k] at hsome
  obtain ⟨x, hx⟩ := Option.isSome_iff_exists.mp hsome
  refine ⟨x, hx, ?_⟩
  have hp := List.find?_some hx
  simpa using hp

/-- Cancellation of a modular inverse against a reduced product. -/
theorem inv_mul_cancel26 (k kinv x : Int) (hk : (k * kinv) % 26 = 1)
    (h0 : 0 ≤ x) (h1 : x < 26) :
    (kinv * ((k * x) % 26)) % 26 = x := by
  have m0 : (k * x) % 26 ≡ k * x [ZMOD 26] :=
    Int.emod_emod_of_dvd (k * x) dvd_rfl
  have m1 : kinv * ((k * x) % 26) ≡ kinv * (k * x) [ZMOD 26] :=
    m0.mul_left kinv
  have m2 : kinv * (k * x) = (k * kinv) * x := by ring
  have m3 : (k * kinv) * x ≡ 1 * x [ZMOD 26] := by
    apply Int.ModEq.mul_right
    unfold Int.ModEq
    rw [hk]
    rfl
  have := (m1.trans (m2 ▸ m3))
  unfold Int.ModEq at this
  rw [this, one_mul]
  exact Int.emod_eq_of_lt h0 h1

/-- Cancellation for the affine transform. -/
theorem affine_cancel26 (a ainv b x : Int) (ha : (a * ainv) % 26 = 1)
    (h0 : 0 ≤ x) (h1 : x < 26) :
    (ainv * (((a * x + b) % 26) - b)) % 26 = x := by
  have m0 : (a * x + b) % 26 ≡ a * x + b [ZMOD 26] :=
    Int.emod_emod_of_dvd (a * x + b) dvd_rfl
  have m1 : ainv * (((a * x + b) % 26) - b) ≡ ainv * ((a * x + b) - b) [ZMOD 26] :=
    (m0.sub_right b).mul_left ainv
  have m2 : ainv * ((a * x + b) - b) = (a * ainv) * x := by ring
  have m3 : (a * ainv) * x ≡ 1 * x [ZMOD 26] := by
    apply Int.ModEq.mul_right
    unfold Int.ModEq
    rw [ha]
    rfl
  have := (m1.trans (m2 ▸ m3))
  unfold Int.ModEq at this
  rw [this, one_mul]
  exact Int.emod_eq_of_lt h0 h1

theorem mult_encChar_upper (k : Int) {c : Nat} (h : isUpperA c = true) :
    isUpperA (multiplicative.encChar k c) = true := by
  unfold multiplicative.encChar
  rw [if_pos (isUpperA_alpha h)]
  rw [isUpperA_iff] at h ⊢
  have h1 := emod26_nonneg (k * ((c : Int) - 65))
  have h2 := emod26_lt (k * ((c : Int) - 65))
  omega

theorem mult_encChar_nonalpha (k : Int) {c : Nat} (h : ¬ isAlphaA c = true) :
    multiplicative.encChar k c = c := by
  unfold multiplicative.encChar
  rw [if_neg h]

theorem mult_char_cancel (k : Int) (x : Nat) (hmul : (k * (x : Int)) % 26 = 1)
    {c : Nat} (hu : isUpperA c = true) :
    multiplicative.encChar (x : Int) (multiplicative.encChar k c) = c := by
  have e1 : multiplicative.encChar k c = 65 + ((k * ((c : Int) - 65)) % 26).toNat := by
    unfold multiplicative.encChar
    rw [if_pos (isUpperA_alpha hu)]
  have h2 : isUpperA (multiplicative.encChar k c) = true := mult_encChar_upper k hu
  rw [e1] at h2 ⊢
  unfold multiplicative.encChar
  rw [if_pos (isUpperA_alpha h2)]
  have hnn := emod26_nonneg (k * ((c : Int) - 65))
  have hlt := emod26_lt (k * ((c : Int) - 65))
  have ecast : ((65 + ((k * ((c : Int) - 65)) % 26).toNat : Nat) : Int) - 65
      = (k * ((c : Int) - 65)) % 26 := by
    omega
  rw [ecast]
  rw [isUpperA_iff] at hu
  rw [inv_mul_cancel26 k x ((c : Int) - 65) hmul (by omega) (by omega)]
  omega

/-- Multiplicative round-trip: for a key coprime with 26, decrypt ∘ encrypt
upcases the plaintext. -/
theorem multiplicative_roundtrip (t : Str) (k : Int) (h : Int.gcd k 26 = 1) :
    multiplicative.decrypt (multiplicative.encrypt t k) k = some (t.map toUpperA) := by
  obtain ⟨x, hx, hmul⟩ := modInverseSearch_spec k h
  unfold multiplicative.decrypt
  rw [hx]
  apply congrArg some
  unfold multiplicative.encrypt
  rw [List.map_map, List.map_map, List.map_map]
  induction t with
  | nil => rfl
  | cons c rest ih =>
    rw [List.map_cons, List.map_cons, List.cons.injEq]
    refine ⟨?_, ih⟩
    simp only [Function.comp_apply]
    by_cases halpha : isAlphaA (toUpperA c) = true
    · have hu : isUpperA (toUpperA c) = true := by
        rw [isAlphaA_toUpperA] at halpha
        exact isUpperA_toUpperA_of_alpha halpha
      rw [toUpperA_of_upper (mult_encChar_upper k hu)]
      exact mult_char_cancel k x hmul hu
    · rw [mult_encChar_nonalpha _ halpha, toUpperA_idem,
        mult_encChar_nonalpha _ halpha]

theorem affine_encChar_upper (a b : Int) {c : Nat} (h : isUpperA c = true) :
    isUpperA (affine.encChar a b c) = true := by
  unfold affine.encChar
  rw [if_pos (isUpperA_alpha h)]
  rw [isUpperA_iff] at h ⊢
  have h1 := emod26_nonneg (a * ((c : Int) - 65) + b)
  have h2 := emod26_lt (a * ((c : Int) - 65) + b)
  omega

theorem affine_encChar_nonalpha (a b : Int) {c : Nat} (h : ¬ isAlphaA c = true) :
    affine.encChar a b c = c := by
  unfold affine.encChar
  rw [if_neg h]

theorem affine_decChar_nonalpha (a b : Int) {c : Nat} (h : ¬ isAlphaA c = true) :
    affine.decChar a b c = c := by
  unfold affine.decChar
  rw [if_neg h]

theorem affine_char_cancel (a b : Int) (x : Nat) (hmul : (a * (x : Int)) % 26 = 1)
    {c : Nat} (hu : isUpperA c = true) :
    affine.decChar (x : Int) b (affine.encChar a b c) = c := by
  have e1 : affine.encChar a b c = 65 + ((a * ((c : Int) - 65) + b) % 26).toNat := by
    unfold affine.encChar
    rw [if_pos (isUpperA_alpha hu)]
  have h2 : isUpperA (affine.encChar a b c) = true := affine_encChar_upper a b hu
  rw [e1] at h2 ⊢
  unfold affine.decChar
  rw [if_pos (isUpperA_alpha h2)]
  have hnn := emod26_nonneg (a * ((c : Int) - 65) + b)
  have hlt := emod26_lt (a * ((c : Int) - 65) + b)
  have ecast : ((65 + ((a * ((c : Int) - 65) + b) % 26).toNat : Nat) : Int) - 65
      = (a * ((c : Int) - 65) + b) % 26 := by
    omega
  rw [ecast]
  rw [isUpperA_iff] at hu
  rw [affine_cancel26 a x b ((c : Int) - 65) hmul (by omega) (by omega)]
  omega

/-- Affine round-trip: for `a` coprime with 26, decrypt ∘ encrypt upcases
the plaintext. -/
theorem affine_roundtrip (t : Str) (a b : Int) (h : Int.gcd a 26 = 1) :
    affine.decrypt (affine.encrypt t a b) a b = some (t.map toUpperA) := by
  obtain ⟨x, hx, hmul⟩ := modInverseSearch_spec a h
  unfold affine.decrypt
  rw [hx]
  apply congrArg some
  unfold affine.encrypt
  rw [List.map_map, List.map_map, List.map_map]
  induction t with
  | nil => rfl
  | cons c rest ih =>
    rw [List.map_cons, List.map_cons, List.cons.injEq]
    refine ⟨?_, ih⟩
    simp only [Function.comp_apply]
    by_cases halpha : isAlphaA (toUpperA c) = true
    · have hu : isUpperA (toUpperA c) = true := by
        rw [isAlphaA_toUpperA] at halpha
        exact isUpperA_toUpperA_of_alpha halpha
      rw [toUpperA_of_upper (affine_encChar_upper a b hu)]
      exact affine_char_cancel a b x hmul hu
    · rw [affine_encChar_nonalpha _ _ halpha, toUpperA_idem,
        affine_decChar_nonalpha _ _ halpha]

/-- Case-preserving key-stream encryption of one character (loop body of
`OTPCipher.encrypt` and `AutokeyCipher.encrypt`): shift the upcased letter,
emit in the case of the input. -/
def encCaseChar (kc c : Nat) : Nat :=
  if isUpperA c then
    65 + ((((toUpperA c : Int) - 65) + ((kc : Int) - 65)) % 26).toNat
  else
    97 + ((((toUpperA c : Int) - 65) + ((kc : Int) - 65)) % 26).toNat

/-- Case-preserving key-stream decryption of one character (loop body of
`OTPCipher.decrypt`; `AutokeyCipher.decrypt` additionally extends its key
with the upcased recovered letter). -/
def decCaseChar (kc c : Nat) : Nat :=
  if isUpperA c then
    65 + ((((toUpperA c : Int) - 65) - ((kc : Int) - 65)) % 26).toNat
  else
    97 + ((((toUpperA c : Int) - 65) - ((kc : Int) - 65)) % 26).toNat

namespace vigenere

/-- `key.upper().replace(" ", "")` in `VigenereCipher.encrypt`/`decrypt`. -/
def cleanKey (key : Str) : Str :=
  (key.map toUpperA).filter (fun c => decide (c ≠ 32))

/-- Shift one (already upcased) character by `ord(key[i % len(key)]) - 65`. -/
def encCharWith (kc c : Nat) : Nat :=
  65 + ((((c : Int) - 65) + ((kc : Int) - 65)) % 26).toNat

/-- Unshift one (already upcased) character. -/
def decCharWith (kc c : Nat) : Nat :=
  65 + ((((c : Int) - 65) - ((kc : Int) - 65)) % 26).toNat

/-- Encrypt loop of `VigenereCipher.encrypt`: the key index advances on
alphabetic characters only; `none` models the `ZeroDivisionError` hit when
the cleaned key is empty and a letter is reached. -/
def encGo (ck : Str) (i : Nat) : Str → Option Str
  | [] => some []
  | c :: rest =>
    if isAlphaA c then
      match ck[i % ck.length]? with
      | none => none
      | some kc =>
        match encGo ck (i + 1) rest with
        | none => none
        | some r => some (encCharWith kc c :: r)
    else
      match encGo ck i rest with
      | none => none
      | some r => some (c :: r)

/-- Decrypt loop of `VigenereCipher.decrypt`. -/
def decGo (ck : Str) (i : Nat) : Str → Option Str
  | [] => some []
  | c :: rest =>
    if isAlphaA c then
      match ck[i % ck.length]? with
      | none => none
      | some kc =>
        match decGo ck (i + 1) rest with
        | none => none
        | some r => some (decCharWith kc c :: r)
    else
      match decGo ck i rest with
      | none => none
      | some r => some (c :: r)

/-- `VigenereCipher.encrypt` (vigenere.py). -/
def encrypt (plaintext key : Str) : Option Str :=
  encGo (cleanKey key) 0 (plaintext.map toUpperA)

/-- `VigenereCipher.decrypt` (vigenere.py). -/
def decrypt (ciphertext key : Str) : Option Str :=
  decGo (cleanKey key) 0 (ciphertext.map toUpperA)

/-- `VigenereCipher.validate_key` acceptance: a non-empty string whose
space-stripped form is non-empty and all letters. -/
def validAccepts (key : Str) : Bool :=
  !key.isEmpty &&
    (let k' := key.filter (fun c => decide (c ≠ 32))
     !k'.isEmpty && k'.all isAlphaA)

end vigenere

namespace otp

/-- `''.join(c.upper() for c in str(key) if c.isalpha())` in otp.py. -/
def cleanKey (key : Str) : Str := (key.filter isAlphaA).map toUpperA

/-- `sum(1 for c in text if c.isalpha())` in otp.py. -/
def letterCount (t : Str) : Nat := (t.filter isAlphaA).length

/-- Encrypt loop of `OTPCipher.encrypt`: the key is indexed directly (no
wrap-around); a missing index models the `IndexError` that the up-front
length check prevents. -/
def encGo (ck : Str) (i : Nat) : Str → Option Str
  | [] => some []
  | c :: rest =>
    if isAlphaA c then
      match ck[i]? with
      | none => none
      | some kc =>
        match encGo ck (i + 1) rest with
        | none => none
        | some r => some (encCaseChar kc c :: r)
    else
      match encGo ck i rest with
      | none => none
      | some r => some (c :: r)

/-- Decrypt loop of `OTPCipher.decrypt`. -/
def decGo (ck : Str) (i : Nat) : Str → Option Str
  | [] => some []
  | c :: rest =>
    if isAlphaA c then
      match ck[i]? with
      | none => none
      | some kc =>
        match decGo ck (i + 1) rest with
        | none => none
        | some r => some (decCaseChar kc c :: r)
    else
      match decGo ck i rest with
      | none => none
      | some r => some (c :: r)

/-- `OTPCipher.encrypt` (otp.py): raises when the cleaned key is empty or
shorter than the number of letters in the message. -/
def encrypt (plaintext key : Str) : Option Str :=
  let ck := cleanKey key
  if ck.isEmpty then none
  else if ck.length < letterCount plaintext then none
  else encGo ck 0 plaintext

/-- `OTPCipher.decrypt` (otp.py). -/
def decrypt (ciphertext key : Str) : Option Str :=
  let ck := cleanKey key
  if ck.isEmpty then none
  else if ck.length < letterCount ciphertext then none
  else decGo ck 0 ciphertext

/-- `OTPCipher.validate_key` acceptance: a non-empty string containing at
least one letter. -/
def validAccepts (key : Str) : Bool :=
  !key.isEmpty && !(key.filter isAlphaA).isEmpty

end otp

namespace autokey

/-- `''.join(c.upper() for c in str(key) if c.isalpha())` in autokey.py. -/
def cleanKey (key : Str) : Str := (key.filter isAlphaA).map toUpperA

/-- Encrypt loop of `AutokeyCipher.encrypt` over the fixed full key
`primer ++ plaintext letters`. -/
def encGo (fk : Str) (i : Nat) : Str → Option Str
  | [] => some []
  | c :: rest =>
    if isAlphaA c then
      match fk[i]? with
      | none => none
      | some kc =>
        match encGo fk (i + 1) rest with
        | none => none
        | some r => some (encCaseChar kc c :: r)
    else
      match encGo fk i rest with
      | none => none
      | some r => some (c :: r)

/-- Decrypt loop of `AutokeyCipher.decrypt`: the current key list grows by
the upcased recovered letter after each alphabetic character. -/
def decGo (i : Nat) (cur : Str) : Str → Option Str
  | [] => some []
  | c :: rest =>
    if isAlphaA c then
      match cur[i]? with
      | none => none
      | some kc =>
        let d : Nat := ((((toUpperA c : Int) - 65) - ((kc : Int) - 65)) % 26).toNat
        match decGo (i + 1) (cur ++ [65 + d]) rest with
        | none => none
        | some r => some ((if isUpperA c then 65 + d else 97 + d) :: r)
    else
      match decGo i cur rest with
      | none => none
      | some r => some (c :: r)

/-- `AutokeyCipher.encrypt` (autokey.py): raises when the cleaned key has
no letters; otherwise shifts with `primer ++ plaintext letters`. -/
def encrypt (plaintext key : Str) : Option Str :=
  let ck := cleanKey key
  if ck.isEmpty then none
  else encGo (ck ++ (plaintext.filter isAlphaA).map toUpperA) 0 plaintext

/-- `AutokeyCipher.decrypt` (autokey.py). -/
def decrypt (ciphertext key : Str) : Option Str :=
  let ck := cleanKey key
  if ck.isEmpty then none
  else decGo 0 ck ciphertext

/-- `AutokeyCipher.validate_key` acceptance: a non-empty string containing
at least one letter. -/
def validAccepts (key : Str) : Bool :=
  !key.isEmpty && !(key.filter isAlphaA).isEmpty

end autokey

-- key-stream character arithmetic

theorem key_shift_cancel_int (x s : Int) (h0 : 0 ≤ x) (h1 : x < 26) :
    (((x + s) % 26) - s) % 26 = x := by
  have m0 : (x + s) % 26 ≡ x + s [ZMOD 26] := Int.emod_emod_of_dvd _ dvd_rfl
  have m1 : ((x + s) % 26) - s ≡ (x + s) - s [ZMOD 26] := m0.sub_right s
  have e : (x + s) - s = x := by ring
  unfold Int.ModEq at m1
  rw [e, Int.emod_eq_of_lt h0 h1] at m1
  exact m1

theorem upper_of_alpha_fixed {c : Nat} (ha : isAlphaA c = true)
    (hf : toUpperA c = c) : isUpperA c = true := by
  rw [isAlphaA_iff] at ha
  rw [toUpperA_eq] at hf
  rw [isUpperA_iff]
  rcases ha with h | h
  · exact h
  · rw [if_pos h] at hf
    omega

theorem vig_encCharWith_upper (kc c : Nat) :
    isUpperA (vigenere.encCharWith kc c) = true := by
  unfold vigenere.encCharWith
  rw [isUpperA_iff]
  have h1 := emod26_nonneg (((c : Int) - 65) + ((kc : Int) - 65))
  have h2 := emod26_lt (((c : Int) - 65) + ((kc : Int) - 65))
  omega

theorem vig_decCharWith_encCharWith (kc : Nat) {c : Nat} (hc : isUpperA c = true) :
    vigenere.decCharWith kc (vigenere.encCharWith kc c) = c := by
  unfold vigenere.encCharWith vigenere.decCharWith
  rw [isUpperA_iff] at hc
  have h1 := emod26_nonneg (((c : Int) - 65) + ((kc : Int) - 65))
  have h2 := emod26_lt (((c : Int) - 65) + ((kc : Int) - 65))
  have ecast : ((65 + ((((c : Int) - 65) + ((kc : Int) - 65)) % 26).toNat : Nat) : Int) - 65
      = (((c : Int) - 65) + ((kc : Int) - 65)) % 26 := by
    omega
  rw [ecast, key_shift_cancel_int ((c : Int) - 65) ((kc : Int) - 65) (by omega) (by omega)]
  omega

/-- Round-trip of the Vigenère loops for a non-empty cleaned key, at any
key offset, over text fixed by upcasing. -/
theorem vig_go_roundtrip (ck : Str) (hck : ck ≠ []) :
    ∀ (u : Str), (∀ c ∈ u, toUpperA c = c) → ∀ i : Nat,
      ∃ e, vigenere.encGo ck i u = some e ∧
        e.map toUpperA = e ∧ vigenere.decGo ck i e = some u := by
  intro u
  induction u with
  | nil =>
    intro _ i
    exact ⟨[], rfl, rfl, rfl⟩
  | cons c rest ih =>
    intro hu i
    have hrest : ∀ x ∈ rest, toUpperA x = x :=
      fun x hx => hu x (List.mem_cons_of_mem _ hx)
    have hcfix : toUpperA c = c := hu c (List.mem_cons_self c rest)
    by_cases ha : isAlphaA c = true
    · have hcu : isUpperA c = true := upper_of_alpha_fixed ha hcfix
      have hlen : 0 < ck.length := List.length_pos.mpr hck
      have hidx : i % ck.length < ck.length := Nat.mod_lt _ hlen
      have hkc : ck[i % ck.length]? = some ck[i % ck.length] :=
        List.getElem?_eq_getElem hidx
      obtain ⟨e, he, hupper, hd⟩ := ih hrest (i + 1)
      set kc := ck[i % ck.length] with hkcdef
      refine ⟨vigenere.encCharWith kc c :: e, ?_, ?_, ?_⟩
      · simp only [vigenere.encGo]
        rw [if_pos ha, hkc, he]
      · rw [List.map_cons, hupper,
          toUpperA_of_upper (vig_encCharWith_upper kc c)]
      · have hea : isAlphaA (vigenere.encCharWith kc c) = true :=
          isUpperA_alpha (vig_encCharWith_upper kc c)
        simp only [vigenere.decGo]
        rw [if_pos hea, hkc, hd]
        show some (vigenere.decCharWith kc (vigenere.encCharWith kc c) :: rest)
          = some (c :: rest)
        rw [vig_decCharWith_encCharWith kc hcu]
    · obtain ⟨e, he, hupper, hd⟩ := ih hrest i
      refine ⟨c :: e, ?_, ?_, ?_⟩
      · simp only [vigenere.encGo]
        rw [if_neg ha, he]
      · rw [List.map_cons, hupper, hcfix]
      · simp only [vigenere.decGo]
        rw [if_neg ha, hd]

/-- Vigenère round-trip: for a key whose cleaned form is non-empty,
decrypt ∘ encrypt upcases the plaintext. -/
theorem vigenere_roundtrip (t key : Str) (h : vigenere.cleanKey key ≠ []) :
    ∃ e, vigenere.encrypt t key = some e ∧
      vigenere.decrypt e key = some (t.map toUpperA) := by
  have hu : ∀ c ∈ t.map toUpperA, toUpperA c = c := by
    intro c hc
    obtain ⟨c0, _, rfl⟩ := List.mem_map.mp hc
    exact toUpperA_idem c0
  obtain ⟨e, he, hupper, hd⟩ := vig_go_roundtrip (vigenere.cleanKey key) h
    (t.map toUpperA) hu 0
  refine ⟨e, he, ?_⟩
  unfold vigenere.decrypt
  rw [hupper]
  exact hd

-- case-preserving key-stream characters (otp.py / autokey.py)

theorem toUpperA_bounds_of_alpha {c : Nat} (ha : isAlphaA c = true) :
    65 ≤ toUpperA c ∧ toUpperA c ≤ 90 := by
  have := isUpperA_toUpperA_of_alpha ha
  rw [isUpperA_iff] at this
  exact this

theorem encCaseChar_case (kc c : Nat) :
    isUpperA (encCaseChar kc c) = isUpperA c := by
  unfold encCaseChar
  have h1 := emod26_nonneg (((toUpperA c : Int) - 65) + ((kc : Int) - 65))
  have h2 := emod26_lt (((toUpperA c : Int) - 65) + ((kc : Int) - 65))
  by_cases hu : isUpperA c = true
  · rw [if_pos hu, hu]
    rw [isUpperA_iff]
    omega
  · rw [if_neg hu]
    rw [Bool.eq_iff_iff, isUpperA_iff]
    constructor
    · intro h
      omega
    · intro h
      exact absurd h hu

theorem encCaseChar_alpha (kc : Nat) {c : Nat} (ha : isAlphaA c = true) :
    isAlphaA (encCaseChar kc c) = true := by
  unfold encCaseChar
  have h1 := emod26_nonneg (((toUpperA c : Int) - 65) + ((kc : Int) - 65))
  have h2 := emod26_lt (((toUpperA c : Int) - 65) + ((kc : Int) - 65))
  by_cases hu : isUpperA c = true
  · rw [if_pos hu, isAlphaA_iff]
    omega
  · rw [if_neg hu, isAlphaA_iff]
    omega

/-- The value recovered by the decrypt loop is the upcased plaintext
letter, shifted back. -/
theorem dec_d_value (kc : Nat) {c : Nat} (ha : isAlphaA c = true) :
    ((((toUpperA (encCaseChar kc c) : Int) - 65) - ((kc : Int) - 65)) % 26).toNat
      = toUpperA c - 65 := by
  obtain ⟨hb1, hb2⟩ := toUpperA_bounds_of_alpha ha
  have h1 := emod26_nonneg (((toUpperA c : Int) - 65) + ((kc : Int) - 65))
  have h2 := emod26_lt (((toUpperA c : Int) - 65) + ((kc : Int) - 65))
  have key := key_shift_cancel_int ((toUpperA c : Int) - 65) ((kc : Int) - 65)
    (by omega) (by omega)
  by_cases hu : isUpperA c = true
  · have he : encCaseChar kc c
        = 65 + ((((toUpperA c : Int) - 65) + ((kc : Int) - 65)) % 26).toNat := by
      unfold encCaseChar
      rw [if_pos hu]
    rw [he, toUpperA_of_upper (by rw [isUpperA_iff]; omega)]
    have ecast : ((65 + ((((toUpperA c : Int) - 65) + ((kc : Int) - 65)) % 26).toNat : Nat) : Int) - 65
        = (((toUpperA c : Int) - 65) + ((kc : Int) - 65)) % 26 := by
      omega
    rw [ecast, key]
    omega
  · have he : encCaseChar kc c
        = 97 + ((((toUpperA c : Int) - 65) + ((kc : Int) - 65)) % 26).toNat := by
      unfold encCaseChar
      rw [if_neg hu]
    have hlow : toUpperA (97 + ((((toUpperA c : Int) - 65) + ((kc : Int) - 65)) % 26).toNat)
        = 65 + ((((toUpperA c : Int) - 65) + ((kc : Int) - 65)) % 26).toNat := by
      rw [toUpperA_eq, if_pos (by omega)]
      omega
    rw [he, hlow]
    have ecast : ((65 + ((((toUpperA c : Int) - 65) + ((kc : Int) - 65)) % 26).toNat : Nat) : Int) - 65
        = (((toUpperA c : Int) - 65) + ((kc : Int) - 65)) % 26 := by
      omega
    rw [ecast, key]
    omega

theorem decCaseChar_encCaseChar (kc : Nat) {c : Nat} (ha : isAlphaA c = true) :
    decCaseChar kc (encCaseChar kc c) = c := by
  obtain ⟨hb1, hb2⟩ := toUpperA_bounds_of_alpha ha
  have hd := dec_d_value kc ha
  unfold decCaseChar
  rw [encCaseChar_case, hd]
  rw [isAlphaA_iff] at ha
  by_cases hu : isUpperA c = true
  · rw [if_pos hu]
    rw [isUpperA_iff] at hu
    rw [toUpperA_eq, if_neg (by omega)]
    omega
  · rw [if_neg hu]
    rw [isUpperA_iff] at hu
    rw [toUpperA_eq, if_pos (by omega)]
    omega

theorem letterCount_cons (c : Nat) (rest : Str) :
    otp.letterCount (c :: rest)
      = (if isAlphaA c then 1 else 0) + otp.letterCount rest := by
  unfold otp.letterCount
  rw [List.filter_cons]
  by_cases h : isAlphaA c = true
  · rw [if_pos h, h, if_pos rfl, List.length_cons]
    omega
  · rw [if_neg h]
    have : isAlphaA c = false := by
      revert h; cases isAlphaA c <;> simp
    rw [this]
    simp

/-- Round-trip of the one-time-pad loops when the key has enough letters
left from offset `i`. -/
theorem otp_go_roundtrip (ck : Str) :
    ∀ (u : Str) (i : Nat), i + otp.letterCount u ≤ ck.length →
      ∃ e, otp.encGo ck i u = some e ∧
        otp.letterCount e = otp.letterCount u ∧
        otp.decGo ck i e = some u := by
  intro u
  induction u with
  | nil =>
    intro i _
    exact ⟨[], rfl, rfl, rfl⟩
  | cons c rest ih =>
    intro i hlen
    rw [letterCount_cons] at hlen
    by_cases ha : isAlphaA c = true
    · rw [if_pos ha] at hlen
      have hidx : i < ck.length := by omega
      have hkc : ck[i]? = some ck[i] := List.getElem?_eq_getElem hidx
      obtain ⟨e, he, hcount, hd⟩ := ih (i + 1) (by omega)
      set kc := ck[i] with hkcdef
      refine ⟨encCaseChar kc c :: e, ?_, ?_, ?_⟩
      · simp only [otp.encGo]
        rw [if_pos ha, hkc, he]
      · rw [letterCount_cons, letterCount_cons, hcount,
          if_pos (encCaseChar_alpha kc ha), if_pos ha]
      · simp only [otp.decGo]
        rw [if_pos (encCaseChar_alpha kc ha), hkc, hd]
        show some (decCaseChar kc (encCaseChar kc c) :: rest) = some (c :: rest)
        rw [decCaseChar_encCaseChar kc ha]
    · rw [if_neg ha] at hlen
      obtain ⟨e, he, hcount, hd⟩ := ih i (by omega)
      have haf : isAlphaA c = false := by
        revert ha; cases isAlphaA c <;> simp
      refine ⟨c :: e, ?_, ?_, ?_⟩
      · simp only [otp.encGo]
        rw [if_neg ha, he]
      · rw [letterCount_cons, letterCount_cons, hcount, haf]
      · simp only [otp.decGo]
        rw [if_neg ha, hd]

/-- OTP round-trip: when the cleaned key is non-empty and has at least as
many letters as the message, decrypt ∘ encrypt is the identity. -/
theorem otp_roundtrip (t key : Str) (h1 : otp.cleanKey key ≠ [])
    (h2 : otp.letterCount t ≤ (otp.cleanKey key).length) :
    ∃ e, otp.encrypt t key = some e ∧ otp.decrypt e key = some t := by
  obtain ⟨e, he, hcount, hd⟩ := otp_go_roundtrip (otp.cleanKey key) t 0
    (by omega)
  have hne : (otp.cleanKey key).isEmpty = false := by
    cases hck : otp.cleanKey key with
    | nil => exact absurd hck h1
    | cons a l => rfl
  refine ⟨e, ?_, ?_⟩
  · show (if (otp.cleanKey key).isEmpty = true then none
      else if (otp.cleanKey key).length < otp.letterCount t then none
      else otp.encGo (otp.cleanKey key) 0 t) = some e
    rw [hne, if_neg Bool.false_ne_true, if_neg (by omega), he]
  · show (if (otp.cleanKey key).isEmpty = true then none
      else if (otp.cleanKey key).length < otp.letterCount e then none
      else otp.decGo (otp.cleanKey key) 0 e) = some t
    rw [hne, if_neg Bool.false_ne_true, hcount, if_neg (by omega), hd]

theorem otp_cleanKey_length (key : Str) :
    (otp.cleanKey key).length = otp.letterCount key := by
  unfold otp.cleanKey otp.letterCount
  rw [List.length_map]

theorem otp_decGo_isSome (ck : Str) :
    ∀ (u : Str) (i : Nat), i + otp.letterCount u ≤ ck.length →
      ∃ e, otp.decGo ck i u = some e := by
  intro u
  induction u with
  | nil =>
    intro i _
    exact ⟨[], rfl⟩
  | cons c rest ih =>
    intro i hlen
    rw [letterCount_cons] at hlen
    by_cases ha : isAlphaA c = true
    · rw [if_pos ha] at hlen
      have hidx : i < ck.length := by omega
      obtain ⟨e, he⟩ := ih (i + 1) (by omega)
      refine ⟨decCaseChar ck[i] c :: e, ?_⟩
      simp only [otp.decGo]
      rw [if_pos ha, List.getElem?_eq_getElem hidx, he]
    · rw [if_neg ha] at hlen
      obtain ⟨e, he⟩ := ih i (by omega)
      refine ⟨c :: e, ?_⟩
      simp only [otp.decGo]
      rw [if_neg ha, he]

/-- The OTP encrypt succeeds exactly when the cleaned key is non-empty and
has at least as many letters as the message. -/
theorem otp_encrypt_isSome_iff (t key : Str) :
    (otp.encrypt t key).isSome = true ↔
      (otp.cleanKey key ≠ [] ∧ otp.letterCount t ≤ otp.letterCount key) := by
  rw [← otp_cleanKey_length key]
  constructor
  · intro h
    by_cases h1 : (otp.cleanKey key).isEmpty = true
    · have he : otp.encrypt t key = none := by
        show (if (otp.cleanKey key).isEmpty = true then none
          else if (otp.cleanKey key).length < otp.letterCount t then none
          else otp.encGo (otp.cleanKey key) 0 t) = none
        rw [if_pos h1]
      rw [he] at h
      exact absurd h (by simp)
    · by_cases h2 : (otp.cleanKey key).length < otp.letterCount t
      · have he : otp.encrypt t key = none := by
          show (if (otp.cleanKey key).isEmpty = true then none
            else if (otp.cleanKey key).length < otp.letterCount t then none
            else otp.encGo (otp.cleanKey key) 0 t) = none
          rw [if_neg h1, if_pos h2]
        rw [he] at h
        exact absurd h (by simp)
      · refine ⟨?_, by omega⟩
        intro hnil
        rw [hnil] at h1
        exact h1 rfl
  · rintro ⟨h1, h2⟩
    obtain ⟨e, he, _, _⟩ := otp_go_roundtrip (otp.cleanKey key) t 0 (by omega)
    have hne : (otp.cleanKey key).isEmpty = false := by
      cases hck : otp.cleanKey key with
      | nil => exact absurd hck h1
      | cons a l => rfl
    have hs : otp.encrypt t key = some e := by
      show (if (otp.cleanKey key).isEmpty = true then none
        else if (otp.cleanKey key).length < otp.letterCount t then none
        else otp.encGo (otp.cleanKey key) 0 t) = some e
      rw [hne, if_neg Bool.false_ne_true, if_neg (by omega), he]
    rw [hs]
    rfl

/-- The OTP decrypt succeeds exactly when the cleaned key is non-empty and
has at least as many letters as the ciphertext. -/
theorem otp_decrypt_isSome_iff (t key : Str) :
    (otp.decrypt t key).isSome = true ↔
      (otp.cleanKey key ≠ [] ∧ otp.letterCount t ≤ otp.letterCount key) := by
  rw [← otp_cleanKey_length key]
  constructor
  · intro h
    by_cases h1 : (otp.cleanKey key).isEmpty = true
    · have he : otp.decrypt t key = none := by
        show (if (otp.cleanKey key).isEmpty = true then none
          else if (otp.cleanKey key).length < otp.letterCount t then none
          else otp.decGo (otp.cleanKey key) 0 t) = none
        rw [if_pos h1]
      rw [he] at h
      exact absurd h (by simp)
    · by_cases h2 : (otp.cleanKey key).length < otp.letterCount t
      · have he : otp.decrypt t key = none := by
          show (if (otp.cleanKey key).isEmpty = true then none
            else if (otp.cleanKey key).length < otp.letterCount t then none
            else otp.decGo (otp.cleanKey key) 0 t) = none
          rw [if_neg h1, if_pos h2]
        rw [he] at h
        exact absurd h (by simp)
      · refine ⟨?_, by omega⟩
        intro hnil
        rw [hnil] at h1
        exact h1 rfl
  · rintro ⟨h1, h2⟩
    obtain ⟨e, he⟩ := otp_decGo_isSome (otp.cleanKey key) t 0 (by omega)
    have hne : (otp.cleanKey key).isEmpty = false := by
      cases hck : otp.cleanKey key with
      | nil => exact absurd hck h1
      | cons a l => rfl
    have hs : otp.decrypt t key = some e := by
      show (if (otp.cleanKey key).isEmpty = true then none
        else if (otp.cleanKey key).length < otp.letterCount t then none
        else otp.decGo (otp.cleanKey key) 0 t) = some e
      rw [hne, if_neg Bool.false_ne_true, if_neg (by omega), he]
    rw [hs]
    rfl

theorem case_reassemble (kc : Nat) {c : Nat} (ha : isAlphaA c = true) :
    (if isUpperA (encCaseChar kc c) = true
      then 65 + (toUpperA c - 65) else 97 + (toUpperA c - 65)) = c := by
  rw [encCaseChar_case]
  rw [isAlphaA_iff] at ha
  by_cases hu : isUpperA c = true
  · rw [if_pos hu]
    rw [isUpperA_iff] at hu
    rw [toUpperA_eq, if_neg (by omega)]
    omega
  · rw [if_neg hu]
    rw [isUpperA_iff] at hu
    rw [toUpperA_eq, if_pos (by omega)]
    omega

/-- Round-trip of the Autokey loops: after `i` letters, the decrypt key
list is the primer followed by the first `i` plaintext letters. -/
theorem autokey_go_roundtrip (ck L : Str) (hck : ck ≠ []) :
    ∀ (rest : Str) (i : Nat),
      L.drop i = (rest.filter isAlphaA).map toUpperA →
      i ≤ L.length →
      ∃ e, autokey.encGo (ck ++ L) i rest = some e ∧
        autokey.decGo i (ck ++ L.take i) e = some rest := by
  intro rest
  induction rest with
  | nil =>
    intro i _ _
    exact ⟨[], rfl, rfl⟩
  | cons c rest' ih =>
    intro i hdrop hle
    by_cases ha : isAlphaA c = true
    · have hfilter : ((c :: rest').filter isAlphaA).map toUpperA
          = toUpperA c :: (rest'.filter isAlphaA).map toUpperA := by
        rw [List.filter_cons, if_pos ha, List.map_cons]
      rw [hfilter] at hdrop
      have hiL : i < L.length := by
        by_contra hcon
        rw [List.drop_eq_nil_of_le (by omega)] at hdrop
        exact (List.cons_ne_nil _ _) hdrop.symm
      rw [List.drop_eq_getElem_cons hiL] at hdrop
      have hLi : L[i] = toUpperA c := (List.cons.injEq _ _ _ _ ▸ hdrop).1
      have hdrop' : L.drop (i + 1) = (rest'.filter isAlphaA).map toUpperA :=
        (List.cons.injEq _ _ _ _ ▸ hdrop).2
      have hck_pos : 0 < ck.length := List.length_pos.mpr hck
      have hidx : i < (ck ++ L).length := by
        rw [List.length_append]
        omega
      have hfk : (ck ++ L)[i]? = some ((ck ++ L)[i]) := List.getElem?_eq_getElem hidx
      have hagree : (ck ++ L.take i)[i]? = (ck ++ L)[i]? := by
        rw [List.getElem?_append, List.getElem?_append]
        by_cases hsmall : i < ck.length
        · rw [if_pos hsmall, if_pos hsmall]
        · rw [if_neg hsmall, if_neg hsmall,
            List.getElem?_take, if_pos (by omega)]
      obtain ⟨hb1, hb2⟩ := toUpperA_bounds_of_alpha ha
      have hextend : (ck ++ L.take i) ++ [65 + (toUpperA c - 65)]
          = ck ++ L.take (i + 1) := by
        rw [List.append_assoc]
        congr 1
        rw [List.take_succ, List.getElem?_eq_getElem hiL, hLi]
        have h65 : 65 + (toUpperA c - 65) = toUpperA c := by omega
        rw [h65]
        rfl
      obtain ⟨e, he, hd⟩ := ih (i + 1) hdrop' (by omega)
      set kc := (ck ++ L)[i] with hkcdef
      refine ⟨encCaseChar kc c :: e, ?_, ?_⟩
      · simp only [autokey.encGo]
        rw [if_pos ha, hfk, he]
      · simp only [autokey.decGo]
        rw [if_pos (encCaseChar_alpha kc ha), hagree, hfk]
        show (match autokey.decGo (i + 1) ((ck ++ L.take i) ++
                [65 + ((((toUpperA (encCaseChar kc c) : Int) - 65) - ((kc : Int) - 65)) % 26).toNat]) e with
              | none => none
              | some r => some ((if isUpperA (encCaseChar kc c) = true
                  then 65 + ((((toUpperA (encCaseChar kc c) : Int) - 65) - ((kc : Int) - 65)) % 26).toNat
                  else 97 + ((((toUpperA (encCaseChar kc c) : Int) - 65) - ((kc : Int) - 65)) % 26).toNat) :: r))
            = some (c :: rest')
        rw [dec_d_value kc ha, hextend, hd]
        show some ((if isUpperA (encCaseChar kc c) = true
            then 65 + (toUpperA c - 65) else 97 + (toUpperA c - 65)) :: rest')
          = some (c :: rest')
        rw [case_reassemble kc ha]
    · have hdrop2 : L.drop i = (rest'.filter isAlphaA).map toUpperA := by
        rw [hdrop, List.filter_cons, if_neg ha]
      obtain ⟨e, he, hd⟩ := ih i hdrop2 hle
      refine ⟨c :: e, ?_, ?_⟩
      · simp only [autokey.encGo]
        rw [if_neg ha, he]
      · simp only [autokey.decGo]
        rw [if_neg ha, hd]

/-- Autokey round-trip: for a key with at least one letter,
decrypt ∘ encrypt is the identity (case and non-letters preserved). -/
theorem autokey_roundtrip (t key : Str) (h : autokey.cleanKey key ≠ []) :
    ∃ e, autokey.encrypt t key = some e ∧ autokey.decrypt e key = some t := by
  have hne : (autokey.cleanKey key).isEmpty = false := by
    cases hck : autokey.cleanKey key with
    | nil => exact absurd hck h
    | cons a l => rfl
  obtain ⟨e, he, hd⟩ := autokey_go_roundtrip (autokey.cleanKey key)
    ((t.filter isAlphaA).map toUpperA) h t 0 (by rw [List.drop_zero]) (by omega)
  rw [List.take_zero, List.append_nil] at hd
  refine ⟨e, ?_, ?_⟩
  · show (if (autokey.cleanKey key).isEmpty = true then none
      else autokey.encGo (autokey.cleanKey key ++ (t.filter isAlphaA).map toUpperA) 0 t)
      = some e
    rw [hne, if_neg Bool.false_ne_true, he]
  · show (if (autokey.cleanKey key).isEmpty = true then none
      else autokey.decGo 0 (autokey.cleanKey key) e) = some t
    rw [hne, if_neg Bool.false_ne_true, hd]

namespace hill

/-- The `MOD_INVERSES` table of hill.py. -/
def MOD_INVERSES (a : Nat) : Option Nat :=
  match a with
  | 1 => some 1
  | 3 => some 9
  | 5 => some 21
  | 7 => some 15
  | 9 => some 3
  | 11 => some 19
  | 15 => some 7
  | 17 => some 23
  | 19 => some 11
  | 21 => some 5
  | 23 => some 17
  | 25 => some 25
  | _ => none

/-- `HillCipher._determinant` for the parsed 2x2 matrix. -/
def determinant (m00 m01 m10 m11 : Int) : Int := m00 * m11 - m01 * m10

/-- `HillCipher._mod_inverse`: reduce modulo 26 (the `a < 0` fix-up is dead
with Python's `%`) and look up the table; `none` models the `ValueError`. -/
def modInv (a : Int) : Option Nat := MOD_INVERSES ((a % 26).toNat)

/-- `HillCipher._matrix_inverse`: adjugate scaled by the determinant's
inverse, all modulo 26; `none` when the determinant is not invertible. -/
def matInverse (m00 m01 m10 m11 : Int) : Option (Int × Int × Int × Int) :=
  match modInv (determinant m00 m01 m10 m11) with
  | none => none
  | some dinv =>
    some (((dinv : Int) * m11) % 26, ((dinv : Int) * (-m01)) % 26,
      ((dinv : Int) * (-m10)) % 26, ((dinv : Int) * m00) % 26)

/-- Letter filtering and upcasing shared by `encrypt` and `decrypt`. -/
def clean (t : Str) : Str := (t.filter isAlphaA).map toUpperA

/-- Padding with `'X'` when the letter count is odd (`encrypt` only). -/
def padX (u : Str) : Str := if u.length % 2 = 1 then u ++ [88] else u

/-- `HillCipher._matrix_multiply` applied over consecutive pairs; a
trailing single character is dropped, as in `decrypt`'s `break`. -/
def mulPairs (a b c d : Int) : Str → Str
  | x :: y :: rest =>
    (65 + ((a * ((x : Int) - 65) + b * ((y : Int) - 65)) % 26).toNat) ::
    (65 + ((c * ((x : Int) - 65) + d * ((y : Int) - 65)) % 26).toNat) ::
    mulPairs a b c d rest
  | _ => []

/-- `HillCipher.encrypt` (hill.py), key parsed into four integers. -/
def encrypt (plaintext : Str) (m00 m01 m10 m11 : Int) : Str :=
  mulPairs m00 m01 m10 m11 (padX (clean plaintext))

/-- `HillCipher.decrypt` (hill.py). -/
def decrypt (ciphertext : Str) (m00 m01 m10 m11 : Int) : Option Str :=
  match matInverse m00 m01 m10 m11 with
  | none => none
  | some (i00, i01, i10, i11) =>
    some (mulPairs i00 i01 i10 i11 (clean ciphertext))

/-- `HillCipher.validate_key` acceptance on a well-formed four-number key:
the determinant modulo 26 is non-zero and coprime with 26. -/
def validAccepts (m00 m01 m10 m11 : Int) : Bool :=
  let dm := ((determinant m00 m01 m10 m11) % 26).toNat
  decide (dm ≠ 0) && decide (Nat.gcd dm 26 = 1)

end hill

theorem hill_table_spec : ∀ r : Nat, r < 26 → Nat.gcd r 26 = 1 →
    (hill.MOD_INVERSES r).isSome = true ∧
      (r * ((hill.MOD_INVERSES r).getD 0)) % 26 = 1 := by
  decide

/-- For an accepted Hill key the table yields a determinant inverse. -/
theorem hill_modInv_spec (m00 m01 m10 m11 : Int)
    (h : hill.validAccepts m00 m01 m10 m11 = true) :
    ∃ v : Nat, hill.modInv (hill.determinant m00 m01 m10 m11) = some v ∧
      (hill.determinant m00 m01 m10 m11 * (v : Int)) % 26 = 1 := by
  unfold hill.validAccepts at h
  rw [Bool.and_eq_true, decide_eq_true_eq, decide_eq_true_eq] at h
  obtain ⟨-, hg⟩ := h
  set D := hill.determinant m00 m01 m10 m11 with hD
  have hlt : (D % 26).toNat < 26 := by
    have := emod26_lt D
    have := emod26_nonneg D
    omega
  obtain ⟨hsome, hval⟩ := hill_table_spec ((D % 26).toNat) hlt hg
  obtain ⟨v, hv⟩ := Option.isSome_iff_exists.mp hsome
  refine ⟨v, hv, ?_⟩
  rw [hv, Option.getD_some] at hval
  -- transport the table equation from Nat to Int
  have hcast : (((D % 26).toNat : Int) * (v : Int)) % 26 = 1 := by
    have : ((((D % 26).toNat * v) % 26 : Nat) : Int) = ((1 : Nat) : Int) := by
      rw [hval]
    push_cast at this
    exact this
  have hDm : ((D % 26).toNat : Int) = D % 26 := Int.toNat_of_nonneg (emod26_nonneg D)
  rw [hDm] at hcast
  have m0 : D % 26 ≡ D [ZMOD 26] := Int.emod_emod_of_dvd D dvd_rfl
  have m1 : (D % 26) * (v : Int) ≡ D * (v : Int) [ZMOD 26] := m0.mul_right _
  unfold Int.ModEq at m1
  rw [hcast] at m1
  have h1 : (1 : Int) % 26 = D * (v : Int) % 26 := m1
  rw [← h1]
  rfl

/-- Applying the inverse matrix undoes the matrix application, per pair. -/
theorem hill_pair_cancel (m00 m01 m10 m11 dinv : Int)
    (hdet : ((m00 * m11 - m01 * m10) * dinv) % 26 = 1)
    (x y : Int) (hx0 : 0 ≤ x) (hx1 : x < 26) (hy0 : 0 ≤ y) (hy1 : y < 26) :
    ((dinv * m11) % 26 * ((m00 * x + m01 * y) % 26)
      + (dinv * (-m01)) % 26 * ((m10 * x + m11 * y) % 26)) % 26 = x ∧
    ((dinv * (-m10)) % 26 * ((m00 * x + m01 * y) % 26)
      + (dinv * m00) % 26 * ((m10 * x + m11 * y) % 26)) % 26 = y := by
  have hd : (m00 * m11 - m01 * m10) * dinv ≡ 1 [ZMOD 26] := by
    unfold Int.ModEq
    rw [hdet]
    rfl
  have hA : (m00 * x + m01 * y) % 26 ≡ m00 * x + m01 * y [ZMOD 26] :=
    Int.emod_emod_of_dvd _ dvd_rfl
  have hB : (m10 * x + m11 * y) % 26 ≡ m10 * x + m11 * y [ZMOD 26] :=
    Int.emod_emod_of_dvd _ dvd_rfl
  constructor
  · have e1 : (dinv * m11) % 26 ≡ dinv * m11 [ZMOD 26] :=
      Int.emod_emod_of_dvd _ dvd_rfl
    have e2 : (dinv * (-m01)) % 26 ≡ dinv * (-m01) [ZMOD 26] :=
      Int.emod_emod_of_dvd _ dvd_rfl
    have step : (dinv * m11) % 26 * ((m00 * x + m01 * y) % 26)
        + (dinv * (-m01)) % 26 * ((m10 * x + m11 * y) % 26)
        ≡ (m00 * m11 - m01 * m10) * dinv * x [ZMOD 26] := by
      have h1 := (e1.mul hA).add (e2.mul hB)
      have e3 : dinv * m11 * (m00 * x + m01 * y)
          + dinv * (-m01) * (m10 * x + m11 * y)
          = (m00 * m11 - m01 * m10) * dinv * x := by
        ring
      rw [e3] at h1
      exact h1
    have fin : (m00 * m11 - m01 * m10) * dinv * x ≡ 1 * x [ZMOD 26] :=
      hd.mul_right x
    have := step.trans fin
    unfold Int.ModEq at this
    rw [this, one_mul, Int.emod_eq_of_lt hx0 hx1]
  · have e1 : (dinv * (-m10)) % 26 ≡ dinv * (-m10) [ZMOD 26] :=
      Int.emod_emod_of_dvd _ dvd_rfl
    have e2 : (dinv * m00) % 26 ≡ dinv * m00 [ZMOD 26] :=
      Int.emod_emod_of_dvd _ dvd_rfl
    have step : (dinv * (-m10)) % 26 * ((m00 * x + m01 * y) % 26)
        + (dinv * m00) % 26 * ((m10 * x + m11 * y) % 26)
        ≡ (m00 * m11 - m01 * m10) * dinv * y [ZMOD 26] := by
      have h1 := (e1.mul hA).add (e2.mul hB)
      have e3 : dinv * (-m10) * (m00 * x + m01 * y)
          + dinv * m00 * (m10 * x + m11 * y)
          = (m00 * m11 - m01 * m10) * dinv * y := by
        ring
      rw [e3] at h1
      exact h1
    have fin : (m00 * m11 - m01 * m10) * dinv * y ≡ 1 * y [ZMOD 26] :=
      hd.mul_right y
    have := step.trans fin
    unfold Int.ModEq at this
    rw [this, one_mul, Int.emod_eq_of_lt hy0 hy1]

/-- Pairwise inverse application over a list of uppercase letters. -/
theorem hill_pairs_rt (a b c d A B C D : Int)
    (hc : ∀ x y : Int, 0 ≤ x → x < 26 → 0 ≤ y → y < 26 →
      (A * ((a * x + b * y) % 26) + B * ((c * x + d * y) % 26)) % 26 = x ∧
      (C * ((a * x + b * y) % 26) + D * ((c * x + d * y) % 26)) % 26 = y) :
    ∀ u : Str, u.length % 2 = 0 → (∀ ch ∈ u, isUpperA ch = true) →
      hill.mulPairs A B C D (hill.mulPairs a b c d u) = u
  | [], _, _ => rfl
  | [x], heven, _ => by
    rw [List.length_singleton] at heven
    omega
  | x :: y :: rest, heven, hupper => by
    have hx : isUpperA x = true := hupper x (List.mem_cons_self _ _)
    have hy : isUpperA y = true := hupper y (List.mem_cons_of_mem _ (List.mem_cons_self _ _))
    rw [isUpperA_iff] at hx hy
    have hrest : ∀ ch ∈ rest, isUpperA ch = true := by
      intro ch hch
      exact hupper ch (List.mem_cons_of_mem _ (List.mem_cons_of_mem _ hch))
    have heven' : rest.length % 2 = 0 := by
      rw [List.length_cons, List.length_cons] at heven
      omega
    have ih := hill_pairs_rt a b c d A B C D hc rest heven' hrest
    show (hill.mulPairs A B C D
        ((65 + ((a * ((x : Int) - 65) + b * ((y : Int) - 65)) % 26).toNat) ::
         (65 + ((c * ((x : Int) - 65) + d * ((y : Int) - 65)) % 26).toNat) ::
         hill.mulPairs a b c d rest)) = x :: y :: rest
    have hA0 := emod26_nonneg (a * ((x : Int) - 65) + b * ((y : Int) - 65))
    have hA1 := emod26_lt (a * ((x : Int) - 65) + b * ((y : Int) - 65))
    have hB0 := emod26_nonneg (c * ((x : Int) - 65) + d * ((y : Int) - 65))
    have hB1 := emod26_lt (c * ((x : Int) - 65) + d * ((y : Int) - 65))
    have ecast1 : ((65 + ((a * ((x : Int) - 65) + b * ((y : Int) - 65)) % 26).toNat : Nat) : Int) - 65
        = (a * ((x : Int) - 65) + b * ((y : Int) - 65)) % 26 := by
      omega
    have ecast2 : ((65 + ((c * ((x : Int) - 65) + d * ((y : Int) - 65)) % 26).toNat : Nat) : Int) - 65
        = (c * ((x : Int) - 65) + d * ((y : Int) - 65)) % 26 := by
      omega
    show (65 + ((A * (((65 + ((a * ((x : Int) - 65) + b * ((y : Int) - 65)) % 26).toNat : Nat) : Int) - 65)
            + B * (((65 + ((c * ((x : Int) - 65) + d * ((y : Int) - 65)) % 26).toNat : Nat) : Int) - 65)) % 26).toNat) ::
          (65 + ((C * (((65 + ((a * ((x : Int) - 65) + b * ((y : Int) - 65)) % 26).toNat : Nat) : Int) - 65)
            + D * (((65 + ((c * ((x : Int) - 65) + d * ((y : Int) - 65)) % 26).toNat : Nat) : Int) - 65)) % 26).toNat) ::
          hill.mulPairs A B C D (hill.mulPairs a b c d rest) = x :: y :: rest
    rw [ecast1, ecast2, ih]
    obtain ⟨hfst, hsnd⟩ := hc ((x : Int) - 65) ((y : Int) - 65)
      (by omega) (by omega) (by omega) (by omega)
    rw [hfst, hsnd]
    have e1 : 65 + ((x : Int) - 65).toNat = x := by omega
    have e2 : 65 + ((y : Int) - 65).toNat = y := by omega
    rw [e1, e2]

theorem clean_of_upper (u : Str) (h : ∀ c ∈ u, isUpperA c = true) :
    hill.clean u = u := by
  unfold hill.clean
  induction u with
  | nil => rfl
  | cons c rest ih =>
    have hc := h c (List.mem_cons_self _ _)
    rw [List.filter_cons, if_pos (isUpperA_alpha hc), List.map_cons,
      toUpperA_of_upper hc,
      ih (fun x hx => h x (List.mem_cons_of_mem _ hx))]

theorem hill_mulPairs_upper (a b c d : Int) :
    ∀ (u : Str), ∀ ch ∈ hill.mulPairs a b c d u, isUpperA ch = true
  | [] => by
    intro ch hch
    exact absurd hch (by simp [hill.mulPairs])
  | [x] => by
    intro ch hch
    exact absurd hch (by simp [hill.mulPairs])
  | x :: y :: rest => by
    intro ch hch
    have hred : hill.mulPairs a b c d (x :: y :: rest)
        = (65 + ((a * ((x : Int) - 65) + b * ((y : Int) - 65)) % 26).toNat) ::
          (65 + ((c * ((x : Int) - 65) + d * ((y : Int) - 65)) % 26).toNat) ::
          hill.mulPairs a b c d rest := rfl
    rw [hred] at hch
    rcases List.mem_cons.mp hch with h1 | hch2
    · rw [h1, isUpperA_iff]
      have := emod26_nonneg (a * ((x : Int) - 65) + b * ((y : Int) - 65))
      have := emod26_lt (a * ((x : Int) - 65) + b * ((y : Int) - 65))
      omega
    · rcases List.mem_cons.mp hch2 with h2 | hch3
      · rw [h2, isUpperA_iff]
        have := emod26_nonneg (c * ((x : Int) - 65) + d * ((y : Int) - 65))
        have := emod26_lt (c * ((x : Int) - 65) + d * ((y : Int) - 65))
        omega
      · exact hill_mulPairs_upper a b c d rest ch hch3

theorem hill_clean_upper (t : Str) : ∀ c ∈ hill.clean t, isUpperA c = true := by
  intro c hc
  unfold hill.clean at hc
  obtain ⟨c0, hc0, rfl⟩ := List.mem_map.mp hc
  exact isUpperA_toUpperA_of_alpha (List.of_mem_filter hc0)

theorem hill_padX_upper (u : Str) (h : ∀ c ∈ u, isUpperA c = true) :
    ∀ c ∈ hill.padX u, isUpperA c = true := by
  intro c hc
  unfold hill.padX at hc
  by_cases he : u.length % 2 = 1
  · rw [if_pos he] at hc
    rcases List.mem_append.mp hc with h1 | h2
    · exact h c h1
    · rw [List.mem_singleton.mp h2, isUpperA_iff]
      omega
  · rw [if_neg he] at hc
    exact h c hc

theorem hill_padX_even (u : Str) : (hill.padX u).length % 2 = 0 := by
  unfold hill.padX
  by_cases he : u.length % 2 = 1
  · rw [if_pos he, List.length_append, List.length_singleton]
    omega
  · rw [if_neg he]
    omega

/-- Hill round-trip: for an accepted key, decrypt ∘ encrypt returns the
letters-only upcased plaintext padded to even length with `'X'`. -/
theorem hill_roundtrip (t : Str) (m00 m01 m10 m11 : Int)
    (h : hill.validAccepts m00 m01 m10 m11 = true) :
    hill.decrypt (hill.encrypt t m00 m01 m10 m11) m00 m01 m10 m11
      = some (hill.padX (hill.clean t)) := by
  obtain ⟨v, hv, hdet⟩ := hill_modInv_spec m00 m01 m10 m11 h
  unfold hill.decrypt hill.matInverse
  rw [hv]
  show some (hill.mulPairs (((v : Int) * m11) % 26) (((v : Int) * (-m01)) % 26)
      (((v : Int) * (-m10)) % 26) (((v : Int) * m00) % 26)
      (hill.clean (hill.encrypt t m00 m01 m10 m11)))
    = some (hill.padX (hill.clean t))
  apply congrArg some
  unfold hill.encrypt
  rw [clean_of_upper _ (hill_mulPairs_upper m00 m01 m10 m11 _)]
  have hdet' : ((m00 * m11 - m01 * m10) * (v : Int)) % 26 = 1 := by
    unfold hill.determinant at hdet
    exact hdet
  exact hill_pairs_rt m00 m01 m10 m11 _ _ _ _
    (fun x y hx0 hx1 hy0 hy1 =>
      hill_pair_cancel m00 m01 m10 m11 (v : Int) hdet' x y hx0 hx1 hy0 hy1)
    (hill.padX (hill.clean t)) (hill_padX_even _)
    (hill_padX_upper _ (hill_clean_upper t))

namespace playfair

/-- `str.replace('J', 'I')` on one code point. -/
def jToI (c : Nat) : Nat := if c = 74 then 73 else c

/-- The 25 letters `ABCDEFGHIKLMNOPQRSTUVWXYZ` (I/J merged) used to fill
the 5x5 grid. -/
def ALPH25 : Str :=
  [65, 66, 67, 68, 69, 70, 71, 72, 73, 75, 76, 77, 78, 79, 80,
   81, 82, 83, 84, 85, 86, 87, 88, 89, 90]

/-- One step of the seen-set dedup loop in `_create_matrix`: append an
alphabetic character not seen before. -/
def addUnique (seen : Str) (c : Nat) : Str :=
  if isAlphaA c && !(seen.contains c) then seen ++ [c] else seen

/-- The unique key letters, in first-occurrence order. -/
def uniqueLetters (l : Str) : Str := l.foldl addUnique []

/-- `PlayfairCipher._create_matrix` as a flat row-major 25-character list:
unique letters of the cleaned key, then the remaining alphabet. -/
def matrixFlat (key : Str) : Str :=
  let kl := uniqueLetters (((key.map toUpperA).map jToI).filter (fun c => decide (c ≠ 32)))
  kl ++ ALPH25.filter (fun c => !(kl.contains c))

/-- `PlayfairCipher._find_position`: row and column of a character (J read
as I); `none` models the `ValueError` for a character not in the grid. -/
def findPos (m : Str) (c : Nat) : Option (Nat × Nat) :=
  let c' := jToI c
  if c' ∈ m then some ((m.indexOf c') / 5, (m.indexOf c') % 5) else none

/-- `PlayfairCipher._prepare_text` digraph construction: double letters are
broken with `'X'`, a trailing single letter is padded with `'X'`. -/
def prepareGo : Str → List (Nat × Nat)
  | [] => []
  | [a] => [(a, 88)]
  | a :: b :: rest =>
    if a = b then (a, 88) :: prepareGo (b :: rest)
    else (a, b) :: prepareGo rest

/-- `PlayfairCipher._prepare_text`: upcase, merge J into I, keep letters,
then split into digraphs. -/
def prepareText (t : Str) : List (Nat × Nat) :=
  prepareGo (((t.map toUpperA).map jToI).filter isAlphaA)

/-- The digraph list joined back into a string (the text that Playfair
actually encrypts, fillers included). -/
def joinPairs (ps : List (Nat × Nat)) : Str :=
  ps.flatMap (fun p => [p.1, p.2])

/-- Encryption of one digraph: same row shifts right, same column shifts
down, otherwise the rectangle swap. -/
def encPair (m : Str) (p : Nat × Nat) : Option (Nat × Nat) :=
  match findPos m p.1, findPos m p.2 with
  | some (r1, c1), some (r2, c2) =>
    if r1 = r2 then
      some (m.getD (r1 * 5 + (c1 + 1) % 5) 0, m.getD (r2 * 5 + (c2 + 1) % 5) 0)
    else if c1 = c2 then
      some (m.getD (((r1 + 1) % 5) * 5 + c1) 0, m.getD (((r2 + 1) % 5) * 5 + c2) 0)
    else
      some (m.getD (r1 * 5 + c2) 0, m.getD (r2 * 5 + c1) 0)
  | _, _ => none

/-- Decryption of one digraph: same row shifts left, same column shifts
up (Python `(c - 1) % 5` on a possibly negative value), rectangle rule
unchanged. -/
def decPair (m : Str) (p : Nat × Nat) : Option (Nat × Nat) :=
  match findPos m p.1, findPos m p.2 with
  | some (r1, c1), some (r2, c2) =>
    if r1 = r2 then
      some (m.getD (r1 * 5 + (((c1 : Int) - 1) % 5).toNat) 0,
        m.getD (r2 * 5 + (((c2 : Int) - 1) % 5).toNat) 0)
    else if c1 = c2 then
      some (m.getD ((((r1 : Int) - 1) % 5).toNat * 5 + c1) 0,
        m.getD ((((r2 : Int) - 1) % 5).toNat * 5 + c2) 0)
    else
      some (m.getD (r1 * 5 + c2) 0, m.getD (r2 * 5 + c1) 0)
  | _, _ => none

/-- The encryption loop over digraphs. -/
def encPairs (m : Str) : List (Nat × Nat) → Option Str
  | [] => some []
  | p :: ps =>
    match encPair m p with
    | none => none
    | some (u, v) =>
      match encPairs m ps with
      | none => none
      | some r => some (u :: v :: r)

/-- `PlayfairCipher.encrypt` (playfair.py). -/
def encrypt (plaintext key : Str) : Option Str :=
  encPairs (matrixFlat key) (prepareText plaintext)

/-- Ciphertext cleanup in `decrypt`: upcase, keep letters (no J merge at
the string level). -/
def cleanCipher (t : Str) : Str := (t.map toUpperA).filter isAlphaA

/-- The decryption loop over consecutive ciphertext pairs; a trailing
single character models the `IndexError` on `digraph[1]`. -/
def decChunks (m : Str) : Str → Option Str
  | [] => some []
  | [_] => none
  | a :: b :: rest =>
    match decPair m (a, b) with
    | none => none
    | some (u, v) =>
      match decChunks m rest with
      | none => none
      | some r => some (u :: v :: r)

/-- `PlayfairCipher.decrypt` (playfair.py). -/
def decrypt (ciphertext key : Str) : Option Str :=
  decChunks (matrixFlat key) (cleanCipher ciphertext)

/-- `PlayfairCipher.validate_key` acceptance: a non-empty string with at
least one letter. -/
def validAccepts (key : Str) : Bool := !key.isEmpty && key.any isAlphaA

end playfair

-- Playfair grid properties

theorem ALPH25_mem_iff (c : Nat) :
    c ∈ playfair.ALPH25 ↔ (65 ≤ c ∧ c ≤ 90 ∧ c ≠ 74) := by
  unfold playfair.ALPH25
  simp only [List.mem_cons, List.not_mem_nil, or_false]
  omega

theorem ALPH25_nodup : playfair.ALPH25.Nodup := by decide

theorem jU_Q {c0 : Nat} (h : isAlphaA (playfair.jToI (toUpperA c0)) = true) :
    65 ≤ playfair.jToI (toUpperA c0) ∧ playfair.jToI (toUpperA c0) ≤ 90 ∧
      playfair.jToI (toUpperA c0) ≠ 74 := by
  unfold playfair.jToI at h ⊢
  by_cases h74 : toUpperA c0 = 74
  · rw [if_pos h74]
    omega
  · rw [if_neg h74] at h ⊢
    have := isUpperA_toUpperA_of_alpha (c := c0) (by rw [← isAlphaA_toUpperA]; exact h)
    rw [isUpperA_iff] at this
    refine ⟨this.1, this.2, h74⟩

theorem not_contains_iff (l : Str) (x : Nat) : (!(l.contains x)) = true ↔ x ∉ l := by
  constructor
  · intro h hmem
    have hc : l.contains x = true := List.elem_iff.mpr hmem
    rw [hc] at h
    exact Bool.false_ne_true h
  · intro h
    cases hb : l.contains x with
    | true => exact absurd (List.elem_iff.mp hb) h
    | false => rfl

theorem mem_foldl_addUnique :
    ∀ (l seen : Str) (c : Nat),
      c ∈ l.foldl playfair.addUnique seen ↔
        c ∈ seen ∨ (c ∈ l ∧ isAlphaA c = true) := by
  intro l
  induction l with
  | nil =>
    intro seen c
    simp [List.foldl]
  | cons a rest ih =>
    intro seen c
    rw [List.foldl_cons, ih]
    unfold playfair.addUnique
    by_cases hcond : (isAlphaA a && !(seen.contains a)) = true
    · rw [if_pos hcond]
      rw [Bool.and_eq_true] at hcond
      simp only [List.mem_append, List.mem_cons, List.not_mem_nil, or_false,
        List.mem_singleton]
      constructor
      · rintro ((h | rfl) | ⟨h, hal⟩)
        · exact Or.inl h
        · exact Or.inr ⟨Or.inl rfl, hcond.1⟩
        · exact Or.inr ⟨Or.inr h, hal⟩
      · rintro (h | ⟨rfl | h, hal⟩)
        · exact Or.inl (Or.inl h)
        · exact Or.inl (Or.inr rfl)
        · exact Or.inr ⟨h, hal⟩
    · rw [if_neg hcond]
      rw [Bool.and_eq_true] at hcond
      simp only [List.mem_cons]
      constructor
      · rintro (h | ⟨h, hal⟩)
        · exact Or.inl h
        · exact Or.inr ⟨Or.inr h, hal⟩
      · rintro (h | ⟨rfl | h, hal⟩)
        · exact Or.inl h
        · by_cases hseen : c ∈ seen
          · exact Or.inl hseen
          · exact absurd ⟨hal, (not_contains_iff seen c).mpr hseen⟩ hcond
        · exact Or.inr ⟨h, hal⟩

theorem nodup_foldl_addUnique :
    ∀ (l seen : Str), seen.Nodup → (l.foldl playfair.addUnique seen).Nodup := by
  intro l
  induction l with
  | nil =>
    intro seen h
    exact h
  | cons a rest ih =>
    intro seen h
    rw [List.foldl_cons]
    apply ih
    unfold playfair.addUnique
    by_cases hcond : (isAlphaA a && !(seen.contains a)) = true
    · rw [if_pos hcond]
      rw [Bool.and_eq_true] at hcond
      rw [List.nodup_append]
      refine ⟨h, List.nodup_singleton a, ?_⟩
      intro x hx hxa
      rw [List.mem_singleton] at hxa
      subst hxa
      exact (not_contains_iff seen x).mp hcond.2 hx
    · rw [if_neg hcond]
      exact h

/-- The Playfair grid is a permutation of the 25 merged-alphabet letters. -/
theorem playfair_matrix_spec (key : Str) :
    (playfair.matrixFlat key).Nodup ∧
      (∀ c, c ∈ playfair.matrixFlat key ↔ c ∈ playfair.ALPH25) ∧
      (playfair.matrixFlat key).length = 25 := by
  unfold playfair.matrixFlat
  set base := ((key.map toUpperA).map playfair.jToI).filter (fun c => decide (c ≠ 32)) with hbase
  set kl := playfair.uniqueLetters base with hkl
  have klmem : ∀ c ∈ kl, c ∈ playfair.ALPH25 := by
    intro c hc
    rw [hkl] at hc
    unfold playfair.uniqueLetters at hc
    rw [mem_foldl_addUnique base [] c] at hc
    rcases hc with h | ⟨hmem, hal⟩
    · exact absurd h (List.not_mem_nil c)
    · rw [hbase] at hmem
      obtain ⟨hc1, -⟩ := List.mem_filter.mp hmem
      obtain ⟨a1, ha1, rfl⟩ := List.mem_map.mp hc1
      obtain ⟨c0, -, rfl⟩ := List.mem_map.mp ha1
      rw [ALPH25_mem_iff]
      exact jU_Q hal
  have klnodup : kl.Nodup := nodup_foldl_addUnique base [] List.nodup_nil
  have hfsub : ∀ c ∈ playfair.ALPH25.filter (fun c => !(kl.contains c)), c ∈ playfair.ALPH25 :=
    fun c hc => (List.mem_filter.mp hc).1
  have hnodup : (kl ++ playfair.ALPH25.filter (fun c => !(kl.contains c))).Nodup := by
    rw [List.nodup_append]
    refine ⟨klnodup, ALPH25_nodup.filter _, ?_⟩
    intro x hx hxf
    exact (not_contains_iff kl x).mp (List.mem_filter.mp hxf).2 hx
  have hmem : ∀ c, c ∈ kl ++ playfair.ALPH25.filter (fun c => !(kl.contains c))
      ↔ c ∈ playfair.ALPH25 := by
    intro c
    rw [List.mem_append]
    constructor
    · rintro (h | h)
      · exact klmem c h
      · exact hfsub c h
    · intro h
      by_cases hklc : c ∈ kl
      · exact Or.inl hklc
      · exact Or.inr (List.mem_filter.mpr ⟨h, (not_contains_iff kl c).mpr hklc⟩)
  refine ⟨hnodup, hmem, ?_⟩
  have hperm := (List.perm_ext_iff_of_nodup hnodup ALPH25_nodup).mpr hmem
  rw [hperm.length_eq]
  rfl

theorem matrix_noJ {m : Str} (hmem : ∀ c, c ∈ m ↔ c ∈ playfair.ALPH25)
    {c : Nat} (hc : c ∈ m) : playfair.jToI c = c := by
  have := (ALPH25_mem_iff c).mp ((hmem c).mp hc)
  unfold playfair.jToI
  rw [if_neg this.2.2]

theorem playfair_findPos_of_mem {m : Str} {c : Nat} (hc : c ∈ m)
    (hj : playfair.jToI c = c) :
    playfair.findPos m c = some (m.indexOf c / 5, m.indexOf c % 5) := by
  unfold playfair.findPos
  rw [hj, if_pos hc]

theorem getD_mem25 {m : Str} (hlen : m.length = 25) {i : Nat} (hi : i < 25) :
    m.getD i 0 ∈ m := by
  have h' : i < m.length := by omega
  rw [List.getD_eq_getElem m 0 h']
  exact m.getElem_mem h'

theorem playfair_findPos_getD {m : Str} (hnd : m.Nodup)
    (hmem : ∀ c, c ∈ m ↔ c ∈ playfair.ALPH25) (hlen : m.length = 25)
    {i : Nat} (hi : i < 25) :
    playfair.findPos m (m.getD i 0) = some (i / 5, i % 5) := by
  have h' : i < m.length := by omega
  rw [List.getD_eq_getElem m 0 h']
  have hm : m[i] ∈ m := m.getElem_mem h'
  rw [playfair_findPos_of_mem hm (matrix_noJ hmem hm),
    List.indexOf_getElem hnd i h']

theorem getD_indexOf {m : Str} {a : Nat} (ha : a ∈ m) :
    m.getD (m.indexOf a) 0 = a := by
  rw [List.getD_eq_getElem m 0 (List.indexOf_lt_length.mpr ha)]
  exact List.getElem_indexOf (List.indexOf_lt_length.mpr ha)

theorem shiftR_cancel :
    ∀ c : Nat, c < 5 → (((((c + 1) % 5 : Nat) : Int) - 1) % 5).toNat = c := by
  decide

/-- Encrypting one digraph of grid letters succeeds, stays in the grid,
and is undone by the decrypt digraph rule. -/
theorem playfair_pair_rt (m : Str) (hnd : m.Nodup)
    (hmem : ∀ c, c ∈ m ↔ c ∈ playfair.ALPH25) (hlen : m.length = 25)
    {a b : Nat} (ha : a ∈ m) (hb : b ∈ m) :
    ∃ u v, playfair.encPair m (a, b) = some (u, v) ∧ u ∈ m ∧ v ∈ m ∧
      playfair.decPair m (u, v) = some (a, b) := by
  have hja := matrix_noJ hmem ha
  have hjb := matrix_noJ hmem hb
  have hpa : m.indexOf a < 25 := by
    have := List.indexOf_lt_length.mpr ha
    omega
  have hpb : m.indexOf b < 25 := by
    have := List.indexOf_lt_length.mpr hb
    omega
  have hfa := playfair_findPos_of_mem ha hja
  have hfb := playfair_findPos_of_mem hb hjb
  set pa := m.indexOf a with hpadef
  set pb := m.indexOf b with hpbdef
  have hga : m.getD pa 0 = a := getD_indexOf ha
  have hgb : m.getD pb 0 = b := getD_indexOf hb
  by_cases hrow : pa / 5 = pb / 5
  · have henc : playfair.encPair m (a, b)
        = some (m.getD (pa / 5 * 5 + (pa % 5 + 1) % 5) 0,
            m.getD (pb / 5 * 5 + (pb % 5 + 1) % 5) 0) := by
      simp only [playfair.encPair, hfa, hfb]
      rw [if_pos hrow]
    refine ⟨_, _, henc, getD_mem25 hlen (by omega), getD_mem25 hlen (by omega), ?_⟩
    have hdu := playfair_findPos_getD hnd hmem hlen
      (i := pa / 5 * 5 + (pa % 5 + 1) % 5) (by omega)
    have hdv := playfair_findPos_getD hnd hmem hlen
      (i := pb / 5 * 5 + (pb % 5 + 1) % 5) (by omega)
    rw [show (pa / 5 * 5 + (pa % 5 + 1) % 5) / 5 = pa / 5 by omega,
      show (pa / 5 * 5 + (pa % 5 + 1) % 5) % 5 = (pa % 5 + 1) % 5 by omega] at hdu
    rw [show (pb / 5 * 5 + (pb % 5 + 1) % 5) / 5 = pb / 5 by omega,
      show (pb / 5 * 5 + (pb % 5 + 1) % 5) % 5 = (pb % 5 + 1) % 5 by omega] at hdv
    simp only [playfair.decPair, hdu, hdv]
    rw [if_pos hrow, shiftR_cancel (pa % 5) (by omega), shiftR_cancel (pb % 5) (by omega),
      show pa / 5 * 5 + pa % 5 = pa by omega,
      show pb / 5 * 5 + pb % 5 = pb by omega, hga, hgb]
  · by_cases hcol : pa % 5 = pb % 5
    · have henc : playfair.encPair m (a, b)
          = some (m.getD ((pa / 5 + 1) % 5 * 5 + pa % 5) 0,
              m.getD ((pb / 5 + 1) % 5 * 5 + pb % 5) 0) := by
        simp only [playfair.encPair, hfa, hfb]
        rw [if_neg hrow, if_pos hcol]
      refine ⟨_, _, henc, getD_mem25 hlen (by omega), getD_mem25 hlen (by omega), ?_⟩
      have hdu := playfair_findPos_getD hnd hmem hlen
        (i := (pa / 5 + 1) % 5 * 5 + pa % 5) (by omega)
      have hdv := playfair_findPos_getD hnd hmem hlen
        (i := (pb / 5 + 1) % 5 * 5 + pb % 5) (by omega)
      rw [show ((pa / 5 + 1) % 5 * 5 + pa % 5) / 5 = (pa / 5 + 1) % 5 by omega,
        show ((pa / 5 + 1) % 5 * 5 + pa % 5) % 5 = pa % 5 by omega] at hdu
      rw [show ((pb / 5 + 1) % 5 * 5 + pb % 5) / 5 = (pb / 5 + 1) % 5 by omega,
        show ((pb / 5 + 1) % 5 * 5 + pb % 5) % 5 = pb % 5 by omega] at hdv
      simp only [playfair.decPair, hdu, hdv]
      rw [if_neg (show ¬ (pa / 5 + 1) % 5 = (pb / 5 + 1) % 5 by omega),
        if_pos hcol, shiftR_cancel (pa / 5) (by omega), shiftR_cancel (pb / 5) (by omega),
        show pa / 5 * 5 + pa % 5 = pa by omega,
        show pb / 5 * 5 + pb % 5 = pb by omega, hga, hgb]
    · have henc : playfair.encPair m (a, b)
          = some (m.getD (pa / 5 * 5 + pb % 5) 0, m.getD (pb / 5 * 5 + pa % 5) 0) := by
        simp only [playfair.encPair, hfa, hfb]
        rw [if_neg hrow, if_neg hcol]
      refine ⟨_, _, henc, getD_mem25 hlen (by omega), getD_mem25 hlen (by omega), ?_⟩
      have hdu := playfair_findPos_getD hnd hmem hlen
        (i := pa / 5 * 5 + pb % 5) (by omega)
      have hdv := playfair_findPos_getD hnd hmem hlen
        (i := pb / 5 * 5 + pa % 5) (by omega)
      rw [show (pa / 5 * 5 + pb % 5) / 5 = pa / 5 by omega,
        show (pa / 5 * 5 + pb % 5) % 5 = pb % 5 by omega] at hdu
      rw [show (pb / 5 * 5 + pa % 5) / 5 = pb / 5 by omega,
        show (pb / 5 * 5 + pa % 5) % 5 = pa % 5 by omega] at hdv
      simp only [playfair.decPair, hdu, hdv]
      rw [if_neg hrow, if_neg (show ¬ pb % 5 = pa % 5 from fun h => hcol h.symm),
        show pa / 5 * 5 + pa % 5 = pa by omega,
        show pb / 5 * 5 + pb % 5 = pb by omega, hga, hgb]

theorem X88_mem : (88 : Nat) ∈ playfair.ALPH25 := by decide

theorem prepareGo_chars :
    ∀ (l : Str), (∀ c ∈ l, c ∈ playfair.ALPH25) →
      ∀ p ∈ playfair.prepareGo l, p.1 ∈ playfair.ALPH25 ∧ p.2 ∈ playfair.ALPH25
  | [], _, p, hp => absurd hp (by simp [playfair.prepareGo])
  | [a], h, p, hp => by
    have : p = (a, 88) := by
      simpa [playfair.prepareGo] using hp
    rw [this]
    exact ⟨h a (List.mem_singleton.mpr rfl), X88_mem⟩
  | a :: b :: rest, h, p, hp => by
    have hrest : ∀ c ∈ b :: rest, c ∈ playfair.ALPH25 :=
      fun c hc => h c (List.mem_cons_of_mem a hc)
    have hrest' : ∀ c ∈ rest, c ∈ playfair.ALPH25 :=
      fun c hc => hrest c (List.mem_cons_of_mem b hc)
    by_cases hab : a = b
    · rw [show playfair.prepareGo (a :: b :: rest)
          = (a, 88) :: playfair.prepareGo (b :: rest) by
        simp [playfair.prepareGo, hab]] at hp
      rcases List.mem_cons.mp hp with rfl | hp2
      · exact ⟨h a (List.mem_cons_self _ _), X88_mem⟩
      · exact prepareGo_chars (b :: rest) hrest p hp2
    · rw [show playfair.prepareGo (a :: b :: rest)
          = (a, b) :: playfair.prepareGo rest by
        simp [playfair.prepareGo, hab]] at hp
      rcases List.mem_cons.mp hp with rfl | hp2
      · exact ⟨h a (List.mem_cons_self _ _),
          h b (List.mem_cons_of_mem a (List.mem_cons_self _ _))⟩
      · exact prepareGo_chars rest hrest' p hp2

theorem prepareText_chars (t : Str) :
    ∀ p ∈ playfair.prepareText t, p.1 ∈ playfair.ALPH25 ∧ p.2 ∈ playfair.ALPH25 := by
  apply prepareGo_chars
  intro c hc
  obtain ⟨hc1, hal⟩ := List.mem_filter.mp hc
  obtain ⟨a1, ha1, rfl⟩ := List.mem_map.mp hc1
  obtain ⟨c0, -, rfl⟩ := List.mem_map.mp ha1
  rw [ALPH25_mem_iff]
  exact jU_Q hal

theorem cleanCipher_of_upper (e : Str) (h : ∀ c ∈ e, isUpperA c = true) :
    playfair.cleanCipher e = e := by
  unfold playfair.cleanCipher
  induction e with
  | nil => rfl
  | cons c rest ih =>
    have hc := h c (List.mem_cons_self _ _)
    rw [List.map_cons, toUpperA_of_upper hc, List.filter_cons,
      if_pos (isUpperA_alpha hc),
      ih (fun x hx => h x (List.mem_cons_of_mem _ hx))]

theorem playfair_encPairs_rt (m : Str) (hnd : m.Nodup)
    (hmem : ∀ c, c ∈ m ↔ c ∈ playfair.ALPH25) (hlen : m.length = 25) :
    ∀ ps : List (Nat × Nat), (∀ p ∈ ps, p.1 ∈ m ∧ p.2 ∈ m) →
      ∃ e, playfair.encPairs m ps = some e ∧ (∀ c ∈ e, c ∈ m) ∧
        playfair.decChunks m e = some (playfair.joinPairs ps) := by
  intro ps
  induction ps with
  | nil =>
    intro _
    exact ⟨[], rfl, fun c hc => absurd hc (List.not_mem_nil c), rfl⟩
  | cons p ps ih =>
    intro hps
    obtain ⟨a, b⟩ := p
    obtain ⟨ha, hb⟩ := hps (a, b) (List.mem_cons_self _ _)
    obtain ⟨u, v, henc, hu, hv, hdec⟩ := playfair_pair_rt m hnd hmem hlen ha hb
    obtain ⟨e, he, hin, hd⟩ := ih (fun q hq => hps q (List.mem_cons_of_mem _ hq))
    refine ⟨u :: v :: e, ?_, ?_, ?_⟩
    · simp only [playfair.encPairs, henc, he]
    · intro c hc
      rcases List.mem_cons.mp hc with rfl | hc2
      · exact hu
      · rcases List.mem_cons.mp hc2 with rfl | hc3
        · exact hv
        · exact hin c hc3
    · simp only [playfair.decChunks, hdec, hd]
      rfl

/-- Playfair round-trip: decrypt ∘ encrypt returns the filler-padded
digraph preparation of the plaintext (not the plaintext's letters). -/
theorem playfair_roundtrip (t key : Str) :
    ∃ e, playfair.encrypt t key = some e ∧
      playfair.decrypt e key = some (playfair.joinPairs (playfair.prepareText t)) := by
  obtain ⟨hnd, hmem, hlen⟩ := playfair_matrix_spec key
  have hps : ∀ p ∈ playfair.prepareText t,
      p.1 ∈ playfair.matrixFlat key ∧ p.2 ∈ playfair.matrixFlat key := by
    intro p hp
    obtain ⟨h1, h2⟩ := prepareText_chars t p hp
    exact ⟨(hmem p.1).mpr h1, (hmem p.2).mpr h2⟩
  obtain ⟨e, he, hin, hd⟩ := playfair_encPairs_rt (playfair.matrixFlat key)
    hnd hmem hlen (playfair.prepareText t) hps
  refine ⟨e, he, ?_⟩
  unfold playfair.decrypt
  rw [cleanCipher_of_upper e ?hup]
  · exact hd
  · intro c hc
    have := (ALPH25_mem_iff c).mp ((hmem c).mp (hin c hc))
    rw [isUpperA_iff]
    omega

namespace vernam

/-- Minimal binary digits of `n`, most significant first (`format(n, 'b')`). -/
def natBits (n : Nat) : List Bool :=
  if n = 0 then [false]
  else (Nat.toDigits 2 n).map (fun c => c = '1')

/-- `format(ord(c), '08b')`: binary padded on the left to at least 8 bits. -/
def bits8 (n : Nat) : List Bool :=
  let b := natBits n
  List.replicate (8 - b.length) false ++ b

/-- `VernamCipher._text_to_binary`. -/
def textToBinary (t : Str) : List Bool := t.flatMap bits8

/-- `VernamCipher._xor_strings`: position-wise difference, truncated to the
shorter input (Python `zip`). -/
def xorStrings (a b : List Bool) : List Bool :=
  (a.zip b).map (fun p => p.1 != p.2)

/-- Byte value of (up to) eight bits, most significant first
(`int(byte, 2)` on a chunk produced by the 8-bit slicing). -/
def byteOf (bits : List Bool) : Nat :=
  bits.foldl (fun acc b => 2 * acc + (if b then 1 else 0)) 0

/-- Two uppercase hex digits of a byte (`format(value, '02X')`). -/
def hexDigit (d : Nat) : Nat := if d < 10 then 48 + d else 55 + d

def toHexPair (v : Nat) : Str := [hexDigit (v / 16), hexDigit (v % 16)]

/-- `int(s, 16)` on one hex-digit character; `none` models `ValueError`. -/
def parseHexDigit (c : Nat) : Option Nat :=
  if 48 ≤ c ∧ c ≤ 57 then some (c - 48)
  else if 65 ≤ c ∧ c ≤ 70 then some (c - 55)
  else if 97 ≤ c ∧ c ≤ 102 then some (c - 87)
  else none

/-- Eight-bit groups of a bit string; the trailing partial group is kept
(mirrors `range(0, len, 8)` slicing). -/
def chunks8 : List Bool → List (List Bool)
  | b1 :: b2 :: b3 :: b4 :: b5 :: b6 :: b7 :: b8 :: rest =>
    [b1, b2, b3, b4, b5, b6, b7, b8] :: chunks8 rest
  | [] => []
  | l => [l]

/-- The key repeated `len(plaintext) // len(key) + 1` times then cut to
the plaintext length. -/
def keyExtended (key : Str) (n : Nat) : Str :=
  (List.replicate (n / key.length + 1) key).flatten.take n

/-- `VernamCipher.encrypt` (vernam.py): XOR the byte streams, render each
full byte as two uppercase hex digits; `none` models the
`ZeroDivisionError` on an empty key. -/
def encrypt (plaintext key : Str) : Option Str :=
  if key.length = 0 then none
  else
    let keyExt := keyExtended key plaintext.length
    let encBin := xorStrings (textToBinary plaintext) (textToBinary keyExt)
    some ((chunks8 encBin).flatMap (fun byte =>
      if byte.length = 8 then toHexPair (byteOf byte) else []))

/-- Hex-pair groups of the ciphertext (`range(0, len, 2)` slicing). -/
def chunks2 : Str → List Str
  | a :: b :: rest => [a, b] :: chunks2 rest
  | [] => []
  | l => [l]

/-- `int(hex, 16)` over one ciphertext slice of one or two characters. -/
def parseHexChunk (s : Str) : Option Nat :=
  match s with
  | [a] => parseHexDigit a
  | [a, b] =>
    match parseHexDigit a, parseHexDigit b with
    | some d1, some d2 => some (16 * d1 + d2)
    | _, _ => none
  | _ => none

/-- The hex parse of every ciphertext slice, aborting on the first
failure (the `ValueError` of `int(..., 16)`). -/
def parseChunks : List Str → Option (List Nat)
  | [] => some []
  | s :: rest =>
    match parseHexChunk s, parseChunks rest with
    | some v, some vs => some (v :: vs)
    | _, _ => none

/-- `VernamCipher.decrypt` (vernam.py): parse hex pairs back to bytes,
XOR with the same extended key stream, keep full bytes. -/
def decrypt (ciphertext key : Str) : Option Str :=
  match parseChunks (chunks2 ciphertext) with
  | none => none
  | some vals =>
    let cipherBin := vals.flatMap bits8
    let keyLen := cipherBin.length / 8
    if key.length = 0 then none
    else
      let keyExt := keyExtended key keyLen
      let decBin := xorStrings cipherBin (textToBinary keyExt)
      some ((chunks8 decBin).filterMap (fun c =>
        if c.length = 8 then some (byteOf c) else none))

/-- `VernamCipher.validate_key` acceptance: any non-empty string. -/
def validAccepts (key : Str) : Bool := !key.isEmpty

end vernam

-- Vernam round-trip

set_option maxRecDepth 4000 in
theorem bits8_length : ∀ n : Nat, n ≤ 255 → (vernam.bits8 n).length = 8 := by
  decide

set_option maxRecDepth 4000 in
theorem byteOf_bits8 : ∀ n : Nat, n ≤ 255 → vernam.byteOf (vernam.bits8 n) = n := by
  decide

theorem bits8_byteOf :
    ∀ b1 b2 b3 b4 b5 b6 b7 b8 : Bool,
      vernam.bits8 (vernam.byteOf [b1, b2, b3, b4, b5, b6, b7, b8])
        = [b1, b2, b3, b4, b5, b6, b7, b8] := by
  decide

theorem byteOf_le :
    ∀ b1 b2 b3 b4 b5 b6 b7 b8 : Bool,
      vernam.byteOf [b1, b2, b3, b4, b5, b6, b7, b8] ≤ 255 := by
  decide

set_option maxRecDepth 4000 in
theorem parseHexChunk_toHexPair : ∀ v : Nat, v ≤ 255 →
    vernam.parseHexChunk (vernam.toHexPair v) = some v := by
  decide

theorem eight_of_length {x : List Bool} (h : x.length = 8) :
    ∃ b1 b2 b3 b4 b5 b6 b7 b8, x = [b1, b2, b3, b4, b5, b6, b7, b8] := by
  match x, h with
  | [b1, b2, b3, b4, b5, b6, b7, b8], _ =>
    exact ⟨b1, b2, b3, b4, b5, b6, b7, b8, rfl⟩

theorem chunks8_cons_block {x : List Bool} (rest : List Bool) (h : x.length = 8) :
    vernam.chunks8 (x ++ rest) = x :: vernam.chunks8 rest := by
  obtain ⟨b1, b2, b3, b4, b5, b6, b7, b8, rfl⟩ := eight_of_length h
  rfl

theorem xorStrings_append {a1 b1 : List Bool} (a2 b2 : List Bool)
    (h : a1.length = b1.length) :
    vernam.xorStrings (a1 ++ a2) (b1 ++ b2)
      = vernam.xorStrings a1 b1 ++ vernam.xorStrings a2 b2 := by
  unfold vernam.xorStrings
  rw [List.zip_append h, List.map_append]

theorem xorStrings_length {a b : List Bool} (h : a.length = b.length) :
    (vernam.xorStrings a b).length = a.length := by
  unfold vernam.xorStrings
  rw [List.length_map, List.length_zip]
  omega

theorem xorStrings_cancel : ∀ (a b : List Bool), a.length = b.length →
    vernam.xorStrings (vernam.xorStrings a b) b = a := by
  intro a
  induction a with
  | nil =>
    intro b h
    rw [List.length_nil] at h
    rw [(List.length_eq_zero).mp h.symm]
    rfl
  | cons x rest ih =>
    intro b h
    cases b with
    | nil => exact absurd h (by simp)
    | cons y bs =>
      show vernam.xorStrings (vernam.xorStrings (x :: rest) (y :: bs)) (y :: bs)
        = x :: rest
      have e1 : vernam.xorStrings (x :: rest) (y :: bs)
          = (x != y) :: vernam.xorStrings rest bs := rfl
      rw [e1]
      have e2 : vernam.xorStrings ((x != y) :: vernam.xorStrings rest bs) (y :: bs)
          = ((x != y) != y) :: vernam.xorStrings (vernam.xorStrings rest bs) bs := rfl
      rw [e2, ih bs (by simpa using h)]
      have : ((x != y) != y) = x := by
        cases x <;> cases y <;> rfl
      rw [this]

/-- The XOR of two equal-length byte streams, block by block. -/
theorem xor_textToBinary_blocks : ∀ (ps ks : Str), ps.length = ks.length →
    (∀ c ∈ ps, c ≤ 255) → (∀ c ∈ ks, c ≤ 255) →
    vernam.xorStrings (vernam.textToBinary ps) (vernam.textToBinary ks)
      = (ps.zip ks).flatMap
          (fun q => vernam.xorStrings (vernam.bits8 q.1) (vernam.bits8 q.2)) := by
  intro ps
  induction ps with
  | nil =>
    intro ks h _ _
    rw [(List.length_eq_zero).mp h.symm]
    rfl
  | cons p rest ih =>
    intro ks h hp hk
    cases ks with
    | nil => exact absurd h (by simp)
    | cons k kt =>
      have hbp : (vernam.bits8 p).length = 8 :=
        bits8_length p (hp p (List.mem_cons_self _ _))
      have hbk : (vernam.bits8 k).length = 8 :=
        bits8_length k (hk k (List.mem_cons_self _ _))
      have e1 : vernam.textToBinary (p :: rest)
          = vernam.bits8 p ++ vernam.textToBinary rest := rfl
      have e2 : vernam.textToBinary (k :: kt)
          = vernam.bits8 k ++ vernam.textToBinary kt := rfl
      rw [e1, e2, xorStrings_append _ _ (by omega)]
      rw [List.zip_cons_cons, List.flatMap_cons]
      rw [ih kt (by simpa using h) (fun c hc => hp c (List.mem_cons_of_mem _ hc))
        (fun c hc => hk c (List.mem_cons_of_mem _ hc))]

theorem chunks8_blocks : ∀ (L : List (List Bool)), (∀ x ∈ L, x.length = 8) →
    vernam.chunks8 L.flatten = L := by
  intro L
  induction L with
  | nil =>
    intro _
    rfl
  | cons x rest ih =>
    intro h
    rw [List.flatten_cons, chunks8_cons_block _ (h x (List.mem_cons_self _ _)),
      ih (fun y hy => h y (List.mem_cons_of_mem _ hy))]

theorem chunks2_pairs : ∀ (L : List Str), (∀ x ∈ L, x.length = 2) →
    vernam.chunks2 L.flatten = L := by
  intro L
  induction L with
  | nil =>
    intro _
    rfl
  | cons x rest ih =>
    intro h
    have h2 : x.length = 2 := h x (List.mem_cons_self _ _)
    match x, h2 with
    | [a, b], _ =>
      rw [List.flatten_cons]
      show vernam.chunks2 (a :: b :: List.flatten rest) = [a, b] :: rest
      rw [show vernam.chunks2 (a :: b :: List.flatten rest)
          = [a, b] :: vernam.chunks2 (List.flatten rest) from rfl,
        ih (fun y hy => h y (List.mem_cons_of_mem _ hy))]

theorem parseChunks_hexPairs : ∀ (vs : List Nat), (∀ v ∈ vs, v ≤ 255) →
    vernam.parseChunks (vs.map vernam.toHexPair) = some vs := by
  intro vs
  induction vs with
  | nil =>
    intro _
    rfl
  | cons v rest ih =>
    intro h
    rw [List.map_cons]
    show (match vernam.parseHexChunk (vernam.toHexPair v),
        vernam.parseChunks (rest.map vernam.toHexPair) with
      | some v, some vs => some (v :: vs)
      | _, _ => none) = some (v :: rest)
    rw [parseHexChunk_toHexPair v (h v (List.mem_cons_self _ _)),
      ih (fun y hy => h y (List.mem_cons_of_mem _ hy))]

theorem keyExtended_length (key : Str) (hne : key ≠ []) (n : Nat) :
    (vernam.keyExtended key n).length = n := by
  unfold vernam.keyExtended
  rw [List.length_take]
  have hl : (List.replicate (n / key.length + 1) key).flatten.length
      = (n / key.length + 1) * key.length := by
    rw [List.length_flatten, List.map_replicate, List.sum_replicate, smul_eq_mul]
  rw [hl]
  have hk : 0 < key.length := List.length_pos.mpr hne
  have h1 := Nat.div_add_mod n key.length
  have h2 := Nat.mod_lt n hk
  have h3 : (n / key.length + 1) * key.length
      = key.length * (n / key.length) + key.length := by
    ring
  omega

theorem keyExtended_mem (key : Str) (n : Nat) :
    ∀ c ∈ vernam.keyExtended key n, c ∈ key := by
  intro c hc
  unfold vernam.keyExtended at hc
  have h1 := List.mem_of_mem_take hc
  obtain ⟨l, hl, hcl⟩ := List.mem_flatten.mp h1
  rw [List.eq_of_mem_replicate hl] at hcl
  exact hcl

theorem flatten_len_const {α : Type} (L : List (List α)) (k : Nat)
    (h : ∀ x ∈ L, x.length = k) : L.flatten.length = k * L.length := by
  induction L with
  | nil => simp
  | cons x rest ih =>
    rw [List.flatten_cons, List.length_append, h x (List.mem_cons_self _ _),
      ih (fun y hy => h y (List.mem_cons_of_mem _ hy)), List.length_cons]
    ring

theorem textToBinary_length (t : Str) (h : ∀ c ∈ t, c ≤ 255) :
    (vernam.textToBinary t).length = 8 * t.length := by
  unfold vernam.textToBinary
  rw [List.flatMap_def, flatten_len_const _ 8 ?h8, List.length_map]
  intro x hx
  obtain ⟨c, hc, rfl⟩ := List.mem_map.mp hx
  exact bits8_length c (h c hc)

theorem filterMap_bits8_id (p : Str) (hp : ∀ c ∈ p, c ≤ 255) :
    List.filterMap ((fun c => if List.length c = 8 then some (vernam.byteOf c) else none)
      ∘ vernam.bits8) p = p := by
  induction p with
  | nil => rfl
  | cons c rest ih =>
    rw [List.filterMap_cons]
    have hc : ((fun c => if List.length c = 8 then some (vernam.byteOf c) else none)
        ∘ vernam.bits8) c = some c := by
      show (if (vernam.bits8 c).length = 8 then some (vernam.byteOf (vernam.bits8 c)) else none)
        = some c
      rw [if_pos (bits8_length c (hp c (List.mem_cons_self _ _))),
        byteOf_bits8 c (hp c (List.mem_cons_self _ _))]
    rw [hc, ih (fun x hx => hp x (List.mem_cons_of_mem _ hx))]

/-- Vernam round-trip: byte-wise XOR with the cyclically extended key,
rendered as hex, decrypts back to the plaintext when every code point fits
in one byte. -/
theorem vernam_roundtrip (p key : Str) (hp : ∀ c ∈ p, c ≤ 255)
    (hk : ∀ c ∈ key, c ≤ 255) (hne : key ≠ []) :
    ∃ e, vernam.encrypt p key = some e ∧ vernam.decrypt e key = some p := by
  have hkl : ¬ key.length = 0 := fun h => hne (List.length_eq_zero.mp h)
  set ks := vernam.keyExtended key p.length with hksdef
  have hkslen : ks.length = p.length := keyExtended_length key hne p.length
  have hks255 : ∀ c ∈ ks, c ≤ 255 :=
    fun c hc => hk c (keyExtended_mem key p.length c hc)
  set bl := (p.zip ks).map
    (fun q => vernam.xorStrings (vernam.bits8 q.1) (vernam.bits8 q.2)) with hbldef
  have hxor : vernam.xorStrings (vernam.textToBinary p) (vernam.textToBinary ks)
      = bl.flatten := by
    rw [xor_textToBinary_blocks p ks hkslen.symm hp hks255, List.flatMap_def]
  have hbl8 : ∀ x ∈ bl, x.length = 8 := by
    intro x hx
    rw [hbldef] at hx
    obtain ⟨⟨a, b⟩, hab, rfl⟩ := List.mem_map.mp hx
    obtain ⟨hap, hbk⟩ := List.of_mem_zip hab
    rw [xorStrings_length (by rw [bits8_length a (hp a hap), bits8_length b (hks255 b hbk)])]
    exact bits8_length a (hp a hap)
  set vals := bl.map vernam.byteOf with hvals
  have hvals255 : ∀ v ∈ vals, v ≤ 255 := by
    intro v hv
    rw [hvals] at hv
    obtain ⟨x, hx, rfl⟩ := List.mem_map.mp hv
    obtain ⟨b1, b2, b3, b4, b5, b6, b7, b8, rfl⟩ := eight_of_length (hbl8 x hx)
    exact byteOf_le b1 b2 b3 b4 b5 b6 b7 b8
  have hbitsval : ∀ x ∈ bl, vernam.bits8 (vernam.byteOf x) = x := by
    intro x hx
    obtain ⟨b1, b2, b3, b4, b5, b6, b7, b8, rfl⟩ := eight_of_length (hbl8 x hx)
    exact bits8_byteOf b1 b2 b3 b4 b5 b6 b7 b8
  have henc : vernam.encrypt p key = some ((vals.map vernam.toHexPair).flatten) := by
    show (if key.length = 0 then none
      else some ((vernam.chunks8 (vernam.xorStrings (vernam.textToBinary p)
          (vernam.textToBinary (vernam.keyExtended key p.length)))).flatMap
        (fun byte => if byte.length = 8 then vernam.toHexPair (vernam.byteOf byte) else [])))
      = some ((vals.map vernam.toHexPair).flatten)
    rw [if_neg hkl, ← hksdef, hxor, chunks8_blocks bl hbl8]
    apply congrArg some
    conv_rhs => rw [hvals, List.map_map]
    rw [List.flatMap_def]
    congr 1
    apply List.map_congr_left
    intro x hx
    rw [if_pos (hbl8 x hx)]
    rfl
  refine ⟨(vals.map vernam.toHexPair).flatten, henc, ?_⟩
  have hchunks2 : vernam.chunks2 ((vals.map vernam.toHexPair).flatten)
      = vals.map vernam.toHexPair := by
    apply chunks2_pairs
    intro x hx
    obtain ⟨v, hv, rfl⟩ := List.mem_map.mp hx
    rfl
  have hparse : vernam.parseChunks (vals.map vernam.toHexPair) = some vals :=
    parseChunks_hexPairs vals hvals255
  have hcipherBin : vals.flatMap vernam.bits8 = bl.flatten := by
    rw [hvals, List.flatMap_def, List.map_map]
    congr 1
    have he : List.map (vernam.bits8 ∘ vernam.byteOf) bl = List.map id bl :=
      List.map_congr_left (fun x hx => hbitsval x hx)
    rw [he, List.map_id]
  have hbl_len : bl.length = p.length := by
    rw [hbldef, List.length_map, List.length_zip]
    omega
  have hflat_len : bl.flatten.length = 8 * p.length := by
    rw [flatten_len_const bl 8 hbl8, hbl_len]
  have hkeyLen : bl.flatten.length / 8 = p.length := by
    rw [hflat_len]
    omega
  show (match vernam.parseChunks (vernam.chunks2 ((vals.map vernam.toHexPair).flatten)) with
    | none => none
    | some vals =>
      if key.length = 0 then none
      else some ((vernam.chunks8 (vernam.xorStrings (vals.flatMap vernam.bits8)
          (vernam.textToBinary (vernam.keyExtended key ((vals.flatMap vernam.bits8).length / 8))))).filterMap
        (fun c => if c.length = 8 then some (vernam.byteOf c) else none)))
    = some p
  rw [hchunks2, hparse]
  show (if key.length = 0 then none
    else some ((vernam.chunks8 (vernam.xorStrings (vals.flatMap vernam.bits8)
        (vernam.textToBinary (vernam.keyExtended key ((vals.flatMap vernam.bits8).length / 8))))).filterMap
      (fun c => if c.length = 8 then some (vernam.byteOf c) else none)))
    = some p
  rw [if_neg hkl, hcipherBin, hkeyLen, ← hksdef, ← hxor,
    xorStrings_cancel _ _ (by
      rw [textToBinary_length p hp, textToBinary_length ks hks255, hkslen])]
  apply congrArg some
  have hpt : vernam.textToBinary p = (p.map vernam.bits8).flatten := by
    unfold vernam.textToBinary
    rw [List.flatMap_def]
  rw [hpt, chunks8_blocks (p.map vernam.bits8) ?hlens]
  · rw [List.filterMap_map]
    exact filterMap_bits8_id p hp
  · intro x hx
    obtain ⟨c, hc, rfl⟩ := List.mem_map.mp hx
    exact bits8_length c (hp c hc)

namespace columnar

/-- `key.upper().replace(' ', '')` as used by `ColumnarCipher.encrypt` /
`decrypt` on both the key and the text: upcase, then drop spaces. -/
def cleanCol (s : Str) : Str := (s.map toUpperA).filter (fun c => c != 32)

/-- `ColumnarCipher._get_column_order`: sort `enumerate(key)` by the pair
`(char, original_index)` and return the original indices in that order. -/
def columnOrder (key : Str) : List Nat :=
  (((key.map toUpperA).enum).mergeSort
    (fun a b => decide (a.2 < b.2 ∨ (a.2 = b.2 ∧ a.1 ≤ b.1)))).map Prod.fst

/-- `ColumnarCipher.encrypt`: clean key and text, pad the text with `X` to a
multiple of the key length, then read the row-major grid column by column in
`columnOrder`.  A key that cleans to the empty string makes the Python
`% num_cols` raise `ZeroDivisionError`, modelled as `none`. -/
def encrypt (plaintext key : Str) : Option Str :=
  let k := cleanCol key
  let t0 := cleanCol plaintext
  if k.length = 0 then none
  else
    let n := k.length
    let t := t0 ++ List.replicate ((n - t0.length % n) % n) 88
    let r := t.length / n
    let grid := (List.range r).map (fun i => (t.drop (i * n)).take n)
    some ((columnOrder k).flatMap (fun col => grid.map (fun row => row.getD col 0)))

/-- The column-filling loop of `ColumnarCipher.decrypt`: `columns[col] =
ciphertext[idx:idx+num_rows]` for `col` running through the column order. -/
def fillCols (ct : Str) (r : Nat) (order : List Nat) (n : Nat) : List Str :=
  (order.enum).foldl (fun cols ji => cols.set ji.2 ((ct.drop (ji.1 * r)).take r))
    (List.replicate n [])

/-- `ColumnarCipher.decrypt`: clean key and ciphertext, slice the ciphertext
into `num_cols` columns of `num_rows` characters following `columnOrder`,
then read the grid row by row.  An empty cleaned key raises
`ZeroDivisionError` at `len(ciphertext) // num_cols`, modelled as `none`. -/
def decrypt (ciphertext key : Str) : Option Str :=
  let k := cleanCol key
  let ct := cleanCol ciphertext
  if k.length = 0 then none
  else
    let n := k.length
    let r := ct.length / n
    let cols := fillCols ct r (columnOrder k) n
    some ((List.range r).flatMap (fun row =>
      (List.range n).map (fun col => (cols.getD col []).getD row 0)))

/-- `ColumnarCipher.validate_key` on a string key: nonempty after dropping
spaces, all letters, at least two characters. -/
def validAccepts (key : Str) : Bool :=
  let kc := key.filter (fun c => c != 32)
  !key.isEmpty && kc.all isAlphaA && decide (2 ≤ kc.length)

end columnar

theorem getD_mem_of_lt {α : Type} (l : List α) (i : Nat) (d : α) (h : i < l.length) :
    l.getD i d ∈ l := by
  rw [List.getD_eq_getElem?_getD, List.getElem?_eq_getElem h]
  exact List.getElem_mem h

theorem columnar_clean_members (s : Str) :
    ∀ c ∈ columnar.cleanCol s, toUpperA c = c ∧ c ≠ 32 := by
  intro c hc
  unfold columnar.cleanCol at hc
  obtain ⟨hmem, hne⟩ := List.mem_filter.mp hc
  obtain ⟨c0, _, rfl⟩ := List.mem_map.mp hmem
  refine ⟨toUpperA_idem c0, ?_⟩
  intro h32
  rw [h32] at hne
  exact absurd hne (by decide)

theorem cleanCol_eq_self (s : Str) (h : ∀ c ∈ s, toUpperA c = c ∧ c ≠ 32) :
    columnar.cleanCol s = s := by
  unfold columnar.cleanCol
  have hmap : s.map toUpperA = s := by
    have h1 : s.map toUpperA = s.map id := List.map_congr_left (fun c hc => (h c hc).1)
    rw [h1, List.map_id]
  rw [hmap]
  apply List.filter_eq_self.mpr
  intro c hc
  have := (h c hc).2
  simp [bne_iff_ne, this]

theorem padlen_mod (m n : Nat) (hn : 0 < n) : (m + (n - m % n) % n) % n = 0 := by
  have hlt : m % n < n := Nat.mod_lt m hn
  have hdm := Nat.div_add_mod m n
  by_cases h0 : m % n = 0
  · rw [h0, Nat.sub_zero, Nat.mod_self, Nat.add_zero]
    exact h0
  · have hlt2 : n - m % n < n := by omega
    rw [Nat.mod_eq_of_lt hlt2]
    have he : m + (n - m % n) = n * (m / n) + n := by omega
    have hr : n * (m / n) + n = n * (m / n + 1) := by ring
    rw [he, hr, Nat.mul_mod_right]

theorem columnOrder_perm (k : Str) :
    (columnar.columnOrder k).Perm (List.range k.length) := by
  unfold columnar.columnOrder
  have hp := List.mergeSort_perm ((k.map toUpperA).enum)
    (fun a b => decide (a.2 < b.2 ∨ (a.2 = b.2 ∧ a.1 ≤ b.1)))
  have hm := hp.map Prod.fst
  rw [List.enum_map_fst, List.length_map] at hm
  exact hm

theorem columnOrder_length (k : Str) :
    (columnar.columnOrder k).length = k.length := by
  rw [(columnOrder_perm k).length_eq, List.length_range]

theorem columnOrder_nodup (k : Str) : (columnar.columnOrder k).Nodup :=
  ((columnOrder_perm k).symm.nodup (List.nodup_range k.length))

theorem columnOrder_mem (k : Str) (c : Nat) :
    c ∈ columnar.columnOrder k ↔ c < k.length := by
  rw [(columnOrder_perm k).mem_iff, List.mem_range]

theorem slices_of_flatten {α : Type} (r : Nat) :
    ∀ (L : List (List α)), (∀ x ∈ L, x.length = r) →
    ∀ (j : Nat) (x : List α), L[j]? = some x →
    ((L.flatten.drop (j * r)).take r) = x := by
  intro L
  induction L with
  | nil => intro _ j x hx; simp at hx
  | cons y rest ih =>
    intro h j x hx
    cases j with
    | zero =>
      rw [List.getElem?_cons_zero, Option.some_inj] at hx
      subst hx
      rw [Nat.zero_mul, List.drop_zero, List.flatten_cons,
        List.take_left' (h y (List.mem_cons_self _ _))]
    | succ j =>
      rw [List.getElem?_cons_succ] at hx
      have hy : y.length = r := h y (List.mem_cons_self _ _)
      have hstep : (j + 1) * r = y.length + j * r := by rw [hy]; ring
      rw [List.flatten_cons, hstep, List.drop_append]
      exact ih (fun z hz => h z (List.mem_cons_of_mem _ hz)) j x hx

theorem foldl_set_getD_not_mem {γ α : Type} (idx : γ → Nat) (val : γ → α) (c : Nat)
    (d : α) : ∀ (as : List γ) (init : List α), (∀ x ∈ as, idx x ≠ c) →
    (as.foldl (fun cols x => cols.set (idx x) (val x)) init).getD c d = init.getD c d := by
  intro as
  induction as with
  | nil => intro init _; rfl
  | cons a rest ih =>
    intro init hc
    rw [List.foldl_cons, ih _ (fun x hx => hc x (List.mem_cons_of_mem _ hx)),
      List.getD_eq_getElem?_getD, List.getElem?_set_ne (hc a (List.mem_cons_self _ _)),
      List.getD_eq_getElem?_getD]

theorem foldl_set_getD_mem {γ α : Type} (idx : γ → Nat) (val : γ → α) (d : α) :
    ∀ (as : List γ) (init : List α) (x : γ), x ∈ as → (as.map idx).Nodup →
    idx x < init.length →
    (as.foldl (fun cols x => cols.set (idx x) (val x)) init).getD (idx x) d = val x := by
  intro as
  induction as with
  | nil => intro _ x hx; simp at hx
  | cons a rest ih =>
    intro init x hx hnd hlen
    rw [List.map_cons, List.nodup_cons] at hnd
    rw [List.foldl_cons]
    rcases List.mem_cons.mp hx with rfl | hmem
    · have hnot : ∀ y ∈ rest, idx y ≠ idx x := by
        intro y hy he
        exact hnd.1 (he ▸ List.mem_map_of_mem idx hy)
      rw [foldl_set_getD_not_mem idx val _ d rest _ hnot,
        List.getD_eq_getElem?_getD,
        List.getElem?_set_self hlen]
      rfl
    · exact ih _ x hmem hnd.2 (by rw [List.length_set]; exact hlen)

theorem take_map_getD (t : Str) (n : Nat) (hn : n ≤ t.length) :
    (List.range n).map (fun col => t.getD col 0) = t.take n := by
  apply List.ext_getElem?
  intro i
  rw [List.getElem?_map, List.getElem?_take]
  by_cases hi : i < n
  · rw [List.getElem?_range hi, if_pos hi]
    show some (t.getD i 0) = t[i]?
    rw [List.getD_eq_getElem?_getD, List.getElem?_eq_getElem (by omega)]
    rfl
  · have hnone : (List.range n)[i]? = none :=
      List.getElem?_eq_none (by rw [List.length_range]; omega)
    rw [if_neg hi, hnone]
    rfl

theorem rows_reconstruct (n : Nat) :
    ∀ (r : Nat) (t : Str), t.length = r * n →
    (List.range r).flatMap (fun row =>
      (List.range n).map (fun col => t.getD (row * n + col) 0)) = t := by
  intro r
  induction r with
  | zero =>
    intro t ht
    rw [List.range_zero, List.flatMap_nil]
    exact (List.eq_nil_of_length_eq_zero (by omega)).symm
  | succ r ih =>
    intro t ht
    rw [List.range_succ_eq_map, List.flatMap_cons, List.flatMap_map]
    have h0 : (List.range n).map (fun col => t.getD (0 * n + col) 0) = t.take n := by
      have he : ((fun col => t.getD (0 * n + col) 0) : Nat → Nat)
          = (fun col => t.getD col 0) := by
        funext col
        rw [Nat.zero_mul, Nat.zero_add]
      rw [he]
      exact take_map_getD t n (by
        have hh : (r + 1) * n = r * n + n := by ring
        omega)
    have hrest : (List.range r).flatMap
        (fun a => (List.range n).map fun col => t.getD (a.succ * n + col) 0)
        = t.drop n := by
      have he2 : ∀ row ∈ List.range r,
          (List.range n).map (fun col => t.getD (Nat.succ row * n + col) 0)
          = (List.range n).map (fun col => (t.drop n).getD (row * n + col) 0) := by
        intro row _
        apply List.map_congr_left
        intro col _
        rw [List.getD_eq_getElem?_getD, List.getD_eq_getElem?_getD,
          List.getElem?_drop]
        have hst : Nat.succ row * n + col = n + (row * n + col) := by
          rw [Nat.succ_mul]; omega
        rw [hst]
      rw [List.flatMap_def, List.map_congr_left he2, ← List.flatMap_def]
      exact ih (t.drop n) (by
        rw [List.length_drop]
        have hh : (r + 1) * n = r * n + n := by ring
        omega)
    rw [h0, hrest, List.take_append_drop]

theorem grid_col (t : Str) (n r col : Nat) (hcol : col < n) :
    ((List.range r).map (fun i => (t.drop (i * n)).take n)).map
      (fun row => row.getD col 0)
    = (List.range r).map (fun i => t.getD (i * n + col) 0) := by
  rw [List.map_map]
  apply List.map_congr_left
  intro i _
  show ((t.drop (i * n)).take n).getD col 0 = t.getD (i * n + col) 0
  rw [List.getD_eq_getElem?_getD, List.getD_eq_getElem?_getD,
    List.getElem?_take, if_pos hcol, List.getElem?_drop]

theorem columnar_core (n r : Nat) (hn : 0 < n) (t : Str) (htrn : t.length = r * n)
    (ord : List Nat) (hperm : ord.Perm (List.range n)) :
    (List.range r).flatMap (fun row => (List.range n).map (fun col =>
      ((columnar.fillCols (ord.flatMap (fun col => ((List.range r).map
        (fun i => (t.drop (i * n)).take n)).map (fun row => row.getD col 0)))
        r ord n).getD col []).getD row 0)) = t := by
  have hblock : ∀ x ∈ ord.map (fun col => ((List.range r).map
      (fun i => (t.drop (i * n)).take n)).map (fun row => row.getD col 0)),
      x.length = r := by
    intro x hx
    obtain ⟨col, _, rfl⟩ := List.mem_map.mp hx
    rw [List.length_map, List.length_map, List.length_range]
  have hcols : ∀ col, col < n →
      (columnar.fillCols (ord.flatMap (fun col => ((List.range r).map
        (fun i => (t.drop (i * n)).take n)).map (fun row => row.getD col 0)))
        r ord n).getD col []
      = (List.range r).map (fun i => t.getD (i * n + col) 0) := by
    intro col hcol
    have hmem : col ∈ ord := hperm.mem_iff.mpr (List.mem_range.mpr hcol)
    obtain ⟨j, hj⟩ := List.mem_iff_getElem?.mp hmem
    have henum : (j, col) ∈ ord.enum := List.mem_enum_iff_getElem?.mpr hj
    have hnd : (ord.enum.map Prod.snd).Nodup := by
      rw [List.enum_map_snd]
      exact hperm.symm.nodup (List.nodup_range n)
    have hlen : col < (List.replicate n ([] : Str)).length := by
      rw [List.length_replicate]; exact hcol
    unfold columnar.fillCols
    have hfold := foldl_set_getD_mem Prod.snd
      (fun ji => (((ord.flatMap (fun col => ((List.range r).map
        (fun i => (t.drop (i * n)).take n)).map (fun row => row.getD col 0)))).drop
        (ji.1 * r)).take r) [] ord.enum (List.replicate n []) (j, col) henum hnd hlen
    rw [hfold]
    have he' := List.flatMap_def ord (fun col => ((List.range r).map
        (fun i => (t.drop (i * n)).take n)).map (fun row => row.getD col 0))
    have hLj : (ord.map (fun col => ((List.range r).map
        (fun i => (t.drop (i * n)).take n)).map (fun row => row.getD col 0)))[j]?
        = some (((List.range r).map
        (fun i => (t.drop (i * n)).take n)).map (fun row => row.getD col 0)) := by
      rw [List.getElem?_map, hj]
      rfl
    rw [he']
    exact (slices_of_flatten r _ hblock j _ hLj).trans (grid_col t n r col hcol)
  have hmain : ∀ row ∈ List.range r, (List.range n).map (fun col =>
      ((columnar.fillCols (ord.flatMap (fun col => ((List.range r).map
        (fun i => (t.drop (i * n)).take n)).map (fun row => row.getD col 0)))
        r ord n).getD col []).getD row 0)
      = (List.range n).map (fun col => t.getD (row * n + col) 0) := by
    intro row hrow
    apply List.map_congr_left
    intro col hcolm
    rw [hcols col (List.mem_range.mp hcolm), List.getD_eq_getElem?_getD,
      List.getElem?_map, List.getElem?_range (List.mem_range.mp hrow)]
    rfl
  rw [List.flatMap_def, List.map_congr_left hmain, ← List.flatMap_def]
  exact rows_reconstruct n r t htrn

namespace columnar

/-- The cleaned and `X`-padded text that `ColumnarCipher.encrypt` transposes:
the cipher's own normalization of the plaintext. -/
def padT (p key : Str) : Str :=
  let n := (cleanCol key).length
  let t0 := cleanCol p
  t0 ++ List.replicate ((n - t0.length % n) % n) 88

end columnar

theorem columnar_roundtrip (p key : Str) (hk : columnar.cleanCol key ≠ []) :
    ∃ e, columnar.encrypt p key = some e ∧
      columnar.decrypt e key = some (columnar.padT p key) := by
  have hn : 0 < (columnar.cleanCol key).length := List.length_pos.mpr hk
  have hkl : ¬ (columnar.cleanCol key).length = 0 := by omega
  have htmod : (columnar.padT p key).length % (columnar.cleanCol key).length = 0 := by
    have hl : (columnar.padT p key).length = (columnar.cleanCol p).length +
        (((columnar.cleanCol key).length - (columnar.cleanCol p).length %
          (columnar.cleanCol key).length) % (columnar.cleanCol key).length) := by
      simp only [columnar.padT]
      rw [List.length_append, List.length_replicate]
    rw [hl]
    exact padlen_mod _ _ hn
  have htrn : (columnar.padT p key).length =
      ((columnar.padT p key).length / (columnar.cleanCol key).length) *
        (columnar.cleanCol key).length :=
    (Nat.div_mul_cancel (Nat.dvd_of_mod_eq_zero htmod)).symm
  have ht_members : ∀ c ∈ columnar.padT p key, toUpperA c = c ∧ c ≠ 32 := by
    intro c hc
    simp only [columnar.padT] at hc
    rcases List.mem_append.mp hc with h1 | h2
    · exact columnar_clean_members p c h1
    · have h88 := (List.mem_replicate.mp h2).2
      subst h88
      exact ⟨by decide, by decide⟩
  set E := (columnar.columnOrder (columnar.cleanCol key)).flatMap
    (fun col => ((List.range ((columnar.padT p key).length /
        (columnar.cleanCol key).length)).map
      (fun i => ((columnar.padT p key).drop (i * (columnar.cleanCol key).length)).take
        (columnar.cleanCol key).length)).map
      (fun row => row.getD col 0)) with hEdef
  have henc : columnar.encrypt p key = some E := by
    rw [hEdef]
    simp only [columnar.encrypt, columnar.padT]
    rw [if_neg hkl]
  have hE_members : ∀ c ∈ E, toUpperA c = c ∧ c ≠ 32 := by
    intro c hc
    rw [hEdef] at hc
    obtain ⟨col, hcol, hc2⟩ := List.mem_flatMap.mp hc
    obtain ⟨row, hrow, rfl⟩ := List.mem_map.mp hc2
    obtain ⟨i, hi, rfl⟩ := List.mem_map.mp hrow
    have hcoln : col < (columnar.cleanCol key).length := (columnOrder_mem _ col).mp hcol
    have hir : i < (columnar.padT p key).length / (columnar.cleanCol key).length :=
      List.mem_range.mp hi
    have hrl : col < (((columnar.padT p key).drop
        (i * (columnar.cleanCol key).length)).take
        (columnar.cleanCol key).length).length := by
      rw [List.length_take, List.length_drop]
      refine lt_min hcoln ?_
      have h1 : (i + 1) * (columnar.cleanCol key).length ≤
          ((columnar.padT p key).length / (columnar.cleanCol key).length) *
            (columnar.cleanCol key).length :=
        Nat.mul_le_mul_right _ (by omega)
      have h2 : (i + 1) * (columnar.cleanCol key).length =
          i * (columnar.cleanCol key).length + (columnar.cleanCol key).length := by ring
      omega
    have hmemrow := getD_mem_of_lt _ col 0 hrl
    exact ht_members _ (List.mem_of_mem_drop (List.mem_of_mem_take hmemrow))
  have hce : columnar.cleanCol E = E := cleanCol_eq_self E hE_members
  have hb : ∀ x ∈ (columnar.columnOrder (columnar.cleanCol key)).map
      (fun col => ((List.range ((columnar.padT p key).length /
          (columnar.cleanCol key).length)).map
        (fun i => ((columnar.padT p key).drop (i * (columnar.cleanCol key).length)).take
          (columnar.cleanCol key).length)).map
        (fun row => row.getD col 0)),
      x.length = (columnar.padT p key).length / (columnar.cleanCol key).length := by
    intro x hx
    obtain ⟨col, _, rfl⟩ := List.mem_map.mp hx
    rw [List.length_map, List.length_map, List.length_range]
  have hElen : E.length = ((columnar.padT p key).length /
      (columnar.cleanCol key).length) * (columnar.cleanCol key).length := by
    rw [hEdef, List.flatMap_def, flatten_len_const _ _ hb, List.length_map,
      columnOrder_length]
  have hdiv : E.length / (columnar.cleanCol key).length =
      (columnar.padT p key).length / (columnar.cleanCol key).length := by
    rw [hElen, Nat.mul_div_cancel _ hn]
  refine ⟨E, henc, ?_⟩
  simp only [columnar.decrypt]
  rw [if_neg hkl, hce, hdiv]
  apply congrArg some
  exact columnar_core (columnar.cleanCol key).length
    ((columnar.padT p key).length / (columnar.cleanCol key).length) hn
    (columnar.padT p key) htrn (columnar.columnOrder (columnar.cleanCol key))
    (columnOrder_perm (columnar.cleanCol key))

namespace railfence

/-- `plaintext.replace(' ', '').upper()` as in `RailFenceCipher`. -/
def clean (s : Str) : Str := (s.filter (fun c => c != 32)).map toUpperA

/-- `list(range(rails)) + list(range(rails - 2, 0, -1))`: one zigzag period
of rail indices. -/
def pattern (rails : Nat) : List Nat :=
  List.range rails ++ (List.range' 1 (rails - 2)).reverse

/-- The count loop of `RailFenceCipher.decrypt`:
`counts[pattern[i % len(pattern)]] += 1` for `i in range(n)`. -/
def countsFold (rails n : Nat) : List Nat :=
  (List.range n).foldl (fun counts i =>
    let k := (pattern rails).getD (i % (pattern rails).length) 0
    counts.set k (counts.getD k 0 + 1)) (List.replicate rails 0)

/-- The slicing loop of `RailFenceCipher.decrypt`:
`fence.append(ciphertext[idx:idx+count]); idx += count`. -/
def slicesFold (ct : Str) (counts : List Nat) : List Str :=
  (counts.foldl (fun (acc : List Str × Nat) count =>
    (acc.1 ++ [(ct.drop acc.2).take count], acc.2 + count)) ([], 0)).1

/-- Loop body of `RailFenceCipher.encrypt`: append the character to the
current rail, move, and bounce the direction at the outer rails. -/
def fenceStep (rails : Nat) (acc : List Str × Int × Int) (c : Nat) :
    List Str × Int × Int :=
  let fence := acc.1
  let rail := acc.2.1
  let dir := acc.2.2
  let fence' := fence.set rail.toNat (fence.getD rail.toNat [] ++ [c])
  let rail' := rail + dir
  let dir' := if rail' = 0 ∨ rail' = (rails : Int) - 1 then -dir else dir
  (fence', rail', dir')

/-- `RailFenceCipher.encrypt`: strip spaces and upcase; for `1 < rails <
len(text)` write the zigzag fence and concatenate the rails, otherwise
return the cleaned text unchanged. -/
def encrypt (plaintext : Str) (key : Int) : Str :=
  let t := clean plaintext
  if key ≤ 1 ∨ (t.length : Int) ≤ key then t
  else (t.foldl (fenceStep key.toNat) (List.replicate key.toNat [], 0, 1)).1.flatten

/-- Loop body of the zigzag read-off in `RailFenceCipher.decrypt`. -/
def replayStep (rails : Nat) (fence : List Str) (acc : Str × List Nat × Int × Int) :
    Str × List Nat × Int × Int :=
  let result := acc.1
  let indices := acc.2.1
  let rail := acc.2.2.1
  let dir := acc.2.2.2
  let rn := rail.toNat
  let result' := result ++ [(fence.getD rn []).getD (indices.getD rn 0) 0]
  let indices' := indices.set rn (indices.getD rn 0 + 1)
  let rail' := rail + dir
  let dir' := if rail' = 0 ∨ rail' = (rails : Int) - 1 then -dir else dir
  (result', indices', rail', dir')

/-- `RailFenceCipher.decrypt`: strip spaces and upcase; split the ciphertext
into rails of the computed lengths and replay the zigzag. -/
def decrypt (ciphertext : Str) (key : Int) : Str :=
  let ct := clean ciphertext
  let n := ct.length
  if key ≤ 1 ∨ (n : Int) ≤ key then ct
  else
    let counts := countsFold key.toNat n
    let fence := slicesFold ct counts
    ((List.range n).foldl (fun acc _ => replayStep key.toNat fence acc)
      ([], List.replicate key.toNat 0, 0, 1)).1

/-- `RailFenceCipher.validate_key` acceptance on an integer-parsable key. -/
def validAccepts (k : Int) : Bool := 2 ≤ k && k ≤ 10

end railfence

/-- Closed form of the rail index within one zigzag period. -/
def railSpec (r m : Nat) : Nat := if m < r then m else 2 * r - 2 - m

/-- Closed form of the direction within one zigzag period. -/
def dirSpec (r m : Nat) : Int := if m < r - 1 then 1 else -1

/-- Rail on which character `j` of the plaintext is written. -/
def railAt (r j : Nat) : Nat := railSpec r (j % (2 * r - 2))

/-- Direction after writing character `j`. -/
def dirAt (r j : Nat) : Int := dirSpec r (j % (2 * r - 2))

/-- Number of indices `i < j` with `f i = k`. -/
def cntOcc (f : Nat → Nat) (j k : Nat) : Nat :=
  ((List.range j).filter (fun i => f i == k)).length

theorem pattern_length (r : Nat) (hr : 2 ≤ r) :
    (railfence.pattern r).length = 2 * r - 2 := by
  unfold railfence.pattern
  rw [List.length_append, List.length_range, List.length_reverse, List.length_range']
  omega

theorem pattern_getD (r : Nat) (hr : 2 ≤ r) (m : Nat) (hm : m < 2 * r - 2) :
    (railfence.pattern r).getD m 0 = railSpec r m := by
  unfold railfence.pattern railSpec
  rw [List.getD_eq_getElem?_getD, List.getElem?_append]
  by_cases hmr : m < r
  · rw [if_pos (by rw [List.length_range]; exact hmr), List.getElem?_range hmr,
      if_pos hmr]
    rfl
  · rw [if_neg (by rw [List.length_range]; exact hmr), if_neg hmr]
    rw [List.length_range]
    have hlt : m - r < (List.range' 1 (r - 2)).length := by
      rw [List.length_range']; omega
    rw [List.getElem?_reverse hlt, List.length_range']
    have hidx : r - 2 - 1 - (m - r) < r - 2 := by omega
    rw [List.getElem?_range' 1 1 hidx]
    show 1 + 1 * (r - 2 - 1 - (m - r)) = 2 * r - 2 - m
    omega

theorem railAt_lt (r : Nat) (hr : 2 ≤ r) (j : Nat) : railAt r j < r := by
  have hP : 0 < 2 * r - 2 := by omega
  have hm : j % (2 * r - 2) < 2 * r - 2 := Nat.mod_lt j hP
  unfold railAt railSpec
  by_cases h : j % (2 * r - 2) < r
  · rw [if_pos h]; exact h
  · rw [if_neg h]; omega

theorem rf_step_spec (r : Nat) (hr : 2 ≤ r) (j : Nat) :
    (railAt r j : Int) + dirAt r j = (railAt r (j + 1) : Int) ∧
    ((if (railAt r j : Int) + dirAt r j = 0 ∨
        (railAt r j : Int) + dirAt r j = (r : Int) - 1
      then -(dirAt r j) else dirAt r j) = dirAt r (j + 1)) := by
  have hP : 0 < 2 * r - 2 := by omega
  have hm : j % (2 * r - 2) < 2 * r - 2 := Nat.mod_lt j hP
  have hsucc : (j + 1) % (2 * r - 2)
      = if j % (2 * r - 2) + 1 = 2 * r - 2 then 0 else j % (2 * r - 2) + 1 := by
    rw [Nat.add_mod, Nat.mod_eq_of_lt (show 1 < 2 * r - 2 by omega)]
    by_cases hc : j % (2 * r - 2) + 1 = 2 * r - 2
    · rw [if_pos hc, hc, Nat.mod_self]
    · rw [if_neg hc, Nat.mod_eq_of_lt (by omega)]
  unfold railAt dirAt railSpec dirSpec
  rw [hsucc]
  split_ifs <;> constructor <;> omega

theorem cntOcc_succ (f : Nat → Nat) (j k : Nat) :
    cntOcc f (j + 1) k = cntOcc f j k + (if f j = k then 1 else 0) := by
  unfold cntOcc
  rw [List.range_succ, List.filter_append, List.length_append]
  by_cases h : f j = k
  · rw [if_pos h]
    have : List.filter (fun i => f i == k) [j] = [j] := by
      rw [List.filter_cons]
      simp [h]
    rw [this]
    rfl
  · rw [if_neg h]
    have : List.filter (fun i => f i == k) [j] = [] := by
      rw [List.filter_cons]
      simp [h]
    rw [this]
    rfl

theorem mapRange_getD {α : Type} (r k : Nat) (g : Nat → α) (d : α) (hk : k < r) :
    ((List.range r).map g).getD k d = g k := by
  rw [List.getD_eq_getElem?_getD, List.getElem?_map, List.getElem?_range hk]
  rfl

theorem set_map_range_cnt (f : Nat → Nat) (r j k0 : Nat) (hk : k0 < r)
    (hf : f j = k0) :
    ((List.range r).map (fun k => cntOcc f j k)).set k0 (cntOcc f j k0 + 1)
    = (List.range r).map (fun k => cntOcc f (j + 1) k) := by
  apply List.ext_getElem?
  intro i
  by_cases hir : i < r
  · by_cases hik : i = k0
    · subst hik
      rw [List.getElem?_set_self (by rw [List.length_map, List.length_range]; omega),
        List.getElem?_map, List.getElem?_range hir]
      show some (cntOcc f j i + 1) = some (cntOcc f (j + 1) i)
      rw [cntOcc_succ, hf, if_pos rfl]
    · rw [List.getElem?_set_ne (by omega), List.getElem?_map, List.getElem?_map,
        List.getElem?_range hir]
      show some (cntOcc f j i) = some (cntOcc f (j + 1) i)
      rw [cntOcc_succ, hf, if_neg (fun h => hik h.symm), Nat.add_zero]
  · rw [List.getElem?_eq_none (by rw [List.length_set, List.length_map, List.length_range]; omega),
      List.getElem?_eq_none (by rw [List.length_map, List.length_range]; omega)]

theorem countsFold_spec (r : Nat) (hr : 2 ≤ r) (n : Nat) :
    railfence.countsFold r n
    = (List.range r).map (fun k => cntOcc (railAt r) n k) := by
  induction n with
  | zero =>
    unfold railfence.countsFold
    rw [List.range_zero, List.foldl_nil]
    apply List.ext_getElem?
    intro i
    rw [List.getElem?_replicate, List.getElem?_map]
    by_cases hir : i < r
    · rw [if_pos hir, List.getElem?_range hir]
      rfl
    · rw [if_neg hir, List.getElem?_eq_none (by rw [List.length_range]; omega)]
      rfl
  | succ n ih =>
    unfold railfence.countsFold at ih ⊢
    rw [List.range_succ, List.foldl_append, List.foldl_cons, List.foldl_nil, ih]
    have hk0 : (railfence.pattern r).getD (n % (railfence.pattern r).length) 0
        = railAt r n := by
      rw [pattern_length r hr]
      exact pattern_getD r hr _ (Nat.mod_lt n (by omega))
    show ((List.range r).map (fun k => cntOcc (railAt r) n k)).set
        ((railfence.pattern r).getD (n % (railfence.pattern r).length) 0)
        (((List.range r).map (fun k => cntOcc (railAt r) n k)).getD
          ((railfence.pattern r).getD (n % (railfence.pattern r).length) 0) 0 + 1)
      = (List.range r).map (fun k => cntOcc (railAt r) (n + 1) k)
    rw [hk0, mapRange_getD r _ _ 0 (railAt_lt r hr n)]
    exact set_map_range_cnt (railAt r) r n (railAt r n) (railAt_lt r hr n) rfl

theorem slices_go (ct : Str) :
    ∀ (L : List Str) (acc : List Str) (idx : Nat), ct.drop idx = L.flatten →
    ((L.map List.length).foldl (fun acc count =>
      (acc.1 ++ [(ct.drop acc.2).take count], acc.2 + count)) (acc, idx)).1
    = acc ++ L := by
  intro L
  induction L with
  | nil => intro acc idx _; rw [List.map_nil, List.foldl_nil, List.append_nil]
  | cons x rest ih =>
    intro acc idx hdrop
    rw [List.map_cons, List.foldl_cons]
    rw [List.flatten_cons] at hdrop
    have htake : (ct.drop idx).take x.length = x := by
      rw [hdrop, List.take_left' rfl]
    have hdrop' : ct.drop (idx + x.length) = rest.flatten := by
      rw [← List.drop_drop, hdrop, List.drop_left]
    rw [htake, ih (acc ++ [x]) (idx + x.length) hdrop', List.append_assoc,
      List.singleton_append]

theorem slicesFold_flatten (L : List Str) :
    railfence.slicesFold L.flatten (L.map List.length) = L := by
  unfold railfence.slicesFold
  rw [slices_go L.flatten L [] 0 (by rw [List.drop_zero])]
  rw [List.nil_append]

theorem rf_clean_members (s : Str) :
    ∀ c ∈ railfence.clean s, toUpperA c = c ∧ c ≠ 32 := by
  intro c hc
  unfold railfence.clean at hc
  obtain ⟨c0, hc0, rfl⟩ := List.mem_map.mp hc
  obtain ⟨_, hne⟩ := List.mem_filter.mp hc0
  have hne32 : c0 ≠ 32 := by
    intro h32
    rw [h32] at hne
    exact absurd hne (by decide)
  refine ⟨toUpperA_idem c0, ?_⟩
  unfold toUpperA isLowerA
  by_cases hl : (97 ≤ c0 ∧ c0 ≤ 122)
  · rw [if_pos (by simp [hl.1, hl.2])]
    omega
  · rw [if_neg (by simp; omega)]
    exact hne32

theorem rf_clean_eq_self (s : Str) (h : ∀ c ∈ s, toUpperA c = c ∧ c ≠ 32) :
    railfence.clean s = s := by
  unfold railfence.clean
  have hf : s.filter (fun c => c != 32) = s := by
    apply List.filter_eq_self.mpr
    intro c hc
    simp [bne_iff_ne, (h c hc).2]
  rw [hf]
  have h1 : s.map toUpperA = s.map id := List.map_congr_left (fun c hc => (h c hc).1)
  rw [h1, List.map_id]

theorem nth_occ (f : Nat → Nat) (k : Nat) :
    ∀ (u : Str) (s j : Nat), s ≤ j → j - s < u.length → f j = k →
    (((List.enumFrom s u).filter (fun jc => f jc.1 == k)).map Prod.snd)[
      ((List.range' s (j - s)).filter (fun i => f i == k)).length]?
    = some (u.getD (j - s) 0) := by
  intro u
  induction u with
  | nil => intro s j _ h2 _; simp at h2
  | cons c rest ih =>
    intro s j hsj hjl hfj
    rw [List.enumFrom_cons]
    by_cases hje : j = s
    · subst hje
      rw [Nat.sub_self, List.filter_cons]
      have hps : ((fun (jc : Nat × Nat) => f jc.1 == k) (j, c)) = true := by
        simp [hfj]
      rw [if_pos hps, List.map_cons]
      show (c :: _)[(List.filter (fun i => f i == k) (List.range' j 0)).length]?
        = some ((c :: rest).getD 0 0)
      rw [show List.range' j 0 = [] from rfl, List.filter_nil, List.length_nil,
        List.getElem?_cons_zero, List.getD_cons_zero]
    · have hsub : j - s = (j - (s + 1)) + 1 := by omega
      rw [hsub, List.range'_succ, List.filter_cons, List.filter_cons,
        List.getD_cons_succ]
      by_cases hfs : f s = k
      · have hps : ((fun (jc : Nat × Nat) => f jc.1 == k) (s, c)) = true := by
          simp [hfs]
        have hps2 : ((fun i => f i == k) s) = true := by simp [hfs]
        rw [if_pos hps, if_pos hps2, List.map_cons, List.length_cons,
          List.getElem?_cons_succ]
        exact ih (s + 1) j (by omega) (by rw [List.length_cons] at hjl; omega) hfj
      · rw [if_neg (show ¬((f (s, c).1 == k) = true) by simp [hfs]),
          if_neg (show ¬((f s == k) = true) by simp [hfs])]
        exact ih (s + 1) j (by omega) (by rw [List.length_cons] at hjl; omega) hfj

theorem getElem?_eq_some_getD {α : Type} (l : List α) (i : Nat) (d : α)
    (h : i < l.length) : l[i]? = some (l.getD i d) := by
  rw [List.getElem?_eq_getElem h, List.getD_eq_getElem?_getD,
    List.getElem?_eq_getElem h, Option.getD_some]

theorem getD_replicate {α : Type} (r i : Nat) (a d : α) (h : i < r) :
    (List.replicate r a).getD i d = a := by
  rw [List.getD_eq_getElem?_getD, List.getElem?_replicate, if_pos h,
    Option.getD_some]

theorem take_succ_getD (t : Str) (j : Nat) (h : j < t.length) :
    t.take (j + 1) = t.take j ++ [t.getD j 0] := by
  rw [List.take_succ, getElem?_eq_some_getD t j 0 h]
  rfl

theorem fence_inv (r : Nat) (hr : 2 ≤ r) :
    ∀ (u : Str) (s : Nat) (fence0 : List Str), fence0.length = r →
    (u.foldl (railfence.fenceStep r) (fence0, (railAt r s : Int), dirAt r s)).1.length
      = r ∧
    ∀ k, k < r →
      (u.foldl (railfence.fenceStep r) (fence0, (railAt r s : Int), dirAt r s)).1.getD k []
      = fence0.getD k [] ++
        ((List.enumFrom s u).filter (fun jc => railAt r jc.1 == k)).map Prod.snd := by
  intro u
  induction u with
  | nil =>
    intro s fence0 hlen
    refine ⟨hlen, fun k hk => ?_⟩
    rw [List.foldl_nil, List.enumFrom_nil, List.filter_nil, List.map_nil,
      List.append_nil]
  | cons c u ih =>
    intro s fence0 hlen
    have hkr := railAt_lt r hr s
    have hstate : railfence.fenceStep r (fence0, (railAt r s : Int), dirAt r s) c
        = (fence0.set (railAt r s) (fence0.getD (railAt r s) [] ++ [c]),
           (railAt r (s + 1) : Int), dirAt r (s + 1)) := by
      obtain ⟨h1, h2⟩ := rf_step_spec r hr s
      simp only [railfence.fenceStep, Int.toNat_natCast]
      rw [h2, h1]
    rw [List.foldl_cons, hstate]
    obtain ⟨ihlen, ihgetD⟩ := ih (s + 1)
      (fence0.set (railAt r s) (fence0.getD (railAt r s) [] ++ [c]))
      (by rw [List.length_set]; exact hlen)
    refine ⟨ihlen, fun k hk => ?_⟩
    rw [ihgetD k hk, List.enumFrom_cons, List.filter_cons]
    by_cases hks : railAt r s = k
    · rw [if_pos (show ((fun (jc : Nat × Nat) => railAt r jc.1 == k) (s, c)) = true
        by simp [hks])]
      have hsetD : (fence0.set (railAt r s)
          (fence0.getD (railAt r s) [] ++ [c])).getD k []
          = fence0.getD k [] ++ [c] := by
        subst hks
        rw [List.getD_eq_getElem?_getD, List.getElem?_set_self (by omega),
          Option.getD_some]
      rw [hsetD, List.map_cons, List.append_assoc, List.singleton_append]
    · rw [if_neg (show ¬((fun (jc : Nat × Nat) => railAt r jc.1 == k) (s, c) = true)
        by simp [hks])]
      have hsetD : (fence0.set (railAt r s)
          (fence0.getD (railAt r s) [] ++ [c])).getD k []
          = fence0.getD k [] := by
        rw [List.getD_eq_getElem?_getD, List.getElem?_set_ne hks,
          ← List.getD_eq_getElem?_getD]
      rw [hsetD]

theorem sum_map_add {α : Type} (l : List α) (f g : α → Nat) :
    (l.map (fun x => f x + g x)).sum = (l.map f).sum + (l.map g).sum := by
  induction l with
  | nil => rfl
  | cons x rest ih =>
    rw [List.map_cons, List.map_cons, List.map_cons, List.sum_cons, List.sum_cons,
      List.sum_cons, ih]
    omega

theorem ind_sum (v r : Nat) :
    ((List.range r).map (fun k => if v = k then 1 else 0)).sum
    = if v < r then 1 else 0 := by
  induction r with
  | zero =>
    rw [List.range_zero, List.map_nil, List.sum_nil, if_neg (by omega)]
  | succ r ih =>
    rw [List.range_succ, List.map_append, List.sum_append, ih, List.map_cons,
      List.map_nil, List.sum_cons, List.sum_nil]
    split_ifs <;> omega

theorem cnt_total (f : Nat → Nat) (r : Nat) (hf : ∀ j, f j < r) :
    ∀ m, ((List.range r).map (fun k => cntOcc f m k)).sum = m := by
  intro m
  induction m with
  | zero =>
    have h0 : (List.range r).map (fun k => cntOcc f 0 k)
        = (List.range r).map (fun _ => 0) :=
      List.map_congr_left (fun k _ => rfl)
    rw [h0]
    simp
  | succ m ih =>
    have hstep : ∀ k ∈ List.range r,
        cntOcc f (m + 1) k = cntOcc f m k + (if f m = k then 1 else 0) :=
      fun k _ => cntOcc_succ f m k
    rw [List.map_congr_left hstep, sum_map_add, ih, ind_sum (f m) r,
      if_pos (hf m)]

theorem rep_cnt0 (f : Nat → Nat) (r : Nat) :
    List.replicate r (0 : Nat) = (List.range r).map (fun k => cntOcc f 0 k) := by
  apply List.ext_getElem?
  intro i
  rw [List.getElem?_replicate, List.getElem?_map]
  by_cases hir : i < r
  · rw [if_pos hir, List.getElem?_range hir]
    rfl
  · rw [if_neg hir, List.getElem?_eq_none (by rw [List.length_range]; omega)]
    rfl

theorem replay_inv (r : Nat) (hr : 2 ≤ r) (t : Str) (fence : List Str)
    (hfence : ∀ k, k < r → fence.getD k []
      = ((List.enumFrom 0 t).filter (fun jc => railAt r jc.1 == k)).map Prod.snd) :
    ∀ j, j ≤ t.length →
    (List.range j).foldl (fun acc _ => railfence.replayStep r fence acc)
      ([], List.replicate r 0, 0, 1)
    = (t.take j, (List.range r).map (fun k => cntOcc (railAt r) j k),
       (railAt r j : Int), dirAt r j) := by
  intro j
  induction j with
  | zero =>
    intro _
    have hrail0 : railAt r 0 = 0 := by
      unfold railAt railSpec
      rw [Nat.zero_mod, if_pos (by omega)]
    have hdir0 : dirAt r 0 = 1 := by
      unfold dirAt dirSpec
      rw [Nat.zero_mod, if_pos (by omega)]
    rw [List.range_zero, List.foldl_nil, List.take_zero, hrail0, hdir0,
      ← rep_cnt0 (railAt r) r, Nat.cast_zero]
  | succ j ih =>
    intro hj1
    have hj : j < t.length := by omega
    have hk0 : railAt r j < r := railAt_lt r hr j
    rw [List.range_succ, List.foldl_append, ih (by omega), List.foldl_cons,
      List.foldl_nil]
    obtain ⟨h1, h2⟩ := rf_step_spec r hr j
    simp only [railfence.replayStep, Int.toNat_natCast]
    have hidx : ((List.range r).map (fun k => cntOcc (railAt r) j k)).getD
        (railAt r j) 0 = cntOcc (railAt r) j (railAt r j) :=
      mapRange_getD r _ _ 0 hk0
    have hchar : (fence.getD (railAt r j) []).getD
        (cntOcc (railAt r) j (railAt r j)) 0 = t.getD j 0 := by
      rw [hfence _ hk0, List.getD_eq_getElem?_getD]
      have hocc := nth_occ (railAt r) (railAt r j) t 0 j (by omega) (by omega) rfl
      rw [Nat.sub_zero, ← List.range_eq_range'] at hocc
      unfold cntOcc
      rw [hocc, Option.getD_some]
    rw [hidx, hchar, ← take_succ_getD t j hj,
      set_map_range_cnt (railAt r) r j (railAt r j) hk0 rfl, h2, h1]

theorem rf_block_len (r : Nat) (t : Str) (k : Nat) :
    (((List.enumFrom 0 t).filter (fun jc => railAt r jc.1 == k)).map Prod.snd).length
    = cntOcc (railAt r) t.length k := by
  rw [List.length_map]
  have hcongr : (List.enumFrom 0 t).filter (fun jc => railAt r jc.1 == k)
      = (List.enumFrom 0 t).filter ((fun i => railAt r i == k) ∘ Prod.fst) :=
    List.filter_congr (fun x _ => rfl)
  rw [hcongr]
  have hfm := @List.filter_map (Nat × Nat) Nat (fun i => railAt r i == k)
    Prod.fst (List.enumFrom 0 t)
  have hlm : ((List.enumFrom 0 t).filter
        ((fun i => railAt r i == k) ∘ Prod.fst)).length
      = (((List.enumFrom 0 t).filter
        ((fun i => railAt r i == k) ∘ Prod.fst)).map Prod.fst).length :=
    (List.length_map _ _).symm
  rw [hlm, ← hfm, List.enumFrom_map_fst, ← List.range_eq_range']
  rfl

theorem railfence_roundtrip (p : Str) (key : Int) (h2 : 2 ≤ key) :
    railfence.decrypt (railfence.encrypt p key) key = railfence.clean p := by
  have hct : railfence.clean (railfence.clean p) = railfence.clean p :=
    rf_clean_eq_self _ (rf_clean_members p)
  by_cases hng : ((railfence.clean p).length : Int) ≤ key
  · have henc : railfence.encrypt p key = railfence.clean p := by
      simp only [railfence.encrypt]
      rw [if_pos (Or.inr hng)]
    rw [henc]
    simp only [railfence.decrypt]
    rw [hct, if_pos (Or.inr hng)]
  · have hnglt : key < ((railfence.clean p).length : Int) := not_le.mp hng
    set r := key.toNat with hrdef
    have hr2 : 2 ≤ r := by omega
    set t := railfence.clean p with htdef
    set n := t.length with hndef
    set blocks := (List.range r).map (fun k =>
      ((List.enumFrom 0 t).filter (fun jc => railAt r jc.1 == k)).map Prod.snd)
      with hblocksdef
    have hrail0 : railAt r 0 = 0 := by
      unfold railAt railSpec
      rw [Nat.zero_mod, if_pos (by omega)]
    have hdir0 : dirAt r 0 = 1 := by
      unfold dirAt dirSpec
      rw [Nat.zero_mod, if_pos (by omega)]
    obtain ⟨hflen, hfgetD⟩ := fence_inv r hr2 t 0 (List.replicate r [])
      (List.length_replicate r [])
    rw [hrail0, hdir0, Nat.cast_zero] at hflen hfgetD
    have henc : railfence.encrypt p key = blocks.flatten := by
      simp only [railfence.encrypt]
      rw [if_neg (not_or.mpr ⟨by omega, by rw [← htdef, ← hndef]; omega⟩)]
      rw [← hrdef, ← htdef]
      apply congrArg List.flatten
      apply List.ext_getElem?
      intro i
      by_cases hir : i < r
      · rw [getElem?_eq_some_getD _ i [] (by rw [hflen]; exact hir),
          hfgetD i hir, getD_replicate r i [] [] hir, List.nil_append,
          hblocksdef, List.getElem?_map, List.getElem?_range hir]
        rfl
      · rw [List.getElem?_eq_none (by rw [hflen]; omega),
          List.getElem?_eq_none (by
            rw [hblocksdef, List.length_map, List.length_range]; omega)]
    have hmaplen : blocks.map List.length
        = (List.range r).map (fun k => cntOcc (railAt r) n k) := by
      rw [hblocksdef, List.map_map]
      exact List.map_congr_left (fun k _ => rf_block_len r t k)
    have heln : blocks.flatten.length = n := by
      rw [List.length_flatten, hmaplen, cnt_total (railAt r) r (railAt_lt r hr2) n]
    have hemem : ∀ c ∈ blocks.flatten, toUpperA c = c ∧ c ≠ 32 := by
      intro c hc
      obtain ⟨b, hb, hcb⟩ := List.mem_flatten.mp hc
      rw [hblocksdef] at hb
      obtain ⟨k, _, rfl⟩ := List.mem_map.mp hb
      obtain ⟨jc, hjc, rfl⟩ := List.mem_map.mp hcb
      have hjm := (List.mem_filter.mp hjc).1
      have hsnd : jc.2 ∈ t := by
        have hm := List.mem_map_of_mem Prod.snd hjm
        rw [List.enumFrom_map_snd] at hm
        exact hm
      exact rf_clean_members p jc.2 hsnd
    have hcleane : railfence.clean blocks.flatten = blocks.flatten :=
      rf_clean_eq_self _ hemem
    have hfence : ∀ k, k < r → blocks.getD k []
        = ((List.enumFrom 0 t).filter (fun jc => railAt r jc.1 == k)).map
            Prod.snd := by
      intro k hk
      rw [hblocksdef]
      exact mapRange_getD r k _ [] hk
    have hrep := replay_inv r hr2 t blocks hfence n (le_refl n)
    rw [henc]
    simp only [railfence.decrypt]
    rw [hcleane, heln, if_neg (not_or.mpr ⟨by omega, by omega⟩), ← hrdef,
      countsFold_spec r hr2 n, ← hmaplen, slicesFold_flatten blocks, hrep]
    show t.take n = t
    rw [hndef]
    exact List.take_length t

namespace feistel

/-- `(ord(char) >> i) & 1` for `i` from 7 down to 0: the eight bits of one
byte, most significant first (`FeistelCipher._string_to_bits` inner loop,
also the per-byte loop of `_hex_to_bits`). -/
def bitsOfByte (b : Nat) : List Bool :=
  (List.range 8).map (fun i => b.testBit (7 - i))

/-- `FeistelCipher._string_to_bits`. -/
def stringToBits (s : Str) : List Bool := s.flatMap bitsOfByte

/-- `sum(b << (7 - j) for j, b in enumerate(byte))`. -/
def bitsVal (byte : List Bool) : Nat :=
  (byte.enum.map (fun jb => if jb.2 then 2 ^ (7 - jb.1) else 0)).sum

/-- `FeistelCipher._bits_to_string`: bytes of value zero are skipped. -/
def bitsToString (bits : List Bool) : Str :=
  (vernam.chunks8 bits).filterMap (fun byte =>
    let v := bitsVal (byte ++ List.replicate (8 - byte.length) false)
    if 0 < v then some v else none)

/-- `FeistelCipher._bits_to_hex` (`format(value, '02X')` per byte). -/
def bitsToHex (bits : List Bool) : Str :=
  (vernam.chunks8 bits).flatMap (fun byte =>
    vernam.toHexPair (bitsVal (byte ++ List.replicate (8 - byte.length) false)))

/-- `FeistelCipher._hex_to_bits`; `none` models the `ValueError` of
`int(..., 16)` on a malformed chunk. -/
def hexToBits (s : Str) : Option (List Bool) :=
  match vernam.parseChunks (vernam.chunks2 (s.filter (fun c => c != 32))) with
  | none => none
  | some vals => some (vals.flatMap bitsOfByte)

/-- The `while len(key_bits) < 64: key_bits.extend(key_bits[:64 -
len(key_bits)])` loop.  The loop only terminates for a nonempty bit list;
the `0 < kb.length` guard returns the loop's (unreachable) diverging case
unchanged. -/
def grow64 (kb : List Bool) : List Bool :=
  if h : 0 < kb.length ∧ kb.length < 64 then
    grow64 (kb ++ kb.take (64 - kb.length))
  else kb
termination_by 64 - kb.length
decreasing_by
  rw [List.length_append, List.length_take]
  omega

/-- `FeistelCipher._generate_round_keys`. -/
def roundKeys (key : Str) (numRounds : Nat) : List (List Bool) :=
  let kb := (grow64 (stringToBits key)).take 64
  (List.range numRounds).map (fun i =>
    (kb.drop ((i + 1) * 4) ++ kb.take ((i + 1) * 4)).take 32)

/-- The `while len(expanded) < len(round_key): expanded.extend(right_half)`
loop; again the `0 < base.length` guard stands for the loop's
termination, which holds in every reachable state. -/
def growTo (base : List Bool) (target : Nat) (cur : List Bool) : List Bool :=
  if h : cur.length < target ∧ 0 < base.length then
    growTo base target (cur ++ base)
  else cur
termination_by target - cur.length
decreasing_by
  rw [List.length_append]
  omega

/-- Rotate each aligned 4-bit block left by one (the in-place loop over
`result`); a trailing fragment of fewer than 4 bits is untouched. -/
def sbox4 : List Bool → List Bool
  | a :: b :: c :: d :: rest => b :: c :: d :: a :: sbox4 rest
  | l => l

/-- `FeistelCipher._round_function`. -/
def roundFunction (right rk : List Bool) : List Bool :=
  let expanded := (growTo right rk.length right).take rk.length
  let result := List.zipWith Bool.xor expanded rk
  (sbox4 result).take right.length

/-- One Feistel round: `L' = R`, `R' = L XOR F(R, K)` with `f_result`
zero-padded or truncated to the length of `L`. -/
def froundStep (left right rk : List Bool) : List Bool × List Bool :=
  let f := roundFunction right rk
  let f := (f ++ List.replicate (left.length - f.length) false).take left.length
  (right, List.zipWith Bool.xor left f)

/-- `FeistelCipher._feistel_rounds`. -/
def feistelRounds (bits : List Bool) (rks : List (List Bool)) (dec : Bool) :
    List Bool :=
  let bits := if bits.length % 2 = 1 then bits ++ [false] else bits
  let halfLen := bits.length / 2
  let rks := if dec then rks.reverse else rks
  let st := rks.foldl (fun (st : List Bool × List Bool) rk =>
    froundStep st.1 st.2 rk) (bits.take halfLen, bits.drop halfLen)
  st.2 ++ st.1

/-- The 64-bit slices `bits[i:i+64]` for `i in range(0, len(bits), 64)`. -/
def chunks64 (l : List Bool) : List (List Bool) :=
  (List.range ((l.length + 63) / 64)).map (fun i => (l.drop (i * 64)).take 64)

/-- `FeistelCipher.encrypt`; `none` models the `ValueError` on an empty
key. -/
def encrypt (plaintext key : Str) : Option Str :=
  if key.isEmpty then none
  else
    let bits := stringToBits plaintext
    let bits := bits ++ List.replicate ((64 - bits.length % 64) % 64) false
    let rks := roundKeys key 16
    some (bitsToHex ((chunks64 bits).flatMap (fun b => feistelRounds b rks false)))

/-- Strip trailing NUL characters (`str.rstrip('\x00')`). -/
def rstrip0 (s : Str) : Str := (s.reverse.dropWhile (fun c => c == 0)).reverse

/-- `FeistelCipher.decrypt`; `none` models the `ValueError` on an empty
key or a malformed hex chunk. -/
def decrypt (ciphertext key : Str) : Option Str :=
  if key.isEmpty then none
  else
    match hexToBits ciphertext with
    | none => none
    | some bits =>
      let rks := roundKeys key 16
      some (rstrip0 (bitsToString ((chunks64 bits).flatMap (fun b =>
        feistelRounds (b ++ List.replicate (64 - b.length) false) rks true))))

/-- `FeistelCipher.validate_key` acceptance on a string key. -/
def validAccepts (key : Str) : Bool := !key.isEmpty

end feistel

theorem bitsOfByte_length (b : Nat) : (feistel.bitsOfByte b).length = 8 := by
  unfold feistel.bitsOfByte
  rw [List.length_map, List.length_range]

theorem fs_bitsVal_le : ∀ b1 b2 b3 b4 b5 b6 b7 b8 : Bool,
    feistel.bitsVal [b1, b2, b3, b4, b5, b6, b7, b8] ≤ 255 := by
  decide

theorem fs_bitsOfByte_bitsVal : ∀ b1 b2 b3 b4 b5 b6 b7 b8 : Bool,
    feistel.bitsOfByte (feistel.bitsVal [b1, b2, b3, b4, b5, b6, b7, b8])
    = [b1, b2, b3, b4, b5, b6, b7, b8] := by
  decide

set_option maxRecDepth 8000 in
theorem fs_bitsVal_bitsOfByte : ∀ c : Nat, c ≤ 255 →
    feistel.bitsVal (feistel.bitsOfByte c) = c := by
  decide

theorem fit_length (f : List Bool) (n : Nat) :
    ((f ++ List.replicate (n - f.length) false).take n).length = n := by
  rw [List.length_take, List.length_append, List.length_replicate,
    Nat.min_eq_left (by omega)]

theorem zip_xor_cancel : ∀ (l f : List Bool), l.length ≤ f.length →
    List.zipWith Bool.xor (List.zipWith Bool.xor l f) f = l := by
  intro l
  induction l with
  | nil => intro f _; rfl
  | cons a l ih =>
    intro f hf
    cases f with
    | nil => simp at hf
    | cons b f' =>
      rw [List.zipWith_cons_cons, List.zipWith_cons_cons,
        show Bool.xor (Bool.xor a b) b = a by cases a <;> cases b <;> rfl,
        ih f' (by rw [List.length_cons, List.length_cons] at hf; omega)]

theorem froundStep_snd_len (l r rk : List Bool) :
    (feistel.froundStep l r rk).2.length = l.length := by
  show (List.zipWith Bool.xor l _).length = l.length
  rw [List.length_zipWith, fit_length, Nat.min_self]

theorem ffold_len (h : Nat) : ∀ (ks : List (List Bool)) (l r : List Bool),
    l.length = h → r.length = h →
    ((ks.foldl (fun (st : List Bool × List Bool) rk =>
        feistel.froundStep st.1 st.2 rk) (l, r)).1.length = h ∧
     (ks.foldl (fun (st : List Bool × List Bool) rk =>
        feistel.froundStep st.1 st.2 rk) (l, r)).2.length = h) := by
  intro ks
  induction ks with
  | nil => intro l r hl hr; exact ⟨hl, hr⟩
  | cons k ks ih =>
    intro l r hl hr
    rw [List.foldl_cons]
    have h2 : (feistel.froundStep l r k).2.length = h := by
      rw [froundStep_snd_len]; exact hl
    have h1 : (feistel.froundStep l r k).1.length = h := hr
    exact ih (feistel.froundStep l r k).1 (feistel.froundStep l r k).2 h1 h2

theorem ffold_inv : ∀ (ks : List (List Bool)) (l r : List Bool),
    l.length = r.length →
    (ks.reverse).foldl (fun (st : List Bool × List Bool) rk =>
        feistel.froundStep st.1 st.2 rk)
      ((ks.foldl (fun (st : List Bool × List Bool) rk =>
          feistel.froundStep st.1 st.2 rk) (l, r)).2,
       (ks.foldl (fun (st : List Bool × List Bool) rk =>
          feistel.froundStep st.1 st.2 rk) (l, r)).1)
    = (r, l) := by
  intro ks
  induction ks with
  | nil => intro l r _; rfl
  | cons k ks ih =>
    intro l r hlr
    set F := (feistel.roundFunction r k ++ List.replicate
        (l.length - (feistel.roundFunction r k).length) false).take l.length
      with hFdef
    have hFlen : F.length = l.length := by
      rw [hFdef]
      exact fit_length _ _
    have hXlen : (List.zipWith Bool.xor l F).length = l.length := by
      rw [List.length_zipWith, hFlen, Nat.min_self]
    have hstep1 : feistel.froundStep (l, r).1 (l, r).2 k
        = (r, List.zipWith Bool.xor l F) := rfl
    simp only [List.reverse_cons, List.foldl_append, List.foldl_cons,
      List.foldl_nil]
    rw [hstep1, ih r (List.zipWith Bool.xor l F) (by rw [hXlen]; exact hlr.symm)]
    have hstep2 : feistel.froundStep (List.zipWith Bool.xor l F, r).1
        (List.zipWith Bool.xor l F, r).2 k
        = (r, List.zipWith Bool.xor (List.zipWith Bool.xor l F)
            ((feistel.roundFunction r k ++ List.replicate
              ((List.zipWith Bool.xor l F).length
                - (feistel.roundFunction r k).length) false).take
              (List.zipWith Bool.xor l F).length)) := rfl
    rw [hstep2, hXlen, ← hFdef, zip_xor_cancel l F hFlen.symm.le]

theorem feistel_enc_block (rks : List (List Bool)) (b : List Bool)
    (hb : b.length = 64) :
    feistel.feistelRounds b rks false
    = (rks.foldl (fun (st : List Bool × List Bool) rk =>
        feistel.froundStep st.1 st.2 rk) (b.take 32, b.drop 32)).2
      ++ (rks.foldl (fun (st : List Bool × List Bool) rk =>
        feistel.froundStep st.1 st.2 rk) (b.take 32, b.drop 32)).1 := by
  simp only [feistel.feistelRounds]
  rw [if_neg (show ¬(b.length % 2 = 1) by omega), hb,
    show (64 : Nat) / 2 = 32 from rfl,
    if_neg (show ¬(false = true) by decide)]

theorem feistel_enc_len (rks : List (List Bool)) (b : List Bool)
    (hb : b.length = 64) : (feistel.feistelRounds b rks false).length = 64 := by
  have htake : (b.take 32).length = 32 := by
    rw [List.length_take, Nat.min_eq_left (by omega)]
  have hdrop : (b.drop 32).length = 32 := by
    rw [List.length_drop, hb]
  obtain ⟨h1, h2⟩ := ffold_len 32 rks (b.take 32) (b.drop 32) htake hdrop
  rw [feistel_enc_block rks b hb, List.length_append, h1, h2]

theorem feistel_block_rt (rks : List (List Bool)) (b : List Bool)
    (hb : b.length = 64) :
    feistel.feistelRounds (feistel.feistelRounds b rks false) rks true = b := by
  have htake : (b.take 32).length = 32 := by
    rw [List.length_take, Nat.min_eq_left (by omega)]
  have hdrop : (b.drop 32).length = 32 := by
    rw [List.length_drop, hb]
  obtain ⟨h1, h2⟩ := ffold_len 32 rks (b.take 32) (b.drop 32) htake hdrop
  rw [feistel_enc_block rks b hb]
  simp only [feistel.feistelRounds]
  rw [if_neg (show ¬(((rks.foldl (fun (st : List Bool × List Bool) rk =>
        feistel.froundStep st.1 st.2 rk) (b.take 32, b.drop 32)).2
      ++ (rks.foldl (fun (st : List Bool × List Bool) rk =>
        feistel.froundStep st.1 st.2 rk) (b.take 32, b.drop 32)).1).length % 2 = 1)
      by rw [List.length_append, h1, h2]; omega),
    if_true, List.length_append, h1, h2,
    show ((32 : Nat) + 32) / 2 = 32 from rfl, List.take_left' h2,
    List.drop_left' h2, ffold_inv rks (b.take 32) (b.drop 32)
      (by rw [htake, hdrop])]
  exact List.take_append_drop 32 b

theorem chunks64_of_blocks (L : List (List Bool)) (h : ∀ x ∈ L, x.length = 64) :
    feistel.chunks64 L.flatten = L := by
  unfold feistel.chunks64
  have hlen : L.flatten.length = 64 * L.length := flatten_len_const L 64 h
  have hceil : (L.flatten.length + 63) / 64 = L.length := by
    rw [hlen, Nat.add_comm, Nat.add_mul_div_left 63 L.length (by omega)]
    omega
  rw [hceil]
  apply List.ext_getElem?
  intro i
  by_cases hir : i < L.length
  · have hx : L[i]? = some (L.getD i []) := getElem?_eq_some_getD L i [] hir
    rw [List.getElem?_map, List.getElem?_range hir]
    show some ((L.flatten.drop (i * 64)).take 64) = L[i]?
    rw [hx, slices_of_flatten 64 L h i _ hx]
  · rw [List.getElem?_eq_none (by rw [List.length_map, List.length_range]; omega),
      List.getElem?_eq_none (by omega)]

theorem blocks8_of_len : ∀ (m : Nat) (l : List Bool), l.length = 8 * m →
    (∀ x ∈ vernam.chunks8 l, x.length = 8) ∧ (vernam.chunks8 l).flatten = l := by
  intro m
  induction m with
  | zero =>
    intro l hl
    have hnil : l = [] := List.eq_nil_of_length_eq_zero (by omega)
    subst hnil
    exact ⟨by intro x hx; simp [vernam.chunks8] at hx, rfl⟩
  | succ m ih =>
    intro l hl
    have h8 : (l.take 8).length = 8 := by
      rw [List.length_take, Nat.min_eq_left (by omega)]
    obtain ⟨b1, b2, b3, b4, b5, b6, b7, b8, he⟩ := eight_of_length h8
    have hl8 : l = b1 :: b2 :: b3 :: b4 :: b5 :: b6 :: b7 :: b8 :: l.drop 8 := by
      conv_lhs => rw [← List.take_append_drop 8 l]
      rw [he]
      rfl
    have hrest : (l.drop 8).length = 8 * m := by
      rw [List.length_drop]
      omega
    obtain ⟨ih1, ih2⟩ := ih (l.drop 8) hrest
    rw [hl8]
    constructor
    · intro x hx
      rw [show vernam.chunks8 (b1 :: b2 :: b3 :: b4 :: b5 :: b6 :: b7 :: b8 ::
          l.drop 8) = [b1, b2, b3, b4, b5, b6, b7, b8] :: vernam.chunks8 (l.drop 8)
        from rfl] at hx
      rcases List.mem_cons.mp hx with rfl | hm
      · rfl
      · exact ih1 x hm
    · rw [show vernam.chunks8 (b1 :: b2 :: b3 :: b4 :: b5 :: b6 :: b7 :: b8 ::
          l.drop 8) = [b1, b2, b3, b4, b5, b6, b7, b8] :: vernam.chunks8 (l.drop 8)
        from rfl, List.flatten_cons, ih2]
      rfl

theorem rep_flat (n : Nat) (a : Bool) : ∀ q : Nat,
    (List.replicate q (List.replicate n a)).flatten = List.replicate (q * n) a := by
  intro q
  induction q with
  | zero => rw [Nat.zero_mul]; rfl
  | succ q ih =>
    rw [List.replicate_succ, List.flatten_cons, ih, Nat.succ_mul, Nat.add_comm,
      List.replicate_add]

theorem filterMap_replicate_none {α β : Type} (f : α → Option β) (a : α)
    (hf : f a = none) : ∀ q, List.filterMap f (List.replicate q a) = [] := by
  intro q
  induction q with
  | zero => rfl
  | succ q ih =>
    rw [List.replicate_succ, List.filterMap_cons, hf, ih]

theorem rstrip0_id (p : Str) (h : ∀ c ∈ p, c ≠ 0) : feistel.rstrip0 p = p := by
  unfold feistel.rstrip0
  cases hrev : p.reverse with
  | nil =>
    rw [List.dropWhile_nil]
    rw [← hrev, List.reverse_reverse]
  | cons x tl =>
    have hx : x ∈ p := by
      rw [← List.reverse_reverse p, hrev]
      exact List.mem_reverse.mpr (List.mem_cons_self _ _)
    rw [List.dropWhile_cons_of_neg (by simp [h x hx]), ← hrev,
      List.reverse_reverse]

set_option maxRecDepth 2000 in
theorem toHexPair_ne_32 : ∀ v : Nat, v ≤ 255 →
    ∀ c ∈ vernam.toHexPair v, c ≠ 32 := by
  decide

theorem exists_blocks {α : Type} (n : Nat) (hn : 0 < n) :
    ∀ (m : Nat) (l : List α), l.length = n * m →
    ∃ L : List (List α), (∀ x ∈ L, x.length = n) ∧ L.flatten = l := by
  intro m
  induction m with
  | zero =>
    intro l hl
    have : l = [] := List.eq_nil_of_length_eq_zero (by omega)
    subst this
    exact ⟨[], by intro x hx; simp at hx, rfl⟩
  | succ m ih =>
    intro l hl
    have hmul : n * (m + 1) = n * m + n := by ring
    have htake : (l.take n).length = n := by
      rw [List.length_take, Nat.min_eq_left (by omega)]
    have hdrop : (l.drop n).length = n * m := by
      rw [List.length_drop]
      omega
    obtain ⟨L, hL, hflat⟩ := ih (l.drop n) hdrop
    refine ⟨l.take n :: L, ?_, ?_⟩
    · intro x hx
      rcases List.mem_cons.mp hx with rfl | hm
      · exact htake
      · exact hL x hm
    · rw [List.flatten_cons, hflat, List.take_append_drop]

theorem filterMap_charbits_id (p : Str) (hp : ∀ c ∈ p, 1 ≤ c ∧ c ≤ 255) :
    List.filterMap ((fun byte => if 0 < feistel.bitsVal (byte ++
        List.replicate (8 - byte.length) false) then
        some (feistel.bitsVal (byte ++ List.replicate (8 - byte.length) false))
      else none) ∘ feistel.bitsOfByte) p = p := by
  induction p with
  | nil => rfl
  | cons c rest ih =>
    rw [List.filterMap_cons]
    have hval : feistel.bitsVal (feistel.bitsOfByte c ++
        List.replicate (8 - (feistel.bitsOfByte c).length) false) = c := by
      rw [bitsOfByte_length, show (8 : Nat) - 8 = 0 from rfl, List.replicate_zero,
        List.append_nil]
      exact fs_bitsVal_bitsOfByte c (hp c (List.mem_cons_self _ _)).2
    have hc : ((fun byte => if 0 < feistel.bitsVal (byte ++
        List.replicate (8 - byte.length) false) then
        some (feistel.bitsVal (byte ++ List.replicate (8 - byte.length) false))
      else none) ∘ feistel.bitsOfByte) c = some c := by
      simp only [Function.comp_apply]
      rw [hval, if_pos (show 0 < c from (hp c (List.mem_cons_self _ _)).1)]
    rw [hc, ih (fun x hx => hp x (List.mem_cons_of_mem _ hx))]

theorem feistel_roundtrip (p key : Str) (hp : ∀ c ∈ p, 1 ≤ c ∧ c ≤ 255)
    (hk : key ≠ []) :
    ∃ e, feistel.encrypt p key = some e ∧ feistel.decrypt e key = some p := by
  have hke : key.isEmpty = false := by
    cases key with
    | nil => exact absurd rfl hk
    | cons a l => rfl
  set bits0 := feistel.stringToBits p with hb0
  have hb0blocks : bits0 = (p.map feistel.bitsOfByte).flatten := by
    rw [hb0]
    unfold feistel.stringToBits
    rw [List.flatMap_def]
  have hb0len : bits0.length = 8 * p.length := by
    rw [hb0blocks, flatten_len_const _ 8 (by
      intro x hx
      obtain ⟨c, _, rfl⟩ := List.mem_map.mp hx
      exact bitsOfByte_length c), List.length_map]
  set bits := bits0 ++ List.replicate ((64 - bits0.length % 64) % 64) false
    with hbits
  have hmod : bits.length % 64 = 0 := by
    rw [hbits, List.length_append, List.length_replicate]
    exact padlen_mod _ 64 (by omega)
  have h8dvd : 8 ∣ (64 - bits0.length % 64) % 64 := by
    have h1 : (8 : Nat) ∣ bits0.length := ⟨p.length, hb0len⟩
    have h2 : (8 : Nat) ∣ 64 := by decide
    have h3 : 8 ∣ bits0.length % 64 := (Nat.dvd_mod_iff h2).mpr h1
    have h4 : 8 ∣ 64 - bits0.length % 64 := Nat.dvd_sub' h2 h3
    exact (Nat.dvd_mod_iff h2).mpr h4
  set q := ((64 - bits0.length % 64) % 64) / 8 with hq
  have hq8 : 8 * q = (64 - bits0.length % 64) % 64 := by
    rw [hq]
    exact Nat.mul_div_cancel' h8dvd
  set blocks8 := p.map feistel.bitsOfByte
    ++ List.replicate q (List.replicate 8 false) with hblocks8
  have hbits_flat : bits = blocks8.flatten := by
    rw [hbits, hblocks8, List.flatten_append, ← hb0blocks, rep_flat,
      Nat.mul_comm q 8, hq8]
  have hblocks8_len : ∀ x ∈ blocks8, x.length = 8 := by
    intro x hx
    rw [hblocks8] at hx
    rcases List.mem_append.mp hx with h1 | h2
    · obtain ⟨c, _, rfl⟩ := List.mem_map.mp h1
      exact bitsOfByte_length c
    · rw [List.eq_of_mem_replicate h2, List.length_replicate]
  obtain ⟨blocks64, hb64len, hb64flat⟩ := exists_blocks 64 (by omega)
    (bits.length / 64) bits (by
      rw [Nat.mul_comm]
      exact (Nat.div_mul_cancel (Nat.dvd_of_mod_eq_zero hmod)).symm)
  set rks := feistel.roundKeys key 16 with hrks
  set encBlocks := blocks64.map (fun b => feistel.feistelRounds b rks false)
    with hencB
  have hencBlen : ∀ x ∈ encBlocks, x.length = 64 := by
    intro x hx
    rw [hencB] at hx
    obtain ⟨b, hb, rfl⟩ := List.mem_map.mp hx
    exact feistel_enc_len rks b (hb64len b hb)
  set encBits := encBlocks.flatten with hencbits
  have hencLen : encBits.length = 64 * encBlocks.length := by
    rw [hencbits]
    exact flatten_len_const encBlocks 64 hencBlen
  obtain ⟨hc8len, hc8flat⟩ := blocks8_of_len (8 * encBlocks.length) encBits
    (by rw [hencLen]; omega)
  set L8 := vernam.chunks8 encBits with hL8
  set vals := L8.map feistel.bitsVal with hvals
  have hvals255 : ∀ v ∈ vals, v ≤ 255 := by
    intro v hv
    rw [hvals] at hv
    obtain ⟨x, hx, rfl⟩ := List.mem_map.mp hv
    obtain ⟨b1, b2, b3, b4, b5, b6, b7, b8, rfl⟩ := eight_of_length (hc8len x hx)
    exact fs_bitsVal_le b1 b2 b3 b4 b5 b6 b7 b8
  have hbytes_rt : ∀ x ∈ L8, feistel.bitsOfByte (feistel.bitsVal x) = x := by
    intro x hx
    obtain ⟨b1, b2, b3, b4, b5, b6, b7, b8, rfl⟩ := eight_of_length (hc8len x hx)
    exact fs_bitsOfByte_bitsVal b1 b2 b3 b4 b5 b6 b7 b8
  have henc : feistel.encrypt p key
      = some ((vals.map vernam.toHexPair).flatten) := by
    simp only [feistel.encrypt]
    rw [if_neg (show ¬(key.isEmpty = true) by rw [hke]; decide), ← hb0, ← hbits,
      ← hrks, ← hb64flat, chunks64_of_blocks blocks64 hb64len, List.flatMap_def,
      ← hencB, ← hencbits]
    apply congrArg some
    unfold feistel.bitsToHex
    rw [List.flatMap_def, ← hL8]
    conv_rhs => rw [hvals, List.map_map]
    congr 1
    apply List.map_congr_left
    intro x hx
    rw [hc8len x hx, show (8 : Nat) - 8 = 0 from rfl, List.replicate_zero,
      List.append_nil]
    rfl
  refine ⟨(vals.map vernam.toHexPair).flatten, henc, ?_⟩
  have hhex : feistel.hexToBits ((vals.map vernam.toHexPair).flatten)
      = some encBits := by
    unfold feistel.hexToBits
    have hfilter : ((vals.map vernam.toHexPair).flatten).filter
        (fun c => c != 32) = (vals.map vernam.toHexPair).flatten := by
      apply List.filter_eq_self.mpr
      intro c hc
      obtain ⟨pair, hpair, hcp⟩ := List.mem_flatten.mp hc
      obtain ⟨v, hv, rfl⟩ := List.mem_map.mp hpair
      have hne := toHexPair_ne_32 v (hvals255 v hv) c hcp
      simp [bne_iff_ne, hne]
    rw [hfilter, chunks2_pairs (vals.map vernam.toHexPair) (by
        intro x hx
        obtain ⟨v, _, rfl⟩ := List.mem_map.mp hx
        rfl),
      parseChunks_hexPairs vals hvals255]
    show some (vals.flatMap feistel.bitsOfByte) = some encBits
    apply congrArg some
    rw [hvals, List.flatMap_def, List.map_map]
    have he : L8.map (feistel.bitsOfByte ∘ feistel.bitsVal) = L8.map id :=
      List.map_congr_left (fun x hx => hbytes_rt x hx)
    rw [he, List.map_id]
    exact hc8flat
  simp only [feistel.decrypt]
  rw [if_neg (show ¬(key.isEmpty = true) by rw [hke]; decide), hhex]
  show some (feistel.rstrip0 (feistel.bitsToString ((feistel.chunks64
      encBits).flatMap (fun b => feistel.feistelRounds
      (b ++ List.replicate (64 - b.length) false) rks true)))) = some p
  rw [hencbits, chunks64_of_blocks encBlocks hencBlen]
  have hdecmap : encBlocks.flatMap (fun b => feistel.feistelRounds
      (b ++ List.replicate (64 - b.length) false) rks true)
      = blocks64.flatten := by
    rw [hencB, List.flatMap_def, List.map_map]
    congr 1
    have hid : blocks64.map ((fun b => feistel.feistelRounds
        (b ++ List.replicate (64 - b.length) false) rks true)
        ∘ (fun b => feistel.feistelRounds b rks false)) = blocks64.map id := by
      apply List.map_congr_left
      intro b hb
      show feistel.feistelRounds (feistel.feistelRounds b rks false
        ++ List.replicate (64 - (feistel.feistelRounds b rks false).length)
          false) rks true = b
      rw [feistel_enc_len rks b (hb64len b hb),
        show (64 : Nat) - 64 = 0 from rfl, List.replicate_zero, List.append_nil]
      exact feistel_block_rt rks b (hb64len b hb)
    rw [hid, List.map_id]
  rw [hdecmap, hb64flat]
  have hnone : (fun (byte : List Bool) => if 0 < feistel.bitsVal (byte ++
      List.replicate (8 - byte.length) false) then
      some (feistel.bitsVal (byte ++ List.replicate (8 - byte.length) false))
    else none) (List.replicate 8 false) = none := by decide
  have hstr : feistel.bitsToString bits = p := by
    unfold feistel.bitsToString
    rw [hbits_flat, chunks8_blocks blocks8 hblocks8_len, hblocks8,
      List.filterMap_append, List.filterMap_map, filterMap_charbits_id p hp,
      filterMap_replicate_none (fun byte => if 0 < feistel.bitsVal (byte ++
          List.replicate (8 - byte.length) false) then
          some (feistel.bitsVal (byte ++ List.replicate (8 - byte.length) false))
        else none) (List.replicate 8 false) hnone q, List.append_nil]
  rw [hstr, rstrip0_id p (fun c hc => by have := (hp c hc).1; omega)]

/-- A dynamically typed Python key value, as `validate_key` receives it. -/
inductive PyVal where
  | str : Str → PyVal
  | int : Int → PyVal
  | pynone : PyVal

/-- Python whitespace for `str.split()` / `int()` stripping (ASCII part). -/
def isWS (c : Nat) : Bool := c == 32 || c == 9 || c == 10 || c == 13

/-- ASCII decimal digit. -/
def isDigitA (c : Nat) : Bool := 48 ≤ c && c ≤ 57

/-- Value of a run of decimal digits. -/
def digitsVal (l : Str) : Nat := l.foldl (fun a c => 10 * a + (c - 48)) 0

/-- `int(s)` on a string (ASCII fragment): strip whitespace, optional sign,
then decimal digits; `none` models the `ValueError`. -/
def parseIntStr (s : Str) : Option Int :=
  let t := ((s.dropWhile isWS).reverse.dropWhile isWS).reverse
  match t with
  | [] => none
  | c :: rest =>
    if c = 43 then
      if rest ≠ [] ∧ rest.all isDigitA then some (digitsVal rest) else none
    else if c = 45 then
      if rest ≠ [] ∧ rest.all isDigitA then some (-(digitsVal rest : Int)) else none
    else if (c :: rest).all isDigitA then some (digitsVal (c :: rest)) else none

/-- `int(key)` on a dynamically typed key: a non-string, non-integer value
raises `TypeError`, a malformed string `ValueError`; both are `none`. -/
def pyToInt : PyVal → Option Int
  | PyVal.str s => parseIntStr s
  | PyVal.int n => some n
  | PyVal.pynone => none

/-- `str.split()` with no separator: whitespace runs split, no empties. -/
def splitWSGo : Str → Str → List Str
  | [], [] => []
  | [], acc => [acc.reverse]
  | c :: rest, acc =>
    if isWS c then
      if acc = [] then splitWSGo rest [] else acc.reverse :: splitWSGo rest []
    else splitWSGo rest (c :: acc)

def splitWS (s : Str) : List Str := splitWSGo s []

namespace caesar

/-- `CaesarCipher.validate_key` over a dynamic key: `int(key)` raises only
`ValueError` or `TypeError`, both caught, so a verdict is always returned. -/
def validateKeyP (v : PyVal) : Option Bool :=
  some (match pyToInt v with
    | some k => decide (1 ≤ k ∧ k ≤ 25)
    | none => false)

end caesar

namespace additive

/-- `AdditiveCipher.validate_key` over a dynamic key; always a verdict. -/
def validateKeyP (v : PyVal) : Option Bool :=
  some (match pyToInt v with
    | some k => decide (0 ≤ k ∧ k ≤ 25)
    | none => false)

end additive

namespace affine

/-- `AffineCipher.validate_key` over a dynamic key: `key.split()` raises
`AttributeError` on a non-string key, which the `except (ValueError,
TypeError)` clause does not catch — modelled as `none`. -/
def validateKeyP : PyVal → Option Bool
  | PyVal.str s =>
    some (let parts := splitWS s
      if parts.length = 2 then
        match parseIntStr (parts.getD 0 []), parseIntStr (parts.getD 1 []) with
        | some a, some _ => decide (Int.gcd a 26 = 1)
        | _, _ => false
      else false)
  | _ => none

end affine

theorem toUpperA_ne_32 (c : Nat) (h : c ≠ 32) : toUpperA c ≠ 32 := by
  unfold toUpperA
  by_cases hl : isLowerA c = true
  · rw [if_pos hl]
    have := (isLowerA_iff c).mp hl
    omega
  · rw [if_neg hl]
    exact h

theorem vig_valid_cleanKey (key : Str) (h : vigenere.validAccepts key = true) :
    vigenere.cleanKey key ≠ [] := by
  unfold vigenere.validAccepts at h
  rw [Bool.and_eq_true, Bool.and_eq_true] at h
  obtain ⟨-, h2, -⟩ := h
  rw [Bool.not_eq_true', List.isEmpty_eq_false_iff_exists_mem] at h2
  obtain ⟨c, hc⟩ := h2
  obtain ⟨hck, hcne⟩ := List.mem_filter.mp hc
  intro hnil
  have hmem : toUpperA c ∈ vigenere.cleanKey key := by
    unfold vigenere.cleanKey
    apply List.mem_filter.mpr
    refine ⟨List.mem_map_of_mem toUpperA hck, ?_⟩
    simp only [decide_eq_true_eq]
    exact toUpperA_ne_32 c (by simpa [decide_eq_true_eq] using hcne)
  rw [hnil] at hmem
  exact absurd hmem (List.not_mem_nil _)

theorem otp_valid_cleanKey (key : Str) (h : otp.validAccepts key = true) :
    otp.cleanKey key ≠ [] := by
  unfold otp.validAccepts at h
  rw [Bool.and_eq_true] at h
  obtain ⟨-, h2⟩ := h
  rw [Bool.not_eq_true', List.isEmpty_eq_false_iff_exists_mem] at h2
  obtain ⟨c, hc⟩ := h2
  intro hnil
  have hmem : toUpperA c ∈ otp.cleanKey key := by
    unfold otp.cleanKey
    exact List.mem_map_of_mem toUpperA hc
  rw [hnil] at hmem
  exact absurd hmem (List.not_mem_nil _)

theorem autokey_valid_cleanKey (key : Str) (h : autokey.validAccepts key = true) :
    autokey.cleanKey key ≠ [] := by
  unfold autokey.validAccepts at h
  rw [Bool.and_eq_true] at h
  obtain ⟨-, h2⟩ := h
  rw [Bool.not_eq_true', List.isEmpty_eq_false_iff_exists_mem] at h2
  obtain ⟨c, hc⟩ := h2
  intro hnil
  have hmem : toUpperA c ∈ autokey.cleanKey key := by
    unfold autokey.cleanKey
    exact List.mem_map_of_mem toUpperA hc
  rw [hnil] at hmem
  exact absurd hmem (List.not_mem_nil _)

theorem columnar_valid_cleanCol (key : Str) (h : columnar.validAccepts key = true) :
    columnar.cleanCol key ≠ [] := by
  unfold columnar.validAccepts at h
  rw [Bool.and_eq_true, Bool.and_eq_true] at h
  obtain ⟨-, h2⟩ := h
  rw [decide_eq_true_eq] at h2
  have hex : ∃ c ∈ key, c ≠ 32 := by
    rcases hke : key.filter (fun c => c != 32) with _ | ⟨c, rest⟩
    · rw [hke] at h2; simp at h2
    · have hc : c ∈ key.filter (fun c => c != 32) := by rw [hke]; exact List.mem_cons_self _ _
      obtain ⟨hck, hcne⟩ := List.mem_filter.mp hc
      exact ⟨c, hck, by simpa [bne_iff_ne] using hcne⟩
  obtain ⟨c, hck, hcne⟩ := hex
  intro hnil
  have hmem : toUpperA c ∈ columnar.cleanCol key := by
    unfold columnar.cleanCol
    apply List.mem_filter.mpr
    refine ⟨List.mem_map_of_mem toUpperA hck, ?_⟩
    simpa [bne_iff_ne] using toUpperA_ne_32 c hcne
  rw [hnil] at hmem
  exact absurd hmem (List.not_mem_nil _)

/-- C1 (counterexample): with the accepted key `"KEY"`, Playfair does not
round-trip its own normalized text: `letters_only("XX")` is the prepared
text `"XXXX"`, and decrypting its encryption yields `"XXXXXXXX"`, because
`decrypt` never strips the inserted `X` fillers and `prepare_text` pads
again. -/
theorem C1_counterexample :
    playfair.validAccepts (S "KEY") = true ∧
    (playfair.encrypt (playfair.joinPairs (playfair.prepareText (S "XX")))
        (S "KEY")).bind (fun e => playfair.decrypt e (S "KEY"))
      ≠ some (playfair.joinPairs (playfair.prepareText (S "XX"))) := by
  constructor
  · decide
  · decide

/-- C1 (amended): for every cipher with an inverse and every accepted key,
decrypting the encryption of a text reproduces the cipher's own
normalization of that text — where the normalized form is the cipher's
actual one (upcased for Caesar/Multiplicative/Affine/Vigenère, unchanged
for Additive/Autokey/OTP/Vernam/Feistel, letters-padded for Hill and
Columnar, space-stripped-upcased for Rail Fence), Playfair reproduces
`prepare_text` of the raw input rather than a fixpoint, the OTP key must
additionally cover the message's letters, and Vernam/Feistel inputs stay
within one byte per character (nonzero for Feistel).  The clauses whose
cipher calls `str.isalpha`/`str.upper` carry the embedding's ASCII side
condition (`asciiStr`) on their string arguments: outside ASCII the model's
pass-through of non-ASCII letters no longer tracks Python's `isalpha`. -/
theorem C1_roundtrip_normalized :
    (∀ t k, asciiStr t → caesar.validAccepts k = true →
      caesar.decrypt (caesar.encrypt t k) k = t.map toUpperA) ∧
    (∀ t k, asciiStr t → additive.validAccepts k = true →
      additive.decrypt (additive.encrypt t k) k = t) ∧
    (∀ t k, asciiStr t → multiplicative.validAccepts k = true →
      multiplicative.decrypt (multiplicative.encrypt t k) k
        = some (t.map toUpperA)) ∧
    (∀ t a b, asciiStr t → affine.validAccepts a b = true →
      affine.decrypt (affine.encrypt t a b) a b = some (t.map toUpperA)) ∧
    (∀ t key, asciiStr t → asciiStr key → vigenere.validAccepts key = true →
      ∃ e, vigenere.encrypt t key = some e ∧
        vigenere.decrypt e key = some (t.map toUpperA)) ∧
    (∀ t m00 m01 m10 m11, asciiStr t → hill.validAccepts m00 m01 m10 m11 = true →
      hill.decrypt (hill.encrypt t m00 m01 m10 m11) m00 m01 m10 m11
        = some (hill.padX (hill.clean t))) ∧
    (∀ t key, asciiStr t → asciiStr key → autokey.validAccepts key = true →
      ∃ e, autokey.encrypt t key = some e ∧ autokey.decrypt e key = some t) ∧
    (∀ t key, asciiStr t → asciiStr key → playfair.validAccepts key = true →
      ∃ e, playfair.encrypt t key = some e ∧
        playfair.decrypt e key
          = some (playfair.joinPairs (playfair.prepareText t))) ∧
    (∀ t key, asciiStr t → asciiStr key → otp.validAccepts key = true →
      otp.letterCount t ≤ otp.letterCount key →
      ∃ e, otp.encrypt t key = some e ∧ otp.decrypt e key = some t) ∧
    (∀ p k, asciiStr p → railfence.validAccepts k = true →
      railfence.decrypt (railfence.encrypt p k) k = railfence.clean p) ∧
    (∀ p key, asciiStr p → asciiStr key → columnar.validAccepts key = true →
      ∃ e, columnar.encrypt p key = some e ∧
        columnar.decrypt e key = some (columnar.padT p key)) ∧
    (∀ p key, vernam.validAccepts key = true → (∀ c ∈ p, c ≤ 255) →
      (∀ c ∈ key, c ≤ 255) →
      ∃ e, vernam.encrypt p key = some e ∧ vernam.decrypt e key = some p) ∧
    (∀ p key, feistel.validAccepts key = true → (∀ c ∈ p, 1 ≤ c ∧ c ≤ 255) →
      ∃ e, feistel.encrypt p key = some e ∧ feistel.decrypt e key = some p) := by
  refine ⟨?_, ?_, ?_, ?_, ?_, ?_, ?_, ?_, ?_, ?_, ?_, ?_, ?_⟩
  · intro t k _ _
    exact caesar_roundtrip t k
  · intro t k _ _
    exact additive_roundtrip t k
  · intro t k _ hv
    exact multiplicative_roundtrip t k (by
      unfold multiplicative.validAccepts at hv
      exact of_decide_eq_true hv)
  · intro t a b _ hv
    exact affine_roundtrip t a b (by
      unfold affine.validAccepts at hv
      exact of_decide_eq_true hv)
  · intro t key _ _ hv
    exact vigenere_roundtrip t key (vig_valid_cleanKey key hv)
  · intro t m00 m01 m10 m11 _ hv
    exact hill_roundtrip t m00 m01 m10 m11 hv
  · intro t key _ _ hv
    exact autokey_roundtrip t key (autokey_valid_cleanKey key hv)
  · intro t key _ _ _
    exact playfair_roundtrip t key
  · intro t key _ _ hv hlen
    exact otp_roundtrip t key (otp_valid_cleanKey key hv)
      (by rw [otp_cleanKey_length]; exact hlen)
  · intro p k _ hv
    refine railfence_roundtrip p k ?_
    unfold railfence.validAccepts at hv
    rw [Bool.and_eq_true] at hv
    exact of_decide_eq_true hv.1
  · intro p key _ _ hv
    exact columnar_roundtrip p key (columnar_valid_cleanCol key hv)
  · intro p key hv hp hk
    refine vernam_roundtrip p key hp hk ?_
    unfold vernam.validAccepts at hv
    rw [Bool.not_eq_true'] at hv
    intro hnil
    rw [hnil] at hv
    exact absurd hv (by decide)
  · intro p key hv hp
    refine feistel_roundtrip p key hp ?_
    unfold feistel.validAccepts at hv
    rw [Bool.not_eq_true'] at hv
    intro hnil
    rw [hnil] at hv
    exact absurd hv (by decide)

/-- C1 (witness): the amended round-trip instantiated on concrete texts and
accepted keys for all thirteen ciphers. -/
theorem C1_witness :
    caesar.decrypt (caesar.encrypt (S "Attack at dawn") 3) 3
      = (S "Attack at dawn").map toUpperA ∧
    additive.decrypt (additive.encrypt (S "Hello, World") 7) 7
      = S "Hello, World" ∧
    multiplicative.decrypt (multiplicative.encrypt (S "HELLO") 7) 7
      = some ((S "HELLO").map toUpperA) ∧
    affine.decrypt (affine.encrypt (S "TEST") 5 8) 5 8
      = some ((S "TEST").map toUpperA) ∧
    (∃ e, vigenere.encrypt (S "HELLO") (S "KEY") = some e ∧
      vigenere.decrypt e (S "KEY") = some ((S "HELLO").map toUpperA)) ∧
    hill.decrypt (hill.encrypt (S "HELP") 3 3 2 5) 3 3 2 5
      = some (hill.padX (hill.clean (S "HELP"))) ∧
    (∃ e, autokey.encrypt (S "HELLO") (S "KEY") = some e ∧
      autokey.decrypt e (S "KEY") = some (S "HELLO")) ∧
    (∃ e, playfair.encrypt (S "HI") (S "KEY") = some e ∧
      playfair.decrypt e (S "KEY")
        = some (playfair.joinPairs (playfair.prepareText (S "HI")))) ∧
    (∃ e, otp.encrypt (S "HI") (S "XMCKL") = some e ∧
      otp.decrypt e (S "XMCKL") = some (S "HI")) ∧
    railfence.decrypt (railfence.encrypt (S "WEAREDISCOVERED") 3) 3
      = railfence.clean (S "WEAREDISCOVERED") ∧
    (∃ e, columnar.encrypt (S "HELLO WORLD") (S "KEY") = some e ∧
      columnar.decrypt e (S "KEY")
        = some (columnar.padT (S "HELLO WORLD") (S "KEY"))) ∧
    (∃ e, vernam.encrypt (S "AB") (S "K") = some e ∧
      vernam.decrypt e (S "K") = some (S "AB")) ∧
    (∃ e, feistel.encrypt (S "AB") (S "K") = some e ∧
      feistel.decrypt e (S "K") = some (S "AB")) := by
  obtain ⟨h1, h2, h3, h4, h5, h6, h7, h8, h9, h10, h11, h12, h13⟩ :=
    C1_roundtrip_normalized
  exact ⟨h1 _ 3 (by decide) (by decide), h2 _ 7 (by decide) (by decide),
    h3 _ 7 (by decide) (by decide), h4 _ 5 8 (by decide) (by decide),
    h5 _ _ (by decide) (by decide) (by decide),
    h6 _ 3 3 2 5 (by decide) (by decide),
    h7 _ _ (by decide) (by decide) (by decide),
    h8 _ _ (by decide) (by decide) (by decide),
    h9 _ _ (by decide) (by decide) (by decide) (by decide),
    h10 _ 3 (by decide) (by decide),
    h11 _ _ (by decide) (by decide) (by decide),
    h12 _ _ (by decide) (by decide) (by decide),
    h13 _ _ (by decide) (by decide)⟩

/-- C2 (refuted, code bug): the shift family does not preserve case
uniformly — `CaesarCipher.encrypt` and `VigenereCipher.encrypt` upcase the
whole plaintext (`"hello"` with shift 3 becomes `"KHOOR"`, with key
`"KEY"` becomes `"RIJVS"`), while `AdditiveCipher.encrypt` preserves case
(`"hello"` stays `"khoor"`). -/
theorem C2_case_divergence :
    caesar.encrypt (S "hello") 3 = S "KHOOR" ∧
    vigenere.encrypt (S "hello") (S "KEY") = some (S "RIJVS") ∧
    additive.encrypt (S "hello") 3 = S "khoor" := by
  refine ⟨by decide, by decide, by decide⟩

/-- C3 (refuted, code bug): `AffineCipher.validate_key` calls `key.split()`
before any type guard, so a non-string key (an integer, `None`) raises
`AttributeError`, which its `except (ValueError, TypeError)` clause does
not catch (`none` in the model); string keys, and every key given to the
guarded Caesar/Additive validators, always get a verdict. -/
theorem C3_validate_key_raises :
    affine.validateKeyP (PyVal.int 5) = none ∧
    affine.validateKeyP PyVal.pynone = none ∧
    (∀ s, (affine.validateKeyP (PyVal.str s)).isSome = true) ∧
    (∀ v, (caesar.validateKeyP v).isSome = true) ∧
    (∀ v, (additive.validateKeyP v).isSome = true) :=
  ⟨rfl, rfl, fun _ => rfl, fun _ => rfl, fun _ => rfl⟩

/-- C4 (refuted, code bug): with the empty key — which both validators
reject — `VigenereCipher.encrypt`/`decrypt` hit `key[key_index % len(key)]`
and `ColumnarCipher.encrypt`/`decrypt` hit `% num_cols` and `// num_cols`
with `len(key) == 0`, raising an unguarded `ZeroDivisionError` (`none` in
the model) instead of failing gracefully. -/
theorem C4_malformed_key_crash :
    vigenere.validAccepts (S "") = false ∧
    columnar.validAccepts (S "") = false ∧
    vigenere.encrypt (S "HELLO") (S "") = none ∧
    vigenere.decrypt (S "HELLO") (S "") = none ∧
    columnar.encrypt (S "HELLO") (S "") = none ∧
    columnar.decrypt (S "ABC") (S "") = none := by
  refine ⟨by decide, by decide, by decide, by decide, by decide, by decide⟩

/-- C5 (counterexample): the key `"123"` has no fewer letters than the
empty message (both have zero), yet `OTPCipher.encrypt` raises — the
up-front `if not key` check also demands at least one key letter. -/
theorem C5_counterexample :
    otp.letterCount (S "") ≤ otp.letterCount (S "123") ∧
    otp.encrypt (S "") (S "123") = none ∧
    otp.decrypt (S "") (S "123") = none := by
  refine ⟨by decide, by decide, by decide⟩

/-- C5 (amended): OTP encrypt and decrypt succeed exactly when the cleaned
key is nonempty AND its letter count covers the message's letter count;
otherwise they raise before producing any output. -/
theorem C5_otp_succeeds_iff : ∀ t key : Str,
    ((otp.encrypt t key).isSome = true ↔
      (otp.cleanKey key ≠ [] ∧ otp.letterCount t ≤ otp.letterCount key)) ∧
    ((otp.decrypt t key).isSome = true ↔
      (otp.cleanKey key ≠ [] ∧ otp.letterCount t ≤ otp.letterCount key)) :=
  fun t key => ⟨otp_encrypt_isSome_iff t key, otp_decrypt_isSome_iff t key⟩

/-- C6: with the key "3 3 2 5" (matrix [[3,3],[2,5]], determinant 9,
invertible mod 26) the Hill cipher round-trips every even-length string of
uppercase letters exactly. -/
theorem C6_hill_3325 (p : Str) (h1 : ∀ c ∈ p, isUpperA c = true)
    (h2 : p.length % 2 = 0) :
    hill.decrypt (hill.encrypt p 3 3 2 5) 3 3 2 5 = some p := by
  have h3 := hill_roundtrip p 3 3 2 5 (by decide)
  have hclean : hill.clean p = p := by
    unfold hill.clean
    have hf : p.filter isAlphaA = p := List.filter_eq_self.mpr (fun c hc => by
      unfold isAlphaA
      rw [h1 c hc, Bool.true_or])
    rw [hf]
    have hm : p.map toUpperA = p.map id :=
      List.map_congr_left (fun c hc => toUpperA_of_upper (h1 c hc))
    rw [hm, List.map_id]
  have hpad : hill.padX p = p := by
    unfold hill.padX
    rw [if_neg (by omega)]
  rw [h3, hclean, hpad]

/-- C6 (witness): the Hill round-trip on the concrete block "HELP". -/
theorem C6_witness :
    hill.decrypt (hill.encrypt (S "HELP") 3 3 2 5) 3 3 2 5 = some (S "HELP") :=
  C6_hill_3325 (S "HELP") (by decide) (by decide)

/-- C7: Multiplicative key validation rejects 13 (gcd 13 26 = 13) and
accepts 7, and Hill validation rejects "2 4 6 8" (determinant -8 ≡ 18,
gcd 18 26 = 2). -/
theorem C7_coprime_validation :
    multiplicative.validAccepts 13 = false ∧
    multiplicative.validAccepts 7 = true ∧
    hill.validAccepts 2 4 6 8 = false := by
  refine ⟨by decide, by decide, by decide⟩

set_option maxRecDepth 8000 in
/-- C8: Rail Fence with 3 rails round-trips "WEAREDISCOVERED" exactly, and
`validate_key(1)` is rejected. -/
theorem C8_railfence_vector :
    railfence.decrypt (railfence.encrypt (S "WEAREDISCOVERED") 3) 3
      = S "WEAREDISCOVERED" ∧
    railfence.validAccepts 1 = false := by
  refine ⟨by decide, by decide⟩

/-- C9: Vernam is exactly self-inverse for byte-range plaintexts and any
nonempty byte-range key: decrypting the hex-rendered XOR stream with the
same cyclically repeated key reproduces the plaintext. -/
theorem C9_vernam_self_inverse (p key : Str) (hp : ∀ c ∈ p, c ≤ 255)
    (hk : ∀ c ∈ key, c ≤ 255) (hne : key ≠ []) :
    ∃ e, vernam.encrypt p key = some e ∧ vernam.decrypt e key = some p :=
  vernam_roundtrip p key hp hk hne

/-- C9 (witness): the Vernam round-trip on the concrete input "AB" with
key "K". -/
theorem C9_witness :
    ∃ e, vernam.encrypt (S "AB") (S "K") = some e ∧
      vernam.decrypt e (S "K") = some (S "AB") :=
  C9_vernam_self_inverse (S "AB") (S "K") (by decide) (by decide) (by decide)

/-- C10: Caesar accepts an integer key exactly when 1 ≤ k ≤ 25 (0 is
rejected), Additive exactly when 0 ≤ k ≤ 25, and both validators return a
verdict — never an exception — for every dynamically typed key, numeric or
not. -/
theorem C10_shift_key_policy :
    (∀ k : Int, caesar.validAccepts k = true ↔ (1 ≤ k ∧ k ≤ 25)) ∧
    caesar.validAccepts 0 = false ∧
    (∀ k : Int, additive.validAccepts k = true ↔ (0 ≤ k ∧ k ≤ 25)) ∧
    additive.validAccepts 0 = true ∧
    (∀ v : PyVal, (caesar.validateKeyP v).isSome = true) ∧
    (∀ v : PyVal, (additive.validateKeyP v).isSome = true) ∧
    caesar.validateKeyP (PyVal.str (S "abc")) = some false ∧
    additive.validateKeyP (PyVal.str (S "abc")) = some false := by
  refine ⟨?_, by decide, ?_, by decide, fun _ => rfl, fun _ => rfl,
    by decide, by decide⟩
  · intro k
    unfold caesar.validAccepts
    rw [Bool.and_eq_true, decide_eq_true_eq, decide_eq_true_eq]
  · intro k
    unfold additive.validAccepts
    rw [Bool.and_eq_true, decide_eq_true_eq, decide_eq_true_eq]
